import Mathlib

/-!
# Shallow embedding of the software-cpu two-pass assembler

This file embeds the two assembler implementations of the repository:

* namespace `AsmMain`    — `src/src/assembler/assembler.cpp`
* namespace `AsmScratch` — `src/unnamed/part_002` (the "scratch assembler")

Source text is modelled as `List Char`, machine words and bytes as `Nat`
(words are kept below 2^16 by the same masking/wrapping the C++ performs on
`uint16_t`), and C++ exceptions as `Except String` carrying the thrown
message.  All definitions are direct transcriptions of the corresponding
C++ functions; theorems about the specification's claims follow at the end.
-/

deriving instance DecidableEq for Except

/-- Whitespace set used by `trim` (`" \t\r\n"`) and by both tokenizers. -/
def isWsChar (c : Char) : Bool :=
  c == ' ' || c == '\t' || c == '\r' || c == '\n'

/-- `trim` from both sources: drop leading and trailing `" \t\r\n"`. -/
def trim (s : List Char) : List Char :=
  ((s.dropWhile isWsChar).reverse.dropWhile isWsChar).reverse

/-- ASCII-case-insensitive equality (`iequals` in both sources): equal sizes
and pointwise equal after `toupper`, i.e. equal `toUpper` images. -/
def iequals (a b : List Char) : Bool :=
  a.map Char.toUpper == b.map Char.toUpper

/-- Uppercasing loop used by both sources (`std::toupper` per character). -/
def upper (s : List Char) : List Char :=
  s.map Char.toUpper

/-- Worker for `getlines`, structurally recursive on a fuel argument so
that it evaluates by kernel reduction.  Every iteration of the
`std::getline` loop consumes at least one character, so a fuel equal to the
length of the text can never run out (the `0, _ :: _` case is unreachable
from `getlines`). -/
def getlinesF : Nat → List Char → List (List Char)
  | _, [] => []
  | 0, _ :: _ => []
  | fuel + 1, c :: cs =>
    match (c :: cs).dropWhile (fun x => x != '\n') with
    | [] => [(c :: cs).takeWhile (fun x => x != '\n')]
    | _ :: rest2 => (c :: cs).takeWhile (fun x => x != '\n') :: getlinesF fuel rest2

/-- Splits a source text into lines exactly as the `std::getline` loop in
both `assemble` functions does: lines are separated by `'\n'`, a trailing
newline does not produce an extra empty line, and an empty input yields no
lines. -/
def getlines (cs : List Char) : List (List Char) :=
  getlinesF cs.length cs

/-- Continuation predicate of the numeric-literal scan in both tokenizers:
`isalnum(c) || c == 'x' || c == 'X'`. -/
def numCont (c : Char) : Bool :=
  c.isAlphanum || c == 'x' || c == 'X'

/-- ASCII hex digit (used by the `std::stoi` model for base 16). -/
def isHexDigitC (c : Char) : Bool :=
  c.isDigit || (decide ('a' ≤ c) && decide (c ≤ 'f')) || (decide ('A' ≤ c) && decide (c ≤ 'F'))

/-- Digit character in the given base (10 or 16). -/
def isDigitBase (base : Nat) (c : Char) : Bool :=
  if base = 16 then isHexDigitC c else c.isDigit

/-- Numeric value of an ASCII digit / hex digit. -/
def digitVal (c : Char) : Nat :=
  if c.isDigit then c.toNat - 48
  else if decide ('a' ≤ c) && decide (c ≤ 'f') then c.toNat - 87
  else c.toNat - 55

/-- Value of a digit string in the given base. -/
def natOfDigits (base : Nat) (ds : List Char) : Nat :=
  ds.foldl (fun a c => a * base + digitVal c) 0

/-- The subject sequence `strtol` scans for base 16: an optional `0x`/`0X`
prefix is consumed only when a hex digit follows it (otherwise `strtol`
falls back to parsing the leading `0`). -/
def stoiBody (base : Nat) (cs : List Char) : List Char :=
  if base = 16 then
    match cs with
    | '0' :: c2 :: rest =>
      if (c2 == 'x' || c2 == 'X')
          && (match rest with | r :: _ => isHexDigitC r | [] => false) then rest
      else cs
    | _ => cs
  else cs

/-- Model of `std::stoi(text, _, base)` on the digit-led texts the lexers
produce (`Number` tokens always start with a digit, so the sign and
leading-whitespace handling of `strtol` can never trigger).  `none` models
the `std::invalid_argument` / `std::out_of_range` exceptions: no digit is
scanned, or the scanned value exceeds `INT_MAX`. -/
def stoi (cs : List Char) (base : Nat) : Option Nat :=
  let ds := (stoiBody base cs).takeWhile (isDigitBase base)
  if ds.isEmpty then none
  else if natOfDigits base ds > 2147483647 then none
  else some (natOfDigits base ds)

/-- Message standing for the exceptions thrown by `std::stoi` itself. -/
def eStoiFail : String := "stoi conversion failure"

/-- Base selection of `parse_number16` in both sources: 16 iff the text has
more than two characters and starts with `0x` or `0X`. -/
def numBase (text : List Char) : Nat :=
  match text with
  | '0' :: c2 :: _ :: _ => if c2 == 'x' || c2 == 'X' then 16 else 10
  | _ => 10

/-- Range error message of `parse_number16` in `assembler.cpp`. -/
def eRange16A : String := "Immediate/address out of range for 16-bit value"

/-- Range error message of `parse_number16` in the scratch assembler. -/
def eRange16B : String := "number out of range"

/-- `parse_number16` from `assembler.cpp`: decimal or `0x` hex, rejecting
values above `0xFFFF`.  (The `val < 0` check of the source can never fire:
the lexer's `Number` tokens contain no sign character.) -/
def parse_number16 (text : List Char) : Except String Nat :=
  match stoi text (numBase text) with
  | none => .error eStoiFail
  | some v => if v > 0xFFFF then .error eRange16A else .ok v

/-- `parse_number16` from the scratch assembler: identical computation, the
out-of-range message differs. -/
def parse_number16B (text : List Char) : Except String Nat :=
  match stoi text (numBase text) with
  | none => .error eStoiFail
  | some v => if v > 0xFFFF then .error eRange16B else .ok v

/-- `make_instr_word`, identical in both sources:
`(opcode & 0x1F) << 11 | (mode & 0x07) << 8 | (rd & 0x07) << 5 | (rs & 0x07) << 2`. -/
def make_instr_word (opcode mode rd rs : Nat) : Nat :=
  ((opcode &&& 0x1F) <<< 11) ||| ((mode &&& 0x07) <<< 8) |||
    ((rd &&& 0x07) <<< 5) ||| ((rs &&& 0x07) <<< 2)

/-- The word-to-byte serialization loop, identical in both sources: for each
word push `w & 0xFF` then `(w >> 8) & 0xFF`. -/
def wordsToBytes : List Nat → List Nat
  | [] => []
  | w :: ws => (w &&& 0xFF) :: ((w >>> 8) &&& 0xFF) :: wordsToBytes ws

namespace AsmMain

/-! ## `src/src/assembler/assembler.cpp` -/

/-- Token kinds of the main assembler's lexer. -/
inductive TokenType where
  | identifier
  | number
  | register
  | comma
  | colon
  | hash
  | lbracket
  | rbracket
  | plus
deriving DecidableEq

/-- A token: kind, text, source line, and column. -/
structure Token where
  type : TokenType
  text : List Char
  line : Nat
  column : Nat
deriving DecidableEq

/-- Continuation predicate of the identifier scan: `isalnum(c) || c == '_'`. -/
def identCont (c : Char) : Bool :=
  c.isAlphanum || c == '_'

/-- The lexer's error message (thrown without the offending character or
its position). -/
def eUnexpectedChar : String := "Unexpected character in source"

/-- The scanning loop of `tokenize_line`, with `i` the current column.
Structural recursion on a fuel argument (each iteration consumes at least
one character, so the fuel of `tokenize_line` — the length of the scanned
text — can never run out; the `0, _, _ :: _` case is unreachable). -/
def tokenizeFrom (line_no : Nat) : Nat → Nat → List Char → Except String (List Token)
  | _, _, [] => .ok []
  | 0, _, _ :: _ => .ok []
  | fuel + 1, i, c :: rest =>
    if isWsChar c then tokenizeFrom line_no fuel (i + 1) rest
    else if c = ',' then do
      let ts ← tokenizeFrom line_no fuel (i + 1) rest
      .ok (⟨.comma, [c], line_no, i⟩ :: ts)
    else if c = ':' then do
      let ts ← tokenizeFrom line_no fuel (i + 1) rest
      .ok (⟨.colon, [c], line_no, i⟩ :: ts)
    else if c = '#' then do
      let ts ← tokenizeFrom line_no fuel (i + 1) rest
      .ok (⟨.hash, [c], line_no, i⟩ :: ts)
    else if c = '[' then do
      let ts ← tokenizeFrom line_no fuel (i + 1) rest
      .ok (⟨.lbracket, [c], line_no, i⟩ :: ts)
    else if c = ']' then do
      let ts ← tokenizeFrom line_no fuel (i + 1) rest
      .ok (⟨.rbracket, [c], line_no, i⟩ :: ts)
    else if c = '+' then do
      let ts ← tokenizeFrom line_no fuel (i + 1) rest
      .ok (⟨.plus, [c], line_no, i⟩ :: ts)
    else if c.isDigit then do
      let body := rest.takeWhile numCont
      let ts ← tokenizeFrom line_no fuel (i + 1 + body.length) (rest.dropWhile numCont)
      .ok (⟨.number, c :: body, line_no, i⟩ :: ts)
    else if c.isAlpha || c = '_' then
      let body := rest.takeWhile identCont
      let ident := c :: body
      let up := upper ident
      let tok : Token :=
        if up == "R0".data || up == "R1".data || up == "R2".data || up == "R3".data
        then ⟨.register, up, line_no, i⟩
        else ⟨.identifier, ident, line_no, i⟩
      do
        let ts ← tokenizeFrom line_no fuel (i + 1 + body.length) (rest.dropWhile identCont)
        .ok (tok :: ts)
    else .error eUnexpectedChar

/-- `tokenize_line`: strip from `';'` onward, then scan from column 0. -/
def tokenize_line (line : List Char) (line_no : Nat) :
    Except String (List Token) :=
  tokenizeFrom line_no (line.takeWhile (fun c => c != ';')).length 0
    (line.takeWhile (fun c => c != ';'))

/-- Kind of a parsed line. -/
inductive LineKind where
  | empty
  | instruction
  | directive
deriving DecidableEq

/-- Operand kinds. -/
inductive OperandKind where
  | reg
  | imm
  | labelRef
  | rawNumber
deriving DecidableEq

/-- An operand: kind plus raw text. -/
structure Operand where
  kind : OperandKind
  text : List Char
deriving DecidableEq

/-- A parsed source line. -/
structure ParsedLine where
  line_no : Nat := 0
  label : List Char := []
  kind : LineKind := .empty
  op : List Char := []
  operands : List Operand := []
deriving DecidableEq

def eHashNum : String := "Expected number after '#'"

def eBadOperand : String := "Unsupported operand syntax"

def eExpectedInstr : String := "Expected instruction or directive"

/-- The operand-collecting `while` loop of `parse_tokens`: commas are
skipped; `Register`, `# Number`, bare `Number` and bare `Identifier`
become operands; anything else throws. -/
def parse_operands : List Token → Except String (List Operand)
  | [] => .ok []
  | t :: rest =>
    if t.type = .comma then parse_operands rest
    else if t.type = .register then do
      let ops ← parse_operands rest
      .ok (⟨.reg, t.text⟩ :: ops)
    else if t.type = .hash then
      match rest with
      | t2 :: rest2 =>
        if t2.type = .number then do
          let ops ← parse_operands rest2
          .ok (⟨.imm, t2.text⟩ :: ops)
        else .error eHashNum
      | [] => .error eHashNum
    else if t.type = .number then do
      let ops ← parse_operands rest
      .ok (⟨.rawNumber, t.text⟩ :: ops)
    else if t.type = .identifier then do
      let ops ← parse_operands rest
      .ok (⟨.labelRef, t.text⟩ :: ops)
    else .error eBadOperand

/-- The mnemonic/operand part of `parse_tokens`, applied after the optional
label has been consumed: a mandatory `Identifier` mnemonic (a leading `'.'`
marks a directive), then the operand loop. -/
def parse_rest (line_no : Nat) (label : List Char) :
    List Token → Except String ParsedLine
  | [] => .ok { line_no := line_no, label := label }
  | m :: opnds =>
    if m.type = TokenType.identifier then
      let op := m.text
      let isDir : Bool := match op with | c :: _ => c == '.' | [] => false
      do
        let ops ← parse_operands opnds
        .ok { line_no := line_no, label := label,
              kind := if isDir then .directive else .instruction,
              op := op, operands := ops }
    else .error eExpectedInstr

/-- `parse_tokens`: an optional leading `Identifier Colon` is the label,
the remaining tokens are the mnemonic and operands. -/
def parse_tokens (tokens : List Token) : Except String ParsedLine :=
  match tokens with
  | [] => .ok {}
  | t0 :: b :: more =>
    if t0.type = TokenType.identifier ∧ b.type = TokenType.colon then
      parse_rest t0.line t0.text more
    else parse_rest t0.line [] (t0 :: b :: more)
  | [t0] => parse_rest t0.line [] [t0]

def eRange16 : String := eRange16A

def eUnknownReg : String := "Unknown register"

/-- `reg_id_from_name`: case-insensitive `R0..R3`. -/
def reg_id_from_name (name : List Char) : Except String Nat :=
  if iequals name "R0".data then .ok 0
  else if iequals name "R1".data then .ok 1
  else if iequals name "R2".data then .ok 2
  else if iequals name "R3".data then .ok 3
  else .error eUnknownReg

/-- The assembler context threaded through the two passes. -/
structure AsmContext where
  current_addr_words : Nat := 0x8000
  symbols : List (List Char × Nat) := []
  line_addr : List Nat := []
deriving DecidableEq

/-- `INSTR_TABLE`: the five supported mnemonics with their opcodes. -/
def INSTR_TABLE : List (List Char × Nat) :=
  [("NOP".data, 0), ("HALT".data, 1), ("ADD".data, 5), ("JMP".data, 13), ("JZ".data, 14)]

/-- Linear scan of `INSTR_TABLE` with `iequals`. -/
def find_instr (op_upper : List Char) : Option (List Char × Nat) :=
  INSTR_TABLE.find? (fun info => iequals op_upper info.1)

def has_instr (op_upper : List Char) : Bool :=
  (find_instr op_upper).isSome

/-- Linear membership test on the symbol vector. -/
def symbol_exists (ctx : AsmContext) (name : List Char) : Bool :=
  ctx.symbols.any (fun p => p.1 == name)

def eUnknownLabelMsg : String := "Unknown label: "

/-- `lookup_symbol`: first match in the symbol vector, or a thrown
`Unknown label` error. -/
def lookup_symbol (ctx : AsmContext) (name : List Char) : Except String Nat :=
  match ctx.symbols.find? (fun p => p.1 == name) with
  | some p => .ok p.2
  | none => .error (eUnknownLabelMsg ++ String.mk name)

def eDuplicateLabel : String := "Duplicate label"

def eOrgExpects : String := ".org expects one numeric operand"

/-- The label-insertion block at the top of `pass1`'s loop body: insert the
line's label at the current address, rejecting duplicates. -/
def pass1_label (ctx : AsmContext) (pl : ParsedLine) : Except String AsmContext :=
  if pl.label ≠ [] then
    if symbol_exists ctx pl.label then .error eDuplicateLabel
    else .ok { ctx with symbols := ctx.symbols ++ [(pl.label, ctx.current_addr_words)] }
  else .ok ctx

/-- The counter-advance block of `pass1`'s loop body: advance the running
address by the line's word size (`uint16_t` arithmetic, hence `% 65536`). -/
def pass1_advance (ctx : AsmContext) (pl : ParsedLine) : Except String AsmContext :=
  if pl.kind = .directive then
    if iequals pl.op ".org".data then
      match pl.operands with
      | [o] =>
        if o.kind = .rawNumber then do
          let v ← parse_number16 o.text
          pure { ctx with current_addr_words := v }
        else .error eOrgExpects
      | _ => .error eOrgExpects
    else if iequals pl.op ".word".data then
      pure { ctx with current_addr_words := (ctx.current_addr_words + 1) % 65536 }
    else pure ctx
  else if pl.kind = .instruction then
    let up := upper pl.op
    if ¬ has_instr up then pure ctx
    else
      let a1 := (ctx.current_addr_words + 1) % 65536
      if iequals up "ADD".data then
        match pl.operands with
        | [_, o2] =>
          if o2.kind = .imm then pure { ctx with current_addr_words := (a1 + 1) % 65536 }
          else pure { ctx with current_addr_words := a1 }
        | _ => pure { ctx with current_addr_words := a1 }
      else if iequals up "JMP".data || iequals up "JZ".data then
        pure { ctx with current_addr_words := (a1 + 1) % 65536 }
      else pure { ctx with current_addr_words := a1 }
  else pure ctx

/-- The body of `pass1`'s loop for one line: record the line's address,
insert its label, then advance the counter. -/
def pass1_line (ctx0 : AsmContext) (pl : ParsedLine) : Except String AsmContext := do
  let ctx := { ctx0 with line_addr := ctx0.line_addr ++ [ctx0.current_addr_words] }
  let ctx ← pass1_label ctx pl
  pass1_advance ctx pl

/-- `pass1`: fold `pass1_line` over the parsed lines. -/
def pass1_go : List ParsedLine → AsmContext → Except String AsmContext
  | [], ctx => .ok ctx
  | pl :: rest, ctx => do
    let ctx2 ← pass1_line ctx pl
    pass1_go rest ctx2

def pass1 (lines : List ParsedLine) (ctx : AsmContext) : Except String AsmContext :=
  pass1_go lines ctx

def eUnknownInstruction : String := "Unknown instruction"

def eWordExpectsOne : String := ".word expects one operand"

def eWordOperand : String := "Unsupported operand for .word"

def eAddTwo : String := "ADD expects two operands"

def eAddFirstReg : String := "ADD first operand must be register"

def eAddOperand : String := "Unsupported ADD operand"

def eJumpOne : String := "Jump expects one operand"

def eJumpOperand : String := "Unsupported jump operand"

def eNotYet : String := "Instruction not yet supported in assembler"

/-- The body of `pass2`'s loop for one line at Pass-1 address
`current_addr_words`: the (possibly empty) list of words it emits. -/
def pass2_line (ctx : AsmContext) (current_addr_words : Nat) (pl : ParsedLine) :
    Except String (List Nat) :=
  if pl.kind = .directive then
    if iequals pl.op ".org".data then .ok []
    else if iequals pl.op ".word".data then
      match pl.operands with
      | [o] =>
        if o.kind = .rawNumber then do
          let v ← parse_number16 o.text
          pure [v]
        else if o.kind = .labelRef then do
          let v ← lookup_symbol ctx o.text
          pure [v]
        else .error eWordOperand
      | _ => .error eWordExpectsOne
    else .ok []
  else if pl.kind ≠ .instruction then .ok []
  else
    let up := upper pl.op
    match find_instr up with
    | none => .error eUnknownInstruction
    | some info =>
      let opcode := info.2
      if iequals up "NOP".data || iequals up "HALT".data then
        .ok [make_instr_word opcode 0 0 0]
      else if iequals up "ADD".data then
        match pl.operands with
        | [o1, o2] =>
          if o1.kind ≠ .reg then .error eAddFirstReg
          else do
            let rd ← reg_id_from_name o1.text
            if o2.kind = .reg then do
              let rs ← reg_id_from_name o2.text
              pure [make_instr_word opcode 0 rd rs]
            else if o2.kind = .imm then do
              let imm ← parse_number16 o2.text
              pure [make_instr_word opcode 1 rd 0, imm]
            else .error eAddOperand
        | _ => .error eAddTwo
      else if iequals up "JMP".data || iequals up "JZ".data then
        match pl.operands with
        | [o] => do
          let target ←
            if o.kind = .labelRef then lookup_symbol ctx o.text
            else if o.kind = .rawNumber then parse_number16 o.text
            else .error eJumpOperand
          let offset : Int := (target : Int) - ((current_addr_words : Int) + 2)
          let offset16 : Nat := (offset % 65536).toNat
          pure [make_instr_word opcode 5 0 0, offset16]
        | _ => .error eJumpOne
      else .error eNotYet

/-- `pass2`: walk the lines with their Pass-1 addresses, concatenating the
emitted words. -/
def pass2_go (ctx : AsmContext) : List (ParsedLine × Nat) → Except String (List Nat)
  | [] => .ok []
  | (pl, addr) :: rest => do
    let ws ← pass2_line ctx addr pl
    let rest2 ← pass2_go ctx rest
    .ok (ws ++ rest2)

def pass2 (lines : List ParsedLine) (ctx : AsmContext) : Except String (List Nat) :=
  pass2_go ctx (lines.zip ctx.line_addr)

/-- The tokenize-and-parse loop of `assemble`: skip whitespace-only lines,
tokenize and parse the rest, incrementing the line counter each time. -/
def parse_source_go (line_no : Nat) : List (List Char) → Except String (List ParsedLine)
  | [] => .ok []
  | l :: rest =>
    if trim l = [] then parse_source_go (line_no + 1) rest
    else do
      let toks ← tokenize_line l line_no
      let pl ← parse_tokens toks
      let more ← parse_source_go (line_no + 1) rest
      .ok (pl :: more)

def parse_source (src : List Char) : Except String (List ParsedLine) :=
  parse_source_go 1 (getlines src)

/-- `assemble` from `assembler.cpp`: lex/parse every non-blank line, run the
two passes, serialize the words little-endian. -/
def assemble (src : List Char) : Except String (List Nat) := do
  let lines ← parse_source src
  let ctx ← pass1 lines {}
  let words ← pass2 lines ctx
  pure (wordsToBytes words)

end AsmMain

namespace AsmScratch

/-! ## `src/unnamed/part_002` (the "scratch assembler") -/

/-- Token kinds of the scratch assembler's lexer (no brackets, no plus). -/
inductive TokenType where
  | identifier
  | number
  | register
  | comma
  | colon
  | hash
deriving DecidableEq

/-- A token: kind and text only (this lexer records no positions). -/
structure Token where
  type : TokenType
  text : List Char
deriving DecidableEq

/-- Identifier continuation: `isalnum(c) || c == '_' || c == '.'`. -/
def identCont (c : Char) : Bool :=
  c.isAlphanum || c == '_' || c == '.'

def eUnexpectedChar : String := "Unexpected character in source line"

/-- The scanning loop of the scratch `tokenize_line`.  Identifiers (which
may start with and contain `'.'`) are uppercased before being stored.
Structural recursion on a fuel argument exactly as in `AsmMain` (the
`0, _ :: _` case is unreachable from `tokenize_line`). -/
def tokenizeFrom : Nat → List Char → Except String (List Token)
  | _, [] => .ok []
  | 0, _ :: _ => .ok []
  | fuel + 1, c :: rest =>
    if isWsChar c then tokenizeFrom fuel rest
    else if c = ',' then do
      let ts ← tokenizeFrom fuel rest
      .ok (⟨.comma, [c]⟩ :: ts)
    else if c = ':' then do
      let ts ← tokenizeFrom fuel rest
      .ok (⟨.colon, [c]⟩ :: ts)
    else if c = '#' then do
      let ts ← tokenizeFrom fuel rest
      .ok (⟨.hash, [c]⟩ :: ts)
    else if c.isDigit then do
      let body := rest.takeWhile numCont
      let ts ← tokenizeFrom fuel (rest.dropWhile numCont)
      .ok (⟨.number, c :: body⟩ :: ts)
    else if c.isAlpha || c = '_' || c = '.' then
      let body := rest.takeWhile identCont
      let up := upper (c :: body)
      let tok : Token :=
        if up == "R0".data || up == "R1".data || up == "R2".data || up == "R3".data
        then ⟨.register, up⟩
        else ⟨.identifier, up⟩
      do
        let ts ← tokenizeFrom fuel (rest.dropWhile identCont)
        .ok (tok :: ts)
    else .error eUnexpectedChar

/-- `tokenize_line` of the scratch assembler: strip from `';'`, then scan. -/
def tokenize_line (line : List Char) : Except String (List Token) :=
  tokenizeFrom (line.takeWhile (fun c => c != ';')).length
    (line.takeWhile (fun c => c != ';'))

/-- Operand kinds of the scratch assembler. -/
inductive OperandKind where
  | reg
  | imm
  | label
  | number
deriving DecidableEq

structure Operand where
  kind : OperandKind
  text : List Char
deriving DecidableEq

/-- A parsed line of the scratch assembler: no kind tag, instead an empty
`op` marks a label-only/blank line and `is_directive` marks directives. -/
structure Line where
  label : List Char := []
  op : List Char := []
  is_directive : Bool := false
  operands : List Operand := []
deriving DecidableEq

def eHashNum : String := AsmMain.eHashNum

def eBadOperand : String := "Unsupported operand token"

def eExpectedMnemonic : String := "Expected mnemonic or directive"

/-- The operand-collecting loop of `parse_line_tokens`. -/
def parse_operands : List Token → Except String (List Operand)
  | [] => .ok []
  | t :: rest =>
    if t.type = .comma then parse_operands rest
    else if t.type = .register then do
      let ops ← parse_operands rest
      .ok (⟨.reg, t.text⟩ :: ops)
    else if t.type = .hash then
      match rest with
      | t2 :: rest2 =>
        if t2.type = .number then do
          let ops ← parse_operands rest2
          .ok (⟨.imm, t2.text⟩ :: ops)
        else .error eHashNum
      | [] => .error eHashNum
    else if t.type = .number then do
      let ops ← parse_operands rest
      .ok (⟨.number, t.text⟩ :: ops)
    else if t.type = .identifier then do
      let ops ← parse_operands rest
      .ok (⟨.label, t.text⟩ :: ops)
    else .error eBadOperand

/-- The mnemonic/operand part of `parse_line_tokens`. -/
def parse_rest (label : List Char) : List Token → Except String Line
  | [] => .ok { label := label }
  | m :: opnds =>
    if m.type = TokenType.identifier then
      let op := m.text
      let isDir : Bool := match op with | c :: _ => c == '.' | [] => false
      do
        let ops ← parse_operands opnds
        .ok { label := label, op := op, is_directive := isDir, operands := ops }
    else .error eExpectedMnemonic

/-- `parse_line_tokens`: optional label, mandatory mnemonic, operand loop. -/
def parse_line_tokens (tokens : List Token) : Except String Line :=
  match tokens with
  | [] => .ok {}
  | t0 :: b :: more =>
    if t0.type = TokenType.identifier ∧ b.type = TokenType.colon then
      parse_rest t0.text more
    else parse_rest [] (t0 :: b :: more)
  | [t0] => parse_rest [] [t0]

def eUnknownRegMsg : String := "Unknown register: "

/-- `reg_id_from_name` of the scratch assembler (message names the text). -/
def reg_id_from_name (name : List Char) : Except String Nat :=
  if iequals name "R0".data then .ok 0
  else if iequals name "R1".data then .ok 1
  else if iequals name "R2".data then .ok 2
  else if iequals name "R3".data then .ok 3
  else .error (eUnknownRegMsg ++ String.mk name)

/-- Pass-1 state of the scratch `assemble`: the symbol map (modelled as an
association list in insertion order — keys are unique, so lookups agree
with `std::unordered_map`), the running word address, and the per-line
address table. -/
structure State1 where
  symbols : List (List Char × Nat) := []
  line_addr : List Nat := []
  addr : Nat := 0x8000
deriving DecidableEq

def eDuplicateLabelMsg : String := "Duplicate label: "

def eOrgExpects : String := ".org expects one numeric or label operand"

/-- Message standing for the `std::out_of_range` thrown by
`std::unordered_map::at` on a missing key. -/
def eMapAt : String := "unordered_map::at: key not found"

/-- The label-insertion block of the scratch Pass-1 loop body. -/
def pass1_label (st : State1) (l : Line) : Except String State1 :=
  if l.label ≠ [] then
    if (st.symbols.find? (fun p => p.1 == l.label)).isSome then
      .error (eDuplicateLabelMsg ++ String.mk l.label)
    else .ok { st with symbols := st.symbols ++ [(l.label, st.addr)] }
  else .ok st

/-- The address-advance block of the scratch Pass-1 loop body. -/
def pass1_advance (st : State1) (l : Line) : Except String State1 :=
  if l.op = [] then pure st
  else if l.is_directive then
    if iequals l.op ".ORG".data then
      match l.operands with
      | [o] =>
        if o.kind = .number then do
          let v ← parse_number16B o.text
          pure { st with addr := v }
        else if o.kind = .label then
          match st.symbols.find? (fun p => p.1 == o.text) with
          | some p => pure { st with addr := p.2 }
          | none => .error eMapAt
        else .error eOrgExpects
      | _ => .error eOrgExpects
    else if iequals l.op ".WORD".data then
      pure { st with addr := (st.addr + 1) % 65536 }
    else pure st
  else
    if iequals l.op "NOP".data || iequals l.op "HALT".data then
      pure { st with addr := (st.addr + 1) % 65536 }
    else if iequals l.op "ADD".data then
      let a1 := (st.addr + 1) % 65536
      match l.operands with
      | [_, o2] =>
        if o2.kind = .imm then pure { st with addr := (a1 + 1) % 65536 }
        else pure { st with addr := a1 }
      | _ => pure { st with addr := a1 }
    else if iequals l.op "JMP".data || iequals l.op "JZ".data then
      pure { st with addr := (st.addr + 2) % 65536 }
    else pure st

/-- One iteration of the scratch assembler's Pass-1 loop: record the line's
address, insert its label, then advance the address. -/
def pass1_line (st0 : State1) (l : Line) : Except String State1 := do
  let st := { st0 with line_addr := st0.line_addr ++ [st0.addr] }
  let st ← pass1_label st l
  pass1_advance st l

def pass1_go : List Line → State1 → Except String State1
  | [], st => .ok st
  | l :: rest, st => do
    let st2 ← pass1_line st l
    pass1_go rest st2

def pass1 (lines : List Line) : Except String State1 :=
  pass1_go lines {}

def eWordExpectsOne : String := ".word expects one operand"

def eWordOperand : String := "Unsupported .word operand"

def eUnsupportedInstrMsg : String := "Unsupported instruction: "

def eAddTwo : String := "ADD expects two operands"

def eAddFirstReg : String := "ADD first operand must be reg"

def eAddOperand : String := "Unsupported ADD second operand"

def eJumpOne : String := "Jump expects one operand"

def eUnknownJumpLabelMsg : String := "Unknown label in jump: "

def eJumpOperand : String := "Unsupported jump operand"

/-- One iteration of the scratch assembler's Pass-2 loop: the words the
line at address `cur_addr` emits. -/
def pass2_line (symbols : List (List Char × Nat)) (cur_addr : Nat) (l : Line) :
    Except String (List Nat) :=
  if l.op = [] then .ok []
  else if l.is_directive then
    if iequals l.op ".ORG".data then .ok []
    else if iequals l.op ".WORD".data then
      match l.operands with
      | [o] =>
        if o.kind = .number then do
          let v ← parse_number16B o.text
          pure [v]
        else if o.kind = .label then
          match symbols.find? (fun p => p.1 == o.text) with
          | some p => pure [p.2]
          | none => .error eMapAt
        else .error eWordOperand
      | _ => .error eWordExpectsOne
    else .ok []
  else do
    let opcode ←
      if iequals l.op "NOP".data then pure 0
      else if iequals l.op "HALT".data then pure 1
      else if iequals l.op "ADD".data then pure 5
      else if iequals l.op "JMP".data then pure 13
      else if iequals l.op "JZ".data then pure 14
      else .error (eUnsupportedInstrMsg ++ String.mk l.op)
    if opcode = 0 ∨ opcode = 1 then
      pure [make_instr_word opcode 0 0 0]
    else if opcode = 5 then
      match l.operands with
      | [o1, o2] =>
        if o1.kind ≠ .reg then .error eAddFirstReg
        else do
          let rd ← reg_id_from_name o1.text
          if o2.kind = .reg then do
            let rs ← reg_id_from_name o2.text
            pure [make_instr_word opcode 0 rd rs]
          else if o2.kind = .imm then do
            let imm ← parse_number16B o2.text
            pure [make_instr_word opcode 1 rd 0, imm]
          else .error eAddOperand
      | _ => .error eAddTwo
    else if opcode = 13 ∨ opcode = 14 then
      match l.operands with
      | [o] => do
        let target ←
          if o.kind = .label then
            match symbols.find? (fun p => p.1 == o.text) with
            | some p => pure p.2
            | none => .error (eUnknownJumpLabelMsg ++ String.mk o.text)
          else if o.kind = .number then parse_number16B o.text
          else .error eJumpOperand
        let offset : Int := (target : Int) - ((cur_addr : Int) + 2)
        let off16 : Nat := (offset % 65536).toNat
        pure [make_instr_word opcode 5 0 0, off16]
      | _ => .error eJumpOne
    else pure []

def pass2_go (symbols : List (List Char × Nat)) :
    List (Line × Nat) → Except String (List Nat)
  | [] => .ok []
  | (l, addr) :: rest => do
    let ws ← pass2_line symbols addr l
    let rest2 ← pass2_go symbols rest
    .ok (ws ++ rest2)

def pass2 (lines : List Line) (st : State1) : Except String (List Nat) :=
  pass2_go st.symbols (lines.zip st.line_addr)

/-- The line-collection loop of the scratch `assemble`: skip blank lines,
tokenize the trimmed line, parse. -/
def parse_source_go : List (List Char) → Except String (List Line)
  | [] => .ok []
  | l :: rest =>
    if trim l = [] then parse_source_go rest
    else do
      let toks ← tokenize_line (trim l)
      let pl ← parse_line_tokens toks
      let more ← parse_source_go rest
      .ok (pl :: more)

def parse_source (src : List Char) : Except String (List Line) :=
  parse_source_go (getlines src)

/-- `assemble` from `src/unnamed/part_002`. -/
def assemble (src : List Char) : Except String (List Nat) := do
  let lines ← parse_source src
  let st ← pass1 lines
  let words ← pass2 lines st
  pure (wordsToBytes words)

end AsmScratch

/-- Token-list predicate: no comma token directly follows a `#` token.
(A comma inserted between `#` and its number splits the immediate operand
and changes the parse; everywhere else commas are skippable.) -/
def AsmMain.noHashComma : List AsmMain.Token → Bool
  | t1 :: t2 :: rest =>
    !(t1.type == AsmMain.TokenType.hash && t2.type == AsmMain.TokenType.comma) &&
      AsmMain.noHashComma (t2 :: rest)
  | _ => true

/-- The set of characters the main lexer can consume: whitespace, its six
punctuation marks, alphanumerics (token bodies scan `isalnum` plus `x`/`X`
and `_`, all inside this set), and underscore.  Any other character makes
`tokenize_line` throw. -/
def goodCharA (c : Char) : Bool :=
  isWsChar c || c == ',' || c == ':' || c == '#' || c == '[' || c == ']' || c == '+' ||
    c.isAlphanum || c == '_'

/-- Characters on which the two assemblers' lexers behave identically:
whitespace, the three shared punctuation marks, underscore, digits, and
UPPERCASE letters (excluding lowercase letters neutralizes the scratch
lexer's uppercasing, excluding `.` `[` `]` `+` removes the four
character-level divergences between the lexers). -/
def commonChar (c : Char) : Bool :=
  c == ' ' || c == '\t' || c == '\r' || c == ',' || c == ':' || c == '#' || c == '_' ||
    c.isDigit || (decide ('A' ≤ c) && decide (c ≤ 'Z'))

/-- A line whose pre-comment part (before the first `';'`) uses only
`commonChar` characters. -/
def commonLine (l : List Char) : Bool :=
  (l.takeWhile (fun c => c != ';')).all commonChar

/-- A source text all of whose lines are `commonLine`. -/
def commonSrc (src : List Char) : Bool :=
  (getlines src).all commonLine

/-- Mapping from the main lexer's token kinds to the scratch lexer's.  The
three kinds the scratch lexer lacks are mapped arbitrarily; every lemma
using `convTy` excludes them by hypothesis. -/
def convTy : AsmMain.TokenType → AsmScratch.TokenType
  | .identifier => .identifier
  | .number => .number
  | .register => .register
  | .comma => .comma
  | .colon => .colon
  | .hash => .hash
  | .lbracket => .identifier
  | .rbracket => .identifier
  | .plus => .identifier

/-- Token conversion: keep the kind (via `convTy`) and text, drop the
position fields the scratch lexer does not record. -/
def convTok (t : AsmMain.Token) : AsmScratch.Token :=
  ⟨convTy t.type, t.text⟩

/-- Main-lexer tokens as they arise from a `commonChar` source: none of the
three scratch-less kinds, nonempty text, text made of `commonChar`s. -/
def plainTok (t : AsmMain.Token) : Bool :=
  !(t.type == AsmMain.TokenType.lbracket) && !(t.type == AsmMain.TokenType.rbracket) &&
    !(t.type == AsmMain.TokenType.plus) && !t.text.isEmpty && t.text.all commonChar

/-- Mapping from the main parser's operand kinds to the scratch parser's
(same four kinds under different names). -/
def convOpKind : AsmMain.OperandKind → AsmScratch.OperandKind
  | .reg => .reg
  | .imm => .imm
  | .labelRef => .label
  | .rawNumber => .number

/-- Operand conversion: kind via `convOpKind`, text kept. -/
def convOp (o : AsmMain.Operand) : AsmScratch.Operand :=
  ⟨convOpKind o.kind, o.text⟩

/-- Parsed-line conversion: the scratch `Line` carries the same label, op
and operands; its `is_directive` flag corresponds to the main parser's
`directive` kind. -/
def convLine (pl : AsmMain.ParsedLine) : AsmScratch.Line :=
  ⟨pl.label, pl.op, pl.kind == AsmMain.LineKind.directive, pl.operands.map convOp⟩

/-- Main-parser lines as they arise from `plainTok` tokens: the `empty`
kind coincides with an empty op, and the line is not a directive (a
`commonChar` mnemonic cannot start with `'.'`). -/
def plainLine (pl : AsmMain.ParsedLine) : Bool :=
  ((pl.kind == AsmMain.LineKind.empty) == pl.op.isEmpty) &&
    !(pl.kind == AsmMain.LineKind.directive)

/-- State conversion: the two Pass-1 states carry the same data under
different field names. -/
def convCtx (ctx : AsmMain.AsmContext) : AsmScratch.State1 :=
  ⟨ctx.symbols, ctx.line_addr, ctx.current_addr_words⟩

theorem except_bind_ok {e a b : Type} {x : Except e a} {f : a → Except e b} {v : b} :
    (x >>= f) = .ok v ↔ (∃ u, x = .ok u ∧ f u = .ok v) := by
  cases x <;> simp [Bind.bind, Except.bind]


theorem mod_four_of_low_bits {n : Nat} (h0 : n.testBit 0 = false) (h1 : n.testBit 1 = false) :
    n % 4 = 0 := by
  have e0 : ¬ (n % 2 = 1) := by simpa using h0
  have h1' : n.testBit 1 = (n / 2).testBit 0 := Nat.testBit_succ n 0
  rw [h1', Nat.testBit_zero] at h1
  have e1 : ¬ (n / 2 % 2 = 1) := by simpa using h1
  omega

theorem make_instr_word_low_bits (o m rd rs : Nat) : make_instr_word o m rd rs % 4 = 0 := by
  apply mod_four_of_low_bits <;>
    simp [make_instr_word, Nat.testBit_or, Nat.testBit_shiftLeft]

theorem iequals_disjoint {u a b : List Char} (ha : iequals u a = true)
    (hb : iequals u b = true) : a.map Char.toUpper = b.map Char.toUpper := by
  unfold iequals at ha hb
  exact (eq_of_beq ha).symm.trans (eq_of_beq hb)

theorem find_instr_ADD {u : List Char} (h : iequals u "ADD".data = true) :
    AsmMain.find_instr u = some ("ADD".data, 5) := by
  have e : u.map Char.toUpper = "ADD".data.map Char.toUpper := eq_of_beq h
  have eN : iequals u "NOP".data = false := by
    cases hc : iequals u "NOP".data
    · rfl
    · exact absurd (iequals_disjoint h hc) (by decide)
  have eH : iequals u "HALT".data = false := by
    cases hc : iequals u "HALT".data
    · rfl
    · exact absurd (iequals_disjoint h hc) (by decide)
  simp [AsmMain.find_instr, AsmMain.INSTR_TABLE, List.find?, eN, eH, h]

theorem parse_number16_lt {t : List Char} {v : Nat} (h : parse_number16 t = .ok v) :
    v < 65536 := by
  unfold parse_number16 at h
  cases hs : stoi t (numBase t) with
  | none => rw [hs] at h; cases h
  | some u =>
    rw [hs] at h
    simp only [] at h
    by_cases hu : u > 0xFFFF
    · simp [hu] at h
    · simp [hu] at h
      omega

theorem offset_roundtrip {t a : Nat} (ht : t < 65536) :
    (((((t : Int) - ((a : Int) + 2)) % 65536).toNat) + (a + 2)) % 65536 = t := by
  omega


theorem pass1_label_bounded {ctx ctx2 : AsmMain.AsmContext} {pl : AsmMain.ParsedLine}
    (hc : ctx.current_addr_words < 65536)
    (hs : ∀ p ∈ ctx.symbols, p.2 < 65536)
    (h : AsmMain.pass1_label ctx pl = .ok ctx2) :
    ctx2.current_addr_words = ctx.current_addr_words ∧ ∀ p ∈ ctx2.symbols, p.2 < 65536 := by
  unfold AsmMain.pass1_label at h
  repeat' split at h
  all_goals cases h
  · refine ⟨rfl, ?_⟩
    intro p hp
    rcases List.mem_append.1 hp with hp | hp
    · exact hs p hp
    · simp at hp
      subst hp
      exact hc
  · exact ⟨rfl, hs⟩

theorem pass1_advance_bounded {ctx ctx2 : AsmMain.AsmContext} {pl : AsmMain.ParsedLine}
    (hc : ctx.current_addr_words < 65536)
    (h : AsmMain.pass1_advance ctx pl = .ok ctx2) :
    ctx2.symbols = ctx.symbols ∧ ctx2.current_addr_words < 65536 := by
  unfold AsmMain.pass1_advance at h
  simp only [pure, Except.pure] at h
  repeat' split at h
  all_goals (try cases h)
  all_goals (try (simp only [] at h; repeat' split at h))
  all_goals (try cases h)
  all_goals (try (simp only [except_bind_ok] at h; obtain ⟨v, hv, h⟩ := h; cases h))
  all_goals (try (refine ⟨rfl, ?_⟩))
  all_goals (first | exact hc | exact Nat.mod_lt _ (by norm_num) | exact parse_number16_lt hv | rfl)

theorem pass1_line_bounded {ctx ctx2 : AsmMain.AsmContext} {pl : AsmMain.ParsedLine}
    (hc : ctx.current_addr_words < 65536)
    (hs : ∀ p ∈ ctx.symbols, p.2 < 65536)
    (h : AsmMain.pass1_line ctx pl = .ok ctx2) :
    ctx2.current_addr_words < 65536 ∧ ∀ p ∈ ctx2.symbols, p.2 < 65536 := by
  unfold AsmMain.pass1_line at h
  simp only [except_bind_ok, pure, Except.pure] at h
  obtain ⟨u, hu, h⟩ := h
  have h1 := @pass1_label_bounded
    { ctx with line_addr := ctx.line_addr ++ [ctx.current_addr_words] } u pl hc hs hu
  have h2 := @pass1_advance_bounded u ctx2 pl (h1.1.symm ▸ hc) h
  refine ⟨h2.2, ?_⟩
  rw [h2.1]
  exact h1.2

theorem pass1_go_bounded {lines : List AsmMain.ParsedLine} {ctx ctx2 : AsmMain.AsmContext}
    (hc : ctx.current_addr_words < 65536)
    (hs : ∀ p ∈ ctx.symbols, p.2 < 65536)
    (h : AsmMain.pass1_go lines ctx = .ok ctx2) :
    ctx2.current_addr_words < 65536 ∧ ∀ p ∈ ctx2.symbols, p.2 < 65536 := by
  induction lines generalizing ctx with
  | nil =>
    unfold AsmMain.pass1_go at h
    simp only [Except.ok.injEq] at h
    subst h
    exact ⟨hc, hs⟩
  | cons pl rest ih =>
    unfold AsmMain.pass1_go at h
    simp only [except_bind_ok, pure, Except.pure] at h
    obtain ⟨u, hu, h⟩ := h
    have h1 := pass1_line_bounded hc hs hu
    exact ih h1.1 h1.2 h

theorem pass1_bounded {lines : List AsmMain.ParsedLine} {ctx : AsmMain.AsmContext}
    (h : AsmMain.pass1 lines {} = .ok ctx) :
    ctx.current_addr_words < 65536 ∧ ∀ p ∈ ctx.symbols, p.2 < 65536 := by
  exact pass1_go_bounded (by norm_num) (by intro p hp; cases hp) h

theorem lookup_symbol_lt {ctx : AsmMain.AsmContext} {name : List Char} {t : Nat}
    (hs : ∀ p ∈ ctx.symbols, p.2 < 65536)
    (h : AsmMain.lookup_symbol ctx name = .ok t) : t < 65536 := by
  unfold AsmMain.lookup_symbol at h
  cases hf : ctx.symbols.find? (fun p => p.1 == name) with
  | none => rw [hf] at h; cases h
  | some p =>
    rw [hf] at h
    simp only [Except.ok.injEq] at h
    subst h
    exact hs p (List.mem_of_find?_eq_some hf)

/-- C1: jump instructions are encoded PC-relative.  In Pass 2 a `JMP`/`JZ`
line at word address `addr` whose operand resolves to `target` emits a
second word equal to `(target - (addr + 2)) mod 2^16` (two's complement,
via `uint16_t` wrap), so the offset is relative to the address after the
two-word jump instruction. -/
theorem C1_jump_offset_pc_relative
    (lines : List AsmMain.ParsedLine) (ctx : AsmMain.AsmContext) (i : Nat)
    (pl : AsmMain.ParsedLine) (o : AsmMain.Operand) (addr target : Nat) (ws : List Nat)
    (hpass1 : AsmMain.pass1 lines {} = .ok ctx)
    (hpl : lines[i]? = some pl)
    (haddr : ctx.line_addr[i]? = some addr)
    (hkind : pl.kind = AsmMain.LineKind.instruction)
    (hop : (iequals (upper pl.op) "JMP".data || iequals (upper pl.op) "JZ".data) = true)
    (hops : pl.operands = [o])
    (hres : (o.kind = AsmMain.OperandKind.labelRef ∧ AsmMain.lookup_symbol ctx o.text = .ok target) ∨
            (o.kind = AsmMain.OperandKind.rawNumber ∧ parse_number16 o.text = .ok target))
    (henc : AsmMain.pass2_line ctx addr pl = .ok ws) :
    ∃ w off, ws = [w, off] ∧ (off + (addr + 2)) % 65536 = target := by
  have htlt : target < 65536 := by
    rcases hres with ⟨_, hl⟩ | ⟨_, hn⟩
    · exact lookup_symbol_lt (pass1_bounded hpass1).2 hl
    · exact parse_number16_lt hn
  unfold AsmMain.pass2_line at henc
  rw [hkind, hops] at henc
  simp only [reduceCtorEq, reduceIte, ne_eq, not_true_eq_false, not_false_eq_true,
    if_true, if_false, ite_true, ite_false] at henc
  repeat' split at henc
  all_goals simp only [except_bind_ok, pure, Except.pure, Except.ok.injEq, reduceCtorEq] at henc
  all_goals (try exact henc.elim)
  all_goals (try (rename_i hx; simp only [Bool.or_eq_true] at hx hop; rcases hx with hx | hx <;> rcases hop with hy | hy <;> exact absurd (iequals_disjoint hx hy) (by decide)))
  all_goals obtain ⟨u, hu, henc⟩ := henc
  all_goals (try exact hu.elim)
  all_goals subst henc
  all_goals rcases hres with ⟨hk, hres⟩ | ⟨hk, hres⟩
  all_goals (try (rename_i hko; exact absurd (hko.symm.trans hk) (by decide)))
  all_goals rw [hres] at hu
  all_goals injection hu with hu
  all_goals subst hu
  all_goals exact ⟨_, _, rfl, by omega⟩

theorem pass2_line_head {ctx : AsmMain.AsmContext} {addr : Nat} {pl : AsmMain.ParsedLine}
    {ws : List Nat}
    (hkind : pl.kind = AsmMain.LineKind.instruction)
    (henc : AsmMain.pass2_line ctx addr pl = .ok ws) :
    ∃ o m rd rs, ws.head? = some (make_instr_word o m rd rs) := by
  unfold AsmMain.pass2_line at henc
  rw [hkind] at henc
  simp only [reduceCtorEq, reduceIte, ne_eq, not_true_eq_false, not_false_eq_true,
    if_true, if_false, ite_true, ite_false] at henc
  repeat' split at henc
  all_goals simp only [except_bind_ok, pure, Except.pure, Except.ok.injEq, reduceCtorEq] at henc
  all_goals (try exact henc.elim)
  all_goals (try (obtain ⟨u1, hu1, henc⟩ := henc))
  all_goals (try exact hu1.elim)
  all_goals (try (obtain ⟨u2, hu2, henc⟩ := henc))
  all_goals (try (subst henc))
  all_goals exact ⟨_, _, _, _, rfl⟩

theorem pass2_line_nop_halt {ctx : AsmMain.AsmContext} {addr : Nat} {pl : AsmMain.ParsedLine}
    {ws : List Nat}
    (hkind : pl.kind = AsmMain.LineKind.instruction)
    (hop : (iequals (upper pl.op) "NOP".data || iequals (upper pl.op) "HALT".data) = true)
    (henc : AsmMain.pass2_line ctx addr pl = .ok ws) :
    ∃ o, ws = [make_instr_word o 0 0 0] := by
  unfold AsmMain.pass2_line at henc
  rw [hkind] at henc
  simp only [reduceCtorEq, reduceIte, ne_eq, not_true_eq_false, not_false_eq_true,
    if_true, if_false, ite_true, ite_false] at henc
  repeat' split at henc
  all_goals (try exact absurd hop (by assumption))
  all_goals simp only [Except.ok.injEq, reduceCtorEq] at henc
  all_goals (try exact henc.elim)
  exact ⟨_, henc.symm⟩

theorem pass2_line_add {ctx : AsmMain.AsmContext} {addr : Nat} {pl : AsmMain.ParsedLine}
    {ws : List Nat} {o1 o2 : AsmMain.Operand}
    (hkind : pl.kind = AsmMain.LineKind.instruction)
    (hadd : iequals (upper pl.op) "ADD".data = true)
    (hops : pl.operands = [o1, o2])
    (henc : AsmMain.pass2_line ctx addr pl = .ok ws) :
    (o2.kind = AsmMain.OperandKind.reg → ∃ rd rs, ws = [make_instr_word 5 0 rd rs]) ∧
    (o2.kind = AsmMain.OperandKind.imm →
      ∃ rd imm, parse_number16 o2.text = .ok imm ∧ ws = [make_instr_word 5 1 rd 0, imm]) := by
  have hfind := find_instr_ADD hadd
  unfold AsmMain.pass2_line at henc
  rw [hkind, hops] at henc
  simp only [reduceCtorEq, reduceIte, ne_eq, not_true_eq_false, not_false_eq_true,
    if_true, if_false, ite_true, ite_false] at henc
  rw [hfind] at henc
  simp only [] at henc
  repeat' split at henc
  all_goals simp only [except_bind_ok, pure, Except.pure, Except.ok.injEq, reduceCtorEq] at henc
  all_goals (try exact henc.elim)
  all_goals (try exact absurd hadd (by assumption))
  all_goals (try (rename_i hx; simp only [Bool.or_eq_true] at hx; rcases hx with hx | hx <;> exact absurd (iequals_disjoint hx hadd) (by decide)))
  all_goals obtain ⟨rd, hrd, henc⟩ := henc
  all_goals (try exact hrd.elim)
  all_goals obtain ⟨x2, hx2, henc⟩ := henc
  all_goals (try exact hx2.elim)
  all_goals subst henc
  · exact ⟨fun _ => ⟨rd, x2, rfl⟩,
      fun hk2 => absurd ((‹o2.kind = AsmMain.OperandKind.reg›).symm.trans hk2) (by decide)⟩
  · exact ⟨fun hk2 => absurd ((‹o2.kind = AsmMain.OperandKind.imm›).symm.trans hk2).symm (by decide),
      fun _ => ⟨rd, x2, hx2, rfl⟩⟩

/-- C2: instruction word format.  Every first word a Pass-2 line emits is
`make_instr_word opcode mode rd rs` =
`(opcode & 0x1F) << 11 | (mode & 0x07) << 8 | (rd & 0x07) << 5 | (rs & 0x07) << 2`,
and the word counts are as specified: `NOP`/`HALT` one word, register-register
`ADD` one word, immediate `ADD` two words, jumps two words. -/
theorem C2_instruction_word_format
    (ctx : AsmMain.AsmContext) (addr : Nat) (pl : AsmMain.ParsedLine) (ws : List Nat)
    (hkind : pl.kind = AsmMain.LineKind.instruction)
    (henc : AsmMain.pass2_line ctx addr pl = .ok ws) :
    (∃ o m rd rs, ws.head? = some (make_instr_word o m rd rs) ∧
      make_instr_word o m rd rs % 4 = 0) ∧
    ((iequals (upper pl.op) "NOP".data || iequals (upper pl.op) "HALT".data) = true →
      ∃ o, ws = [make_instr_word o 0 0 0]) ∧
    (iequals (upper pl.op) "ADD".data = true →
      ∀ o1 o2, pl.operands = [o1, o2] →
        (o2.kind = AsmMain.OperandKind.reg → ∃ rd rs, ws = [make_instr_word 5 0 rd rs]) ∧
        (o2.kind = AsmMain.OperandKind.imm →
          ∃ rd imm, parse_number16 o2.text = .ok imm ∧ ws = [make_instr_word 5 1 rd 0, imm])) := by
  refine ⟨?_, ?_, ?_⟩
  · obtain ⟨o, m, rd, rs, h⟩ := pass2_line_head hkind henc
    exact ⟨o, m, rd, rs, h, make_instr_word_low_bits o m rd rs⟩
  · intro hop
    exact pass2_line_nop_halt hkind hop henc
  · intro hadd o1 o2 hops
    exact pass2_line_add hkind hadd hops henc

theorem C2_instruction_word_format_witness :
    ∃ rd imm, parse_number16 "7".data = .ok imm ∧
      ([10496, 7] : List Nat) = [make_instr_word 5 1 rd 0, imm] :=
  ((C2_instruction_word_format {} 0x8000
      ⟨1, [], AsmMain.LineKind.instruction, "ADD".data,
        [⟨AsmMain.OperandKind.reg, "R0".data⟩, ⟨AsmMain.OperandKind.imm, "7".data⟩]⟩
      [10496, 7] (by decide) (by decide)).2.2 (by decide) _ _ rfl).2 (by decide)

theorem C1_jump_offset_pc_relative_witness :
    ∃ w off, ([27904, 65533] : List Nat) = [w, off] ∧ (off + (32769 + 2)) % 65536 = 32768 :=
  C1_jump_offset_pc_relative
    [⟨1, "start".data, AsmMain.LineKind.instruction, "NOP".data, []⟩,
     ⟨2, [], AsmMain.LineKind.instruction, "JMP".data,
       [⟨AsmMain.OperandKind.labelRef, "start".data⟩]⟩]
    ⟨32771, [("start".data, 32768)], [32768, 32769]⟩ 1
    ⟨2, [], AsmMain.LineKind.instruction, "JMP".data,
      [⟨AsmMain.OperandKind.labelRef, "start".data⟩]⟩
    ⟨AsmMain.OperandKind.labelRef, "start".data⟩ 32769 32768 [27904, 65533]
    (by decide) (by decide) (by decide) (by decide) (by decide) (by decide)
    (Or.inl ⟨by decide, by decide⟩) (by decide)

theorem wordsToBytes_length (ws : List Nat) : (wordsToBytes ws).length = 2 * ws.length := by
  induction ws with
  | nil => rfl
  | cons w ws ih => simp [wordsToBytes, ih]; omega

theorem wordsToBytes_get (ws : List Nat) (k w : Nat) (h : ws[k]? = some w) :
    (wordsToBytes ws)[2 * k]? = some (w &&& 0xFF) ∧
    (wordsToBytes ws)[2 * k + 1]? = some ((w >>> 8) &&& 0xFF) := by
  induction ws generalizing k with
  | nil => simp at h
  | cons w0 ws ih =>
    cases k with
    | zero =>
      simp at h
      subst h
      simp [wordsToBytes]
    | succ k =>
      simp at h
      have hk := ih k h
      have e1 : 2 * (k + 1) = (2 * k) + 1 + 1 := by omega
      rw [e1]
      simp only [wordsToBytes, List.getElem?_cons_succ]
      exact hk

/-- C9: the output byte vector serializes the Pass-2 words little-endian:
byte `2k` is `words[k] & 0xFF` and byte `2k+1` is `(words[k] >> 8) & 0xFF`,
with exactly two bytes per word. -/
theorem C9_little_endian_bytes (src : List Char) (bytes : List Nat)
    (h : AsmMain.assemble src = .ok bytes) :
    ∃ lines ctx words,
      AsmMain.parse_source src = .ok lines ∧
      AsmMain.pass1 lines {} = .ok ctx ∧
      AsmMain.pass2 lines ctx = .ok words ∧
      bytes = wordsToBytes words ∧
      bytes.length = 2 * words.length ∧
      ∀ k w, words[k]? = some w →
        bytes[2 * k]? = some (w &&& 0xFF) ∧ bytes[2 * k + 1]? = some ((w >>> 8) &&& 0xFF) := by
  unfold AsmMain.assemble at h
  simp only [except_bind_ok, pure, Except.pure, Except.ok.injEq] at h
  obtain ⟨lines, h1, ctx, h2, words, h3, h4⟩ := h
  subst h4
  exact ⟨lines, ctx, words, h1, h2, h3, rfl, wordsToBytes_length words,
    fun k w hw => wordsToBytes_get words k w hw⟩

theorem C9_little_endian_bytes_witness :
    ∃ lines ctx words,
      AsmMain.parse_source "ADD R0, #7\nHALT".data = .ok lines ∧
      AsmMain.pass1 lines {} = .ok ctx ∧
      AsmMain.pass2 lines ctx = .ok words ∧
      ([0, 41, 7, 0, 0, 8] : List Nat) = wordsToBytes words ∧
      ([0, 41, 7, 0, 0, 8] : List Nat).length = 2 * words.length ∧
      ∀ k w, words[k]? = some w →
        ([0, 41, 7, 0, 0, 8] : List Nat)[2 * k]? = some (w &&& 0xFF) ∧
        ([0, 41, 7, 0, 0, 8] : List Nat)[2 * k + 1]? = some ((w >>> 8) &&& 0xFF) :=
  C9_little_endian_bytes "ADD R0, #7\nHALT".data [0, 41, 7, 0, 0, 8] (by decide)

theorem noHashComma_tail {t : AsmMain.Token} {ts : List AsmMain.Token}
    (h : AsmMain.noHashComma (t :: ts) = true) : AsmMain.noHashComma ts = true := by
  cases ts with
  | nil => rfl
  | cons t2 rest =>
    unfold AsmMain.noHashComma at h
    simp only [Bool.and_eq_true] at h
    exact h.2

theorem parse_operands_cons_comma {t : AsmMain.Token} {rest : List AsmMain.Token}
    (h : t.type = AsmMain.TokenType.comma) :
    AsmMain.parse_operands (t :: rest) = AsmMain.parse_operands rest := by
  rw [AsmMain.parse_operands.eq_def]
  simp [h]

theorem parse_operands_cons_reg {t : AsmMain.Token} {rest : List AsmMain.Token}
    (h : t.type = AsmMain.TokenType.register) :
    AsmMain.parse_operands (t :: rest) =
      AsmMain.parse_operands rest >>= fun ops =>
        .ok (⟨AsmMain.OperandKind.reg, t.text⟩ :: ops) := by
  rw [AsmMain.parse_operands.eq_def]
  simp [h]

theorem parse_operands_cons_number {t : AsmMain.Token} {rest : List AsmMain.Token}
    (h : t.type = AsmMain.TokenType.number) :
    AsmMain.parse_operands (t :: rest) =
      AsmMain.parse_operands rest >>= fun ops =>
        .ok (⟨AsmMain.OperandKind.rawNumber, t.text⟩ :: ops) := by
  rw [AsmMain.parse_operands.eq_def]
  simp [h]

theorem parse_operands_cons_identifier {t : AsmMain.Token} {rest : List AsmMain.Token}
    (h : t.type = AsmMain.TokenType.identifier) :
    AsmMain.parse_operands (t :: rest) =
      AsmMain.parse_operands rest >>= fun ops =>
        .ok (⟨AsmMain.OperandKind.labelRef, t.text⟩ :: ops) := by
  rw [AsmMain.parse_operands.eq_def]
  simp [h]

theorem parse_operands_cons_other {t : AsmMain.Token} {rest : List AsmMain.Token}
    (h : t.type = AsmMain.TokenType.colon ∨ t.type = AsmMain.TokenType.lbracket ∨
         t.type = AsmMain.TokenType.rbracket ∨ t.type = AsmMain.TokenType.plus) :
    AsmMain.parse_operands (t :: rest) = .error AsmMain.eBadOperand := by
  rw [AsmMain.parse_operands.eq_def]
  rcases h with h | h | h | h <;> simp [h]

theorem parse_operands_cons_hash_number {t t2 : AsmMain.Token} {rest2 : List AsmMain.Token}
    (h : t.type = AsmMain.TokenType.hash) (h2 : t2.type = AsmMain.TokenType.number) :
    AsmMain.parse_operands (t :: t2 :: rest2) =
      AsmMain.parse_operands rest2 >>= fun ops =>
        .ok (⟨AsmMain.OperandKind.imm, t2.text⟩ :: ops) := by
  rw [AsmMain.parse_operands.eq_def]
  simp [h, h2]

theorem parse_operands_cons_hash_bad {t t2 : AsmMain.Token} {rest2 : List AsmMain.Token}
    (h : t.type = AsmMain.TokenType.hash) (h2 : t2.type ≠ AsmMain.TokenType.number) :
    AsmMain.parse_operands (t :: t2 :: rest2) = .error AsmMain.eHashNum := by
  rw [AsmMain.parse_operands.eq_def]
  simp [h, h2]

theorem parse_operands_cons_hash_nil {t : AsmMain.Token}
    (h : t.type = AsmMain.TokenType.hash) :
    AsmMain.parse_operands [t] = .error AsmMain.eHashNum := by
  rw [AsmMain.parse_operands.eq_def]
  simp [h]

theorem parse_operands_filter_aux (n : Nat) :
    ∀ toks : List AsmMain.Token, toks.length ≤ n → AsmMain.noHashComma toks = true →
      AsmMain.parse_operands toks =
        AsmMain.parse_operands (toks.filter (fun t => t.type != AsmMain.TokenType.comma)) := by
  induction n with
  | zero =>
    intro toks hlen _
    have h0 : toks = [] := List.eq_nil_of_length_eq_zero (Nat.le_zero.1 hlen)
    subst h0
    rfl
  | succ n ih =>
    intro toks hlen hnh
    match toks with
    | [] => rfl
    | t :: rest =>
      simp only [List.length_cons, Nat.succ_le_succ_iff] at hlen
      have hrest := noHashComma_tail hnh
      have hfc : (t :: rest).filter (fun t => t.type != AsmMain.TokenType.comma) =
          if t.type != AsmMain.TokenType.comma then
            t :: rest.filter (fun t => t.type != AsmMain.TokenType.comma)
          else rest.filter (fun t => t.type != AsmMain.TokenType.comma) := by
        simp [List.filter_cons]
      cases htt : t.type
      case comma =>
        rw [parse_operands_cons_comma htt, hfc]
        simp only [htt, bne_self_eq_false, Bool.false_eq_true, if_false, ite_false]
        exact ih rest hlen hrest
      case register =>
        rw [parse_operands_cons_reg htt, hfc]
        simp only [htt, if_true, ite_true, show ((AsmMain.TokenType.register != AsmMain.TokenType.comma) = true) from rfl]
        rw [parse_operands_cons_reg htt, ih rest hlen hrest]
      case number =>
        rw [parse_operands_cons_number htt, hfc]
        simp only [htt, if_true, ite_true, show ((AsmMain.TokenType.number != AsmMain.TokenType.comma) = true) from rfl]
        rw [parse_operands_cons_number htt, ih rest hlen hrest]
      case identifier =>
        rw [parse_operands_cons_identifier htt, hfc]
        simp only [htt, if_true, ite_true, show ((AsmMain.TokenType.identifier != AsmMain.TokenType.comma) = true) from rfl]
        rw [parse_operands_cons_identifier htt, ih rest hlen hrest]
      case colon =>
        rw [parse_operands_cons_other (Or.inl htt), hfc]
        simp only [htt, if_true, ite_true, show ((AsmMain.TokenType.colon != AsmMain.TokenType.comma) = true) from rfl]
        rw [parse_operands_cons_other (Or.inl htt)]
      case lbracket =>
        rw [parse_operands_cons_other (Or.inr (Or.inl htt)), hfc]
        simp only [htt, if_true, ite_true, show ((AsmMain.TokenType.lbracket != AsmMain.TokenType.comma) = true) from rfl]
        rw [parse_operands_cons_other (Or.inr (Or.inl htt))]
      case rbracket =>
        rw [parse_operands_cons_other (Or.inr (Or.inr (Or.inl htt))), hfc]
        simp only [htt, if_true, ite_true, show ((AsmMain.TokenType.rbracket != AsmMain.TokenType.comma) = true) from rfl]
        rw [parse_operands_cons_other (Or.inr (Or.inr (Or.inl htt)))]
      case plus =>
        rw [parse_operands_cons_other (Or.inr (Or.inr (Or.inr htt))), hfc]
        simp only [htt, if_true, ite_true, show ((AsmMain.TokenType.plus != AsmMain.TokenType.comma) = true) from rfl]
        rw [parse_operands_cons_other (Or.inr (Or.inr (Or.inr htt)))]
      case hash =>
        rw [hfc]
        simp only [htt, if_true, ite_true, show ((AsmMain.TokenType.hash != AsmMain.TokenType.comma) = true) from rfl]
        cases rest with
        | nil =>
          rw [parse_operands_cons_hash_nil htt]
          simp only [List.filter_nil]
          rw [parse_operands_cons_hash_nil htt]
        | cons t2 rest2 =>
          have ht2 : t2.type ≠ AsmMain.TokenType.comma := by
            intro hcc
            unfold AsmMain.noHashComma at hnh
            rw [htt, hcc] at hnh
            simp at hnh
          simp only [List.length_cons, Nat.succ_le_succ_iff] at hlen
          have hfc2 : (t2 :: rest2).filter (fun t => t.type != AsmMain.TokenType.comma) =
              t2 :: rest2.filter (fun t => t.type != AsmMain.TokenType.comma) := by
            simp [List.filter_cons, bne_iff_ne, ht2]
          rw [hfc2]
          by_cases ht2n : t2.type = AsmMain.TokenType.number
          · rw [parse_operands_cons_hash_number htt ht2n,
              parse_operands_cons_hash_number htt ht2n,
              ih rest2 (Nat.le_of_succ_le hlen) (noHashComma_tail hrest)]
          · rw [parse_operands_cons_hash_bad htt ht2n, parse_operands_cons_hash_bad htt ht2n]

theorem C10_comma_insertion_counterexample :
    AsmMain.parse_operands
        [⟨AsmMain.TokenType.hash, "#".data, 1, 4⟩, ⟨AsmMain.TokenType.number, "5".data, 1, 5⟩] =
      .ok [⟨AsmMain.OperandKind.imm, "5".data⟩] ∧
    AsmMain.parse_operands
        [⟨AsmMain.TokenType.hash, "#".data, 1, 4⟩, ⟨AsmMain.TokenType.comma, ",".data, 1, 5⟩,
         ⟨AsmMain.TokenType.number, "5".data, 1, 6⟩] =
      .error AsmMain.eHashNum := by
  exact ⟨by decide, by decide⟩

/-- C10 (amended): commas are skippable separators in the operand loop —
deleting all comma tokens, or inserting comma tokens anywhere except
directly between a `#` and its number, leaves the parsed operand list
unchanged.  A comma between `#` and the number changes the parse
(see `C10_comma_insertion_counterexample`). -/
theorem C10_commas_are_skippable_separators (t1 t2 : List AsmMain.Token)
    (h1 : AsmMain.noHashComma t1 = true) (h2 : AsmMain.noHashComma t2 = true)
    (hsame : t1.filter (fun t => t.type != AsmMain.TokenType.comma) =
             t2.filter (fun t => t.type != AsmMain.TokenType.comma)) :
    AsmMain.parse_operands t1 = AsmMain.parse_operands t2 := by
  rw [parse_operands_filter_aux t1.length t1 (Nat.le_refl _) h1,
    parse_operands_filter_aux t2.length t2 (Nat.le_refl _) h2, hsame]

theorem C10_commas_are_skippable_separators_witness :
    AsmMain.parse_operands
        [⟨AsmMain.TokenType.register, "R0".data, 1, 4⟩,
         ⟨AsmMain.TokenType.comma, ",".data, 1, 6⟩,
         ⟨AsmMain.TokenType.comma, ",".data, 1, 7⟩,
         ⟨AsmMain.TokenType.register, "R1".data, 1, 8⟩] =
      AsmMain.parse_operands
        [⟨AsmMain.TokenType.register, "R0".data, 1, 4⟩,
         ⟨AsmMain.TokenType.register, "R1".data, 1, 8⟩] :=
  C10_commas_are_skippable_separators _ _ (by decide) (by decide) (by decide)

theorem pass1_label_line_addr {ctx ctx2 : AsmMain.AsmContext} {pl : AsmMain.ParsedLine}
    (h : AsmMain.pass1_label ctx pl = .ok ctx2) : ctx2.line_addr = ctx.line_addr := by
  unfold AsmMain.pass1_label at h
  repeat' split at h
  all_goals cases h
  all_goals rfl

theorem pass1_advance_line_addr {ctx ctx2 : AsmMain.AsmContext} {pl : AsmMain.ParsedLine}
    (h : AsmMain.pass1_advance ctx pl = .ok ctx2) : ctx2.line_addr = ctx.line_addr := by
  unfold AsmMain.pass1_advance at h
  simp only [pure, Except.pure] at h
  repeat' split at h
  all_goals (try cases h)
  all_goals (try (simp only [except_bind_ok] at h; obtain ⟨v, hv, h⟩ := h; cases h))
  all_goals rfl

theorem pass1_line_line_addr {ctx ctx2 : AsmMain.AsmContext} {pl : AsmMain.ParsedLine}
    (h : AsmMain.pass1_line ctx pl = .ok ctx2) :
    ctx2.line_addr = ctx.line_addr ++ [ctx.current_addr_words] := by
  unfold AsmMain.pass1_line at h
  simp only [except_bind_ok, pure, Except.pure] at h
  obtain ⟨u, hu, h⟩ := h
  rw [pass1_advance_line_addr h, pass1_label_line_addr hu]

theorem pass1_go_line_addr_len {lines : List AsmMain.ParsedLine}
    {ctx ctx2 : AsmMain.AsmContext}
    (h : AsmMain.pass1_go lines ctx = .ok ctx2) :
    ctx2.line_addr.length = ctx.line_addr.length + lines.length := by
  induction lines generalizing ctx with
  | nil =>
    unfold AsmMain.pass1_go at h
    cases h
    simp
  | cons pl rest ih =>
    unfold AsmMain.pass1_go at h
    simp only [except_bind_ok, pure, Except.pure] at h
    obtain ⟨u, hu, h⟩ := h
    have h1 := pass1_line_line_addr hu
    have h2 := ih h
    rw [h2, h1]
    simp
    omega

theorem pass2_go_ok_forall {ctx : AsmMain.AsmContext} {l : List (AsmMain.ParsedLine × Nat)}
    {out : List Nat}
    (h : AsmMain.pass2_go ctx l = .ok out) :
    ∀ pa ∈ l, ∃ ws, AsmMain.pass2_line ctx pa.2 pa.1 = .ok ws := by
  induction l generalizing out with
  | nil => intro pa hpa; cases hpa
  | cons x rest ih =>
    unfold AsmMain.pass2_go at h
    simp only [except_bind_ok, pure, Except.pure] at h
    obtain ⟨ws, hws, rest2, hrest2, _⟩ := h
    intro pa hpa
    rcases List.mem_cons.1 hpa with hpa | hpa
    · subst hpa
      exact ⟨ws, hws⟩
    · exact ih hrest2 pa hpa

theorem find_instr_eq_none {u : List Char} (h : AsmMain.has_instr u = false) :
    AsmMain.find_instr u = none := by
  unfold AsmMain.has_instr at h
  cases hf : AsmMain.find_instr u with
  | none => rfl
  | some v => rw [hf] at h; simp at h

/-- C4: unsupported mnemonics fail in Pass 2, not Pass 1.  A parsed
instruction whose mnemonic is not in `INSTR_TABLE` passes Pass 1 (which
skips unknown mnemonics without advancing the counter) but makes Pass 2 —
and hence the whole `assemble` — throw `Unknown instruction`. -/
theorem C4_unsupported_mnemonic_fails
    (lines : List AsmMain.ParsedLine) (i : Nat) (pl : AsmMain.ParsedLine)
    (hpl : lines[i]? = some pl)
    (hkind : pl.kind = AsmMain.LineKind.instruction)
    (hunsup : AsmMain.has_instr (upper pl.op) = false) :
    (∀ st, AsmMain.pass1_advance st pl = .ok st) ∧
    (∀ ctx a, AsmMain.pass2_line ctx a pl = .error AsmMain.eUnknownInstruction) ∧
    (∀ src, AsmMain.parse_source src = .ok lines → ∃ e, AsmMain.assemble src = .error e) := by
  have hnone := find_instr_eq_none hunsup
  have hp2 : ∀ ctx a, AsmMain.pass2_line ctx a pl = .error AsmMain.eUnknownInstruction := by
    intro ctx a
    unfold AsmMain.pass2_line
    rw [hkind]
    simp only [reduceCtorEq, reduceIte, ne_eq, not_true_eq_false, not_false_eq_true,
      if_true, if_false, ite_true, ite_false]
    rw [hnone]
  refine ⟨?_, hp2, ?_⟩
  · intro st
    unfold AsmMain.pass1_advance
    rw [hkind]
    simp [hunsup, pure, Except.pure]
  · intro src hsrc
    unfold AsmMain.assemble
    rw [hsrc]
    simp only [bind, Except.bind]
    cases hp1 : AsmMain.pass1 lines {} with
    | error e => exact ⟨e, rfl⟩
    | ok ctx =>
      simp only []
      cases hpass2 : AsmMain.pass2 lines ctx with
      | error e => exact ⟨e, rfl⟩
      | ok words =>
        exfalso
        have hilt : i < lines.length := by
          rcases List.getElem?_eq_some_iff.1 hpl with ⟨hh, _⟩
          exact hh
        have hlen : ctx.line_addr.length = lines.length := by
          have := pass1_go_line_addr_len hp1
          simpa using this
        have hia : ctx.line_addr[i]? = some (ctx.line_addr.get ⟨i, by omega⟩) :=
          List.getElem?_eq_getElem (by omega)
        have hzip : (lines.zip ctx.line_addr)[i]? =
            some (pl, ctx.line_addr.get ⟨i, by omega⟩) := by
          rw [List.getElem?_zip_eq_some]
          exact ⟨hpl, hia⟩
        have hmem := List.getElem?_mem hzip
        obtain ⟨ws, hws⟩ := pass2_go_ok_forall hpass2 _ hmem
        rw [hp2 ctx _] at hws
        cases hws

theorem C4_unsupported_mnemonic_fails_witness :
    ∃ e, AsmMain.assemble "SUB R0, R1".data = .error e :=
  (C4_unsupported_mnemonic_fails
    [⟨1, [], AsmMain.LineKind.instruction, "SUB".data,
      [⟨AsmMain.OperandKind.reg, "R0".data⟩, ⟨AsmMain.OperandKind.reg, "R1".data⟩]⟩]
    0
    ⟨1, [], AsmMain.LineKind.instruction, "SUB".data,
      [⟨AsmMain.OperandKind.reg, "R0".data⟩, ⟨AsmMain.OperandKind.reg, "R1".data⟩]⟩
    (by decide) (by decide) (by decide)).2.2 "SUB R0, R1".data (by decide)

theorem goodCharA_of_numCont {c : Char} (h : numCont c = true) : goodCharA c = true := by
  unfold numCont at h
  unfold goodCharA
  rcases Bool.or_eq_true _ _ |>.mp h with h' | h'
  · rcases Bool.or_eq_true _ _ |>.mp h' with h2 | h2
    · simp [h2]
    · have : c = 'x' := by simpa using h2
      subst this
      decide
  · have : c = 'X' := by simpa using h'
    subst this
    decide

theorem goodCharA_of_identCont {c : Char} (h : AsmMain.identCont c = true) :
    goodCharA c = true := by
  unfold AsmMain.identCont at h
  unfold goodCharA
  rcases Bool.or_eq_true _ _ |>.mp h with h' | h'
  · simp [h']
  · simp [h']

theorem tokenizeFrom_cons_eq (ln fuel i : Nat) (c : Char) (rest : List Char) :
    AsmMain.tokenizeFrom ln (fuel + 1) i (c :: rest) =
      (if isWsChar c then AsmMain.tokenizeFrom ln fuel (i + 1) rest
      else if c = ',' then do
        let ts ← AsmMain.tokenizeFrom ln fuel (i + 1) rest
        .ok (⟨.comma, [c], ln, i⟩ :: ts)
      else if c = ':' then do
        let ts ← AsmMain.tokenizeFrom ln fuel (i + 1) rest
        .ok (⟨.colon, [c], ln, i⟩ :: ts)
      else if c = '#' then do
        let ts ← AsmMain.tokenizeFrom ln fuel (i + 1) rest
        .ok (⟨.hash, [c], ln, i⟩ :: ts)
      else if c = '[' then do
        let ts ← AsmMain.tokenizeFrom ln fuel (i + 1) rest
        .ok (⟨.lbracket, [c], ln, i⟩ :: ts)
      else if c = ']' then do
        let ts ← AsmMain.tokenizeFrom ln fuel (i + 1) rest
        .ok (⟨.rbracket, [c], ln, i⟩ :: ts)
      else if c = '+' then do
        let ts ← AsmMain.tokenizeFrom ln fuel (i + 1) rest
        .ok (⟨.plus, [c], ln, i⟩ :: ts)
      else if c.isDigit then do
        let body := rest.takeWhile numCont
        let ts ← AsmMain.tokenizeFrom ln fuel (i + 1 + body.length) (rest.dropWhile numCont)
        .ok (⟨.number, c :: body, ln, i⟩ :: ts)
      else if c.isAlpha || c = '_' then
        let body := rest.takeWhile AsmMain.identCont
        let ident := c :: body
        let up := upper ident
        let tok : AsmMain.Token :=
          if up == "R0".data || up == "R1".data || up == "R2".data || up == "R3".data
          then ⟨.register, up, ln, i⟩
          else ⟨.identifier, ident, ln, i⟩
        do
          let ts ← AsmMain.tokenizeFrom ln fuel (i + 1 + body.length) (rest.dropWhile AsmMain.identCont)
          .ok (tok :: ts)
      else .error AsmMain.eUnexpectedChar) := rfl

theorem tokenizeFrom_ok_good (ln : Nat) :
    ∀ (fuel : Nat) (i : Nat) (cs : List Char) (ts : List AsmMain.Token),
      cs.length ≤ fuel →
      AsmMain.tokenizeFrom ln fuel i cs = .ok ts →
      ∀ c ∈ cs, goodCharA c = true := by
  intro fuel
  induction fuel with
  | zero =>
    intro i cs ts hlen _ c hc
    have h0 : cs = [] := List.eq_nil_of_length_eq_zero (Nat.le_zero.1 hlen)
    subst h0
    cases hc
  | succ n ih =>
    intro i cs ts hlen h c' hc'
    match cs, hc' with
    | c :: rest, hc' =>
      simp only [List.length_cons, Nat.succ_le_succ_iff] at hlen
      rw [tokenizeFrom_cons_eq] at h
      by_cases h1 : isWsChar c = true
      · rw [if_pos h1] at h
        rcases List.mem_cons.1 hc' with hce | hcr
        · subst hce; simp [goodCharA, h1]
        · exact ih _ _ _ hlen h c' hcr
      rw [if_neg h1] at h
      by_cases h2 : c = ','
      · rw [if_pos h2] at h
        simp only [except_bind_ok, pure, Except.pure] at h
        obtain ⟨u, hu, _⟩ := h
        rcases List.mem_cons.1 hc' with hce | hcr
        · subst hce; simp [goodCharA, h2]
        · exact ih _ _ _ hlen hu c' hcr
      rw [if_neg h2] at h
      by_cases h3 : c = ':'
      · rw [if_pos h3] at h
        simp only [except_bind_ok, pure, Except.pure] at h
        obtain ⟨u, hu, _⟩ := h
        rcases List.mem_cons.1 hc' with hce | hcr
        · subst hce; simp [goodCharA, h3]
        · exact ih _ _ _ hlen hu c' hcr
      rw [if_neg h3] at h
      by_cases h4 : c = '#'
      · rw [if_pos h4] at h
        simp only [except_bind_ok, pure, Except.pure] at h
        obtain ⟨u, hu, _⟩ := h
        rcases List.mem_cons.1 hc' with hce | hcr
        · subst hce; simp [goodCharA, h4]
        · exact ih _ _ _ hlen hu c' hcr
      rw [if_neg h4] at h
      by_cases h5 : c = '['
      · rw [if_pos h5] at h
        simp only [except_bind_ok, pure, Except.pure] at h
        obtain ⟨u, hu, _⟩ := h
        rcases List.mem_cons.1 hc' with hce | hcr
        · subst hce; simp [goodCharA, h5]
        · exact ih _ _ _ hlen hu c' hcr
      rw [if_neg h5] at h
      by_cases h6 : c = ']'
      · rw [if_pos h6] at h
        simp only [except_bind_ok, pure, Except.pure] at h
        obtain ⟨u, hu, _⟩ := h
        rcases List.mem_cons.1 hc' with hce | hcr
        · subst hce; simp [goodCharA, h6]
        · exact ih _ _ _ hlen hu c' hcr
      rw [if_neg h6] at h
      by_cases h7 : c = '+'
      · rw [if_pos h7] at h
        simp only [except_bind_ok, pure, Except.pure] at h
        obtain ⟨u, hu, _⟩ := h
        rcases List.mem_cons.1 hc' with hce | hcr
        · subst hce; simp [goodCharA, h7]
        · exact ih _ _ _ hlen hu c' hcr
      rw [if_neg h7] at h
      by_cases h8 : c.isDigit = true
      · rw [if_pos h8] at h
        simp only [except_bind_ok, pure, Except.pure] at h
        obtain ⟨u, hu, _⟩ := h
        rcases List.mem_cons.1 hc' with hce | hcr
        · subst hce
          simp [goodCharA, Char.isAlphanum, h8]
        · have hsplit : c' ∈ rest.takeWhile numCont ++ rest.dropWhile numCont := by
            rw [List.takeWhile_append_dropWhile]
            exact hcr
          rcases List.mem_append.1 hsplit with htk | hdr
          · exact goodCharA_of_numCont (List.mem_takeWhile_imp htk)
          · exact ih _ _ _ (le_trans (List.dropWhile_sublist _).length_le hlen) hu c' hdr
      rw [if_neg h8] at h
      by_cases h9 : (c.isAlpha || c = '_') = true
      · rw [if_pos h9] at h
        simp only [except_bind_ok, pure, Except.pure] at h
        obtain ⟨u, hu, _⟩ := h
        rcases List.mem_cons.1 hc' with hce | hcr
        · subst hce
          rcases Bool.or_eq_true _ _ |>.mp h9 with ha | ha
          · simp [goodCharA, Char.isAlphanum, ha]
          · simp at ha
            subst ha
            decide
        · have hsplit : c' ∈ rest.takeWhile AsmMain.identCont ++ rest.dropWhile AsmMain.identCont := by
            rw [List.takeWhile_append_dropWhile]
            exact hcr
          rcases List.mem_append.1 hsplit with htk | hdr
          · exact goodCharA_of_identCont (List.mem_takeWhile_imp htk)
          · exact ih _ _ _ (le_trans (List.dropWhile_sublist _).length_le hlen) hu c' hdr
      rw [if_neg h9] at h
      cases h

theorem except_bind_err {e a b : Type} {x : Except e a} {f : a → Except e b} {er : e} :
    (x >>= f) = .error er ↔ (x = .error er ∨ ∃ u, x = .ok u ∧ f u = .error er) := by
  cases x <;> simp [Bind.bind, Except.bind]

theorem tokenizeFrom_error_msg (ln : Nat) :
    ∀ (fuel : Nat) (i : Nat) (cs : List Char) (e : String),
      AsmMain.tokenizeFrom ln fuel i cs = .error e → e = AsmMain.eUnexpectedChar := by
  intro fuel
  induction fuel with
  | zero =>
    intro i cs e h
    match cs with
    | [] => cases h
    | c :: rest => cases h
  | succ n ih =>
    intro i cs e h
    match cs with
    | [] => cases h
    | c :: rest =>
      rw [tokenizeFrom_cons_eq] at h
      by_cases h1 : isWsChar c = true
      · rw [if_pos h1] at h
        exact ih _ _ _ h
      rw [if_neg h1] at h
      by_cases h2 : c = ','
      · rw [if_pos h2] at h
        rcases except_bind_err.1 h with h' | ⟨u, _, h'⟩
        · exact ih _ _ _ h'
        · cases h'
      rw [if_neg h2] at h
      by_cases h3 : c = ':'
      · rw [if_pos h3] at h
        rcases except_bind_err.1 h with h' | ⟨u, _, h'⟩
        · exact ih _ _ _ h'
        · cases h'
      rw [if_neg h3] at h
      by_cases h4 : c = '#'
      · rw [if_pos h4] at h
        rcases except_bind_err.1 h with h' | ⟨u, _, h'⟩
        · exact ih _ _ _ h'
        · cases h'
      rw [if_neg h4] at h
      by_cases h5 : c = '['
      · rw [if_pos h5] at h
        rcases except_bind_err.1 h with h' | ⟨u, _, h'⟩
        · exact ih _ _ _ h'
        · cases h'
      rw [if_neg h5] at h
      by_cases h6 : c = ']'
      · rw [if_pos h6] at h
        rcases except_bind_err.1 h with h' | ⟨u, _, h'⟩
        · exact ih _ _ _ h'
        · cases h'
      rw [if_neg h6] at h
      by_cases h7 : c = '+'
      · rw [if_pos h7] at h
        rcases except_bind_err.1 h with h' | ⟨u, _, h'⟩
        · exact ih _ _ _ h'
        · cases h'
      rw [if_neg h7] at h
      by_cases h8 : c.isDigit = true
      · rw [if_pos h8] at h
        rcases except_bind_err.1 h with h' | ⟨u, _, h'⟩
        · exact ih _ _ _ h'
        · cases h'
      rw [if_neg h8] at h
      by_cases h9 : (c.isAlpha || c = '_') = true
      · rw [if_pos h9] at h
        simp only [] at h
        rcases except_bind_err.1 h with h' | ⟨u, _, h'⟩
        · exact ih _ _ _ h'
        · cases h'
      rw [if_neg h9] at h
      cases h
      rfl

/-- C8 (amended): the main lexer rejects any character outside its
accepted set by throwing, but the message is the fixed string
`Unexpected character in source` — it names neither the offending
character nor its position (see `C8_lexer_error_counterexample`). -/
theorem C8_lexer_rejects_bad_character (line : List Char) (ln : Nat) (c : Char)
    (hc : c ∈ line.takeWhile (fun x => x != ';'))
    (hbad : goodCharA c = false) :
    AsmMain.tokenize_line line ln = .error AsmMain.eUnexpectedChar := by
  unfold AsmMain.tokenize_line
  cases hres : AsmMain.tokenizeFrom ln (line.takeWhile (fun x => x != ';')).length 0
      (line.takeWhile (fun x => x != ';')) with
  | ok ts =>
    exfalso
    have hg := tokenizeFrom_ok_good ln _ 0 _ ts (Nat.le_refl _) hres c hc
    rw [hbad] at hg
    cases hg
  | error e =>
    rw [tokenizeFrom_error_msg ln _ 0 _ e hres]

theorem C8_lexer_error_counterexample :
    AsmMain.tokenize_line "@".data 1 = .error AsmMain.eUnexpectedChar ∧
    AsmMain.tokenize_line "$x".data 7 = AsmMain.tokenize_line "@".data 1 :=
  ⟨by decide, by decide⟩

theorem C8_lexer_rejects_bad_character_witness :
    AsmMain.tokenize_line "NOP @R0".data 3 = .error AsmMain.eUnexpectedChar :=
  C8_lexer_rejects_bad_character "NOP @R0".data 3 '@' (by decide) (by decide)

theorem C5_org_directive_counterexample :
    AsmMain.assemble ".org 0x8000".data = .error AsmMain.eUnexpectedChar ∧
    AsmMain.assemble ".org 0x8000\nNOP".data = .error AsmMain.eUnexpectedChar :=
  ⟨by decide, by decide⟩

/-- C5 (amended): `.org` semantics hold only in the scratch assembler.
Its Pass 1 sets the running address to the operand's 16-bit value for a
numeric operand and aborts on an out-of-range value; a label operand is
also accepted when already defined (looked up in the symbol map), and an
unknown label aborts with the `unordered_map::at` exception.  The main
assembler never gets this far: its lexer has no rule for `'.'`, so any
`.org` line makes `assemble` throw `Unexpected character in source`
(see `C5_org_directive_counterexample`). -/
theorem C5_org_directive_scratch (st : AsmScratch.State1) (l : AsmScratch.Line)
    (o : AsmScratch.Operand)
    (hdir : l.is_directive = true) (hop : iequals l.op ".ORG".data = true)
    (hops : l.operands = [o]) :
    (∀ v, o.kind = AsmScratch.OperandKind.number → parse_number16B o.text = .ok v →
       AsmScratch.pass1_advance st l = .ok { st with addr := v }) ∧
    (∀ pr, o.kind = AsmScratch.OperandKind.label →
       st.symbols.find? (fun p => p.1 == o.text) = some pr →
       AsmScratch.pass1_advance st l = .ok { st with addr := pr.2 }) ∧
    (o.kind = AsmScratch.OperandKind.label →
       st.symbols.find? (fun p => p.1 == o.text) = none →
       AsmScratch.pass1_advance st l = .error AsmScratch.eMapAt) ∧
    (∀ symbols a, AsmScratch.pass2_line symbols a l = .ok []) := by
  have hopne : ¬ (l.op = []) := by
    intro h0
    rw [h0] at hop
    simp [iequals] at hop
  refine ⟨?_, ?_, ?_, ?_⟩
  · intro v hk hv
    unfold AsmScratch.pass1_advance
    simp [hopne, hdir, hop, hops, hk, hv, pure, Except.pure, Bind.bind, Except.bind]
  · intro pr hk hfind
    unfold AsmScratch.pass1_advance
    simp [hopne, hdir, hop, hops, hk, hfind, pure, Except.pure, Bind.bind, Except.bind]
  · intro hk hfind
    unfold AsmScratch.pass1_advance
    simp [hopne, hdir, hop, hops, hk, hfind, pure, Except.pure, Bind.bind, Except.bind]
  · intro symbols a
    unfold AsmScratch.pass2_line
    simp [hopne, hdir, hop, pure, Except.pure]

theorem C5_org_directive_scratch_witness :
    AsmScratch.pass1_advance ⟨[("FOO".data, 36864)], [36864], 36865⟩
        ⟨[], ".ORG".data, true, [⟨AsmScratch.OperandKind.label, "FOO".data⟩]⟩ =
      .ok ⟨[("FOO".data, 36864)], [36864], 36864⟩ :=
  (C5_org_directive_scratch _ _ _ (by decide) (by decide) rfl).2.1
    ("FOO".data, 36864) (by decide) (by decide)

theorem pass1_advance_symbols {ctx ctx2 : AsmMain.AsmContext} {pl : AsmMain.ParsedLine}
    (h : AsmMain.pass1_advance ctx pl = .ok ctx2) : ctx2.symbols = ctx.symbols := by
  unfold AsmMain.pass1_advance at h
  simp only [pure, Except.pure] at h
  repeat' split at h
  all_goals (try cases h)
  all_goals (try (simp only [except_bind_ok] at h; obtain ⟨v, hv, h⟩ := h; cases h))
  all_goals rfl

theorem pass1_label_append {ctx ctx2 : AsmMain.AsmContext} {pl : AsmMain.ParsedLine}
    (h : AsmMain.pass1_label ctx pl = .ok ctx2) :
    (∃ s, ctx2.symbols = ctx.symbols ++ s) ∧
    (pl.label ≠ [] → (pl.label, ctx.current_addr_words) ∈ ctx2.symbols) := by
  unfold AsmMain.pass1_label at h
  repeat' split at h
  all_goals cases h
  · exact ⟨⟨[(pl.label, ctx.current_addr_words)], rfl⟩, fun _ => by simp⟩
  · rename_i hlab
    exact ⟨⟨[], by simp⟩, fun hne => absurd (by simpa using hlab) hne⟩

theorem pass1_label_dup {ctx : AsmMain.AsmContext} {pl : AsmMain.ParsedLine}
    (hne : pl.label ≠ []) (hex : AsmMain.symbol_exists ctx pl.label = true) :
    AsmMain.pass1_label ctx pl = .error AsmMain.eDuplicateLabel := by
  unfold AsmMain.pass1_label
  simp [hne, hex]

theorem pass1_label_ok_or_dup (ctx : AsmMain.AsmContext) (pl : AsmMain.ParsedLine) :
    (∃ c2, AsmMain.pass1_label ctx pl = .ok c2) ∨
      AsmMain.pass1_label ctx pl = .error AsmMain.eDuplicateLabel := by
  unfold AsmMain.pass1_label
  repeat' split
  all_goals first | exact Or.inr rfl | exact Or.inl ⟨_, rfl⟩

theorem pass1_advance_ok_of_not_directive (ctx : AsmMain.AsmContext) (pl : AsmMain.ParsedLine)
    (hnd : pl.kind ≠ AsmMain.LineKind.directive) :
    ∃ c2, AsmMain.pass1_advance ctx pl = .ok c2 := by
  unfold AsmMain.pass1_advance
  simp only [hnd, reduceIte, if_false, ite_false, pure, Except.pure]
  repeat' split
  all_goals exact ⟨_, rfl⟩

theorem symbol_exists_mono {ctx ctx2 : AsmMain.AsmContext} {pl : AsmMain.ParsedLine}
    {name : List Char}
    (hex : AsmMain.symbol_exists ctx name = true)
    (h : AsmMain.pass1_line ctx pl = .ok ctx2) :
    AsmMain.symbol_exists ctx2 name = true := by
  unfold AsmMain.pass1_line at h
  simp only [except_bind_ok, pure, Except.pure] at h
  obtain ⟨u, hu, h⟩ := h
  obtain ⟨⟨s, hs⟩, _⟩ := pass1_label_append hu
  have h2 := pass1_advance_symbols h
  unfold AsmMain.symbol_exists at hex ⊢
  rw [h2, hs]
  simp only [List.any_append, Bool.or_eq_true]
  exact Or.inl (by simpa using hex)

theorem symbol_exists_after_label {ctx ctx2 : AsmMain.AsmContext} {pl : AsmMain.ParsedLine}
    (hne : pl.label ≠ [])
    (h : AsmMain.pass1_line ctx pl = .ok ctx2) :
    AsmMain.symbol_exists ctx2 pl.label = true := by
  unfold AsmMain.pass1_line at h
  simp only [except_bind_ok, pure, Except.pure] at h
  obtain ⟨u, hu, h⟩ := h
  obtain ⟨_, hmem⟩ := pass1_label_append hu
  have h2 := pass1_advance_symbols h
  unfold AsmMain.symbol_exists
  rw [h2]
  simp only [List.any_eq_true]
  exact ⟨_, hmem hne, by simp⟩

theorem pass1_line_dup {ctx : AsmMain.AsmContext} {pl : AsmMain.ParsedLine}
    (hne : pl.label ≠ [])
    (hex : AsmMain.symbol_exists ctx pl.label = true) :
    AsmMain.pass1_line ctx pl = .error AsmMain.eDuplicateLabel := by
  unfold AsmMain.pass1_line
  simp only []
  have hex2 : AsmMain.symbol_exists
      { ctx with line_addr := ctx.line_addr ++ [ctx.current_addr_words] } pl.label = true := hex
  rw [pass1_label_dup hne hex2]
  rfl

theorem pass1_line_ok_or_dup (ctx : AsmMain.AsmContext) (pl : AsmMain.ParsedLine)
    (hnd : pl.kind ≠ AsmMain.LineKind.directive) :
    (∃ c2, AsmMain.pass1_line ctx pl = .ok c2) ∨
      AsmMain.pass1_line ctx pl = .error AsmMain.eDuplicateLabel := by
  unfold AsmMain.pass1_line
  simp only []
  rcases pass1_label_ok_or_dup
      { ctx with line_addr := ctx.line_addr ++ [ctx.current_addr_words] } pl with ⟨c2, hc2⟩ | hdup
  · rw [hc2]
    obtain ⟨c3, hc3⟩ := pass1_advance_ok_of_not_directive c2 pl hnd
    exact Or.inl ⟨c3, by simpa [Bind.bind, Except.bind] using hc3⟩
  · rw [hdup]
    exact Or.inr rfl

theorem pass1_go_dup_of_exists {name : List Char} :
    ∀ (lines : List AsmMain.ParsedLine) (ctx : AsmMain.AsmContext) (j : Nat)
      (plj : AsmMain.ParsedLine),
      lines[j]? = some plj → plj.label = name → name ≠ [] →
      AsmMain.symbol_exists ctx name = true →
      (∀ pl ∈ lines, pl.kind ≠ AsmMain.LineKind.directive) →
      AsmMain.pass1_go lines ctx = .error AsmMain.eDuplicateLabel := by
  intro lines
  induction lines with
  | nil =>
    intro ctx j plj hj
    simp at hj
  | cons q rest ih =>
    intro ctx j plj hj hlab hne hex hnd
    cases j with
    | zero =>
      simp at hj
      subst hj
      unfold AsmMain.pass1_go
      rw [pass1_line_dup (hlab ▸ hne) (hlab ▸ hex)]
      rfl
    | succ jj =>
      simp at hj
      unfold AsmMain.pass1_go
      rcases pass1_line_ok_or_dup ctx q (hnd q (by simp)) with ⟨c2, hc2⟩ | hdup
      · rw [hc2]
        simp only [Bind.bind, Except.bind]
        exact ih c2 jj plj hj hlab hne (symbol_exists_mono hex hc2)
          (fun pl hpl => hnd pl (List.mem_cons_of_mem _ hpl))
      · rw [hdup]
        rfl

theorem pass1_go_dup :
    ∀ (lines : List AsmMain.ParsedLine) (ctx : AsmMain.AsmContext) (i j : Nat)
      (pli plj : AsmMain.ParsedLine),
      i < j → lines[i]? = some pli → lines[j]? = some plj →
      pli.label = plj.label → pli.label ≠ [] →
      (∀ pl ∈ lines, pl.kind ≠ AsmMain.LineKind.directive) →
      AsmMain.pass1_go lines ctx = .error AsmMain.eDuplicateLabel := by
  intro lines
  induction lines with
  | nil =>
    intro ctx i j pli plj _ hi
    simp at hi
  | cons q rest ih =>
    intro ctx i j pli plj hij hi hj hlab hne hnd
    cases j with
    | zero => omega
    | succ jj =>
      simp at hj
      unfold AsmMain.pass1_go
      rcases pass1_line_ok_or_dup ctx q (hnd q (by simp)) with ⟨c2, hc2⟩ | hdup
      · rw [hc2]
        simp only [Bind.bind, Except.bind]
        cases i with
        | zero =>
          simp at hi
          subst hi
          exact pass1_go_dup_of_exists rest c2 jj plj hj hlab.symm hne
            (symbol_exists_after_label hne hc2)
            (fun pl hpl => hnd pl (List.mem_cons_of_mem _ hpl))
        | succ ii =>
          simp at hi
          exact ih c2 ii jj pli plj (by omega) hi hj hlab hne
            (fun pl hpl => hnd pl (List.mem_cons_of_mem _ hpl))
      · rw [hdup]
        rfl

theorem tokenizeFrom_identifier_head (ln : Nat) :
    ∀ (fuel i : Nat) (cs : List Char) (ts : List AsmMain.Token),
      cs.length ≤ fuel →
      AsmMain.tokenizeFrom ln fuel i cs = .ok ts →
      ∀ t ∈ ts, t.type = AsmMain.TokenType.identifier →
        ∃ c b, t.text = c :: b ∧ (c.isAlpha || c = '_') = true := by
  intro fuel
  induction fuel with
  | zero =>
    intro i cs ts hlen h t ht
    have h0 : cs = [] := List.eq_nil_of_length_eq_zero (Nat.le_zero.1 hlen)
    subst h0
    cases h
    cases ht
  | succ n ih =>
    intro i cs ts hlen h t ht htype
    match cs with
    | [] =>
      cases h
      cases ht
    | c :: rest =>
      simp only [List.length_cons, Nat.succ_le_succ_iff] at hlen
      rw [tokenizeFrom_cons_eq] at h
      by_cases h1 : isWsChar c = true
      · rw [if_pos h1] at h
        exact ih _ _ _ hlen h t ht htype
      rw [if_neg h1] at h
      by_cases h2 : c = ','
      · rw [if_pos h2] at h
        simp only [except_bind_ok, pure, Except.pure, Except.ok.injEq] at h
        obtain ⟨u, hu, h⟩ := h
        subst h
        rcases List.mem_cons.1 ht with hte | htr
        · subst hte; cases htype
        · exact ih _ _ _ hlen hu t htr htype
      rw [if_neg h2] at h
      by_cases h3 : c = ':'
      · rw [if_pos h3] at h
        simp only [except_bind_ok, pure, Except.pure, Except.ok.injEq] at h
        obtain ⟨u, hu, h⟩ := h
        subst h
        rcases List.mem_cons.1 ht with hte | htr
        · subst hte; cases htype
        · exact ih _ _ _ hlen hu t htr htype
      rw [if_neg h3] at h
      by_cases h4 : c = '#'
      · rw [if_pos h4] at h
        simp only [except_bind_ok, pure, Except.pure, Except.ok.injEq] at h
        obtain ⟨u, hu, h⟩ := h
        subst h
        rcases List.mem_cons.1 ht with hte | htr
        · subst hte; cases htype
        · exact ih _ _ _ hlen hu t htr htype
      rw [if_neg h4] at h
      by_cases h5 : c = '['
      · rw [if_pos h5] at h
        simp only [except_bind_ok, pure, Except.pure, Except.ok.injEq] at h
        obtain ⟨u, hu, h⟩ := h
        subst h
        rcases List.mem_cons.1 ht with hte | htr
        · subst hte; cases htype
        · exact ih _ _ _ hlen hu t htr htype
      rw [if_neg h5] at h
      by_cases h6 : c = ']'
      · rw [if_pos h6] at h
        simp only [except_bind_ok, pure, Except.pure, Except.ok.injEq] at h
        obtain ⟨u, hu, h⟩ := h
        subst h
        rcases List.mem_cons.1 ht with hte | htr
        · subst hte; cases htype
        · exact ih _ _ _ hlen hu t htr htype
      rw [if_neg h6] at h
      by_cases h7 : c = '+'
      · rw [if_pos h7] at h
        simp only [except_bind_ok, pure, Except.pure, Except.ok.injEq] at h
        obtain ⟨u, hu, h⟩ := h
        subst h
        rcases List.mem_cons.1 ht with hte | htr
        · subst hte; cases htype
        · exact ih _ _ _ hlen hu t htr htype
      rw [if_neg h7] at h
      by_cases h8 : c.isDigit = true
      · rw [if_pos h8] at h
        simp only [except_bind_ok, pure, Except.pure, Except.ok.injEq] at h
        obtain ⟨u, hu, h⟩ := h
        subst h
        rcases List.mem_cons.1 ht with hte | htr
        · subst hte; cases htype
        · exact ih _ _ _ (le_trans (List.dropWhile_sublist _).length_le hlen) hu t htr htype
      rw [if_neg h8] at h
      by_cases h9 : (c.isAlpha || c = '_') = true
      · rw [if_pos h9] at h
        simp only [except_bind_ok, pure, Except.pure, Except.ok.injEq] at h
        obtain ⟨u, hu, h⟩ := h
        subst h
        rcases List.mem_cons.1 ht with hte | htr
        · subst hte
          by_cases hreg : (upper (c :: rest.takeWhile AsmMain.identCont) == "R0".data ||
              upper (c :: rest.takeWhile AsmMain.identCont) == "R1".data ||
              upper (c :: rest.takeWhile AsmMain.identCont) == "R2".data ||
              upper (c :: rest.takeWhile AsmMain.identCont) == "R3".data) = true
          · rw [if_pos hreg] at htype ⊢
            cases htype
          · rw [if_neg hreg] at htype ⊢
            exact ⟨c, _, rfl, h9⟩
        · exact ih _ _ _ (le_trans (List.dropWhile_sublist _).length_le hlen) hu t htr htype
      rw [if_neg h9] at h
      cases h

theorem parse_rest_directive {m : AsmMain.Token} {opnds : List AsmMain.Token}
    {line_no : Nat} {label : List Char} {pl : AsmMain.ParsedLine}
    (h : AsmMain.parse_rest line_no label (m :: opnds) = .ok pl)
    (hdir : pl.kind = AsmMain.LineKind.directive) :
    m.type = AsmMain.TokenType.identifier ∧ ∃ b, m.text = '.' :: b := by
  simp only [AsmMain.parse_rest] at h
  by_cases hm : m.type = AsmMain.TokenType.identifier
  · rw [if_pos hm] at h
    simp only [except_bind_ok, pure, Except.pure, Except.ok.injEq] at h
    obtain ⟨ops, hops, h⟩ := h
    subst h
    simp only [] at hdir
    by_cases hd : (match m.text with | c :: _ => c == '.' | [] => false) = true
    · refine ⟨hm, ?_⟩
      cases htext : m.text with
      | nil => rw [htext] at hd; cases hd
      | cons c b =>
        rw [htext] at hd
        simp only [beq_iff_eq] at hd
        subst hd
        exact ⟨b, rfl⟩
    · rw [if_neg hd] at hdir
      cases hdir
  · rw [if_neg hm] at h
    cases h

theorem parse_rest_nil_kind {line_no : Nat} {label : List Char} {pl : AsmMain.ParsedLine}
    (h : AsmMain.parse_rest line_no label [] = .ok pl) :
    pl.kind = AsmMain.LineKind.empty := by
  simp only [AsmMain.parse_rest] at h
  cases h
  rfl

theorem parse_tokens_directive {toks : List AsmMain.Token} {pl : AsmMain.ParsedLine}
    (h : AsmMain.parse_tokens toks = .ok pl)
    (hdir : pl.kind = AsmMain.LineKind.directive) :
    ∃ m ∈ toks, m.type = AsmMain.TokenType.identifier ∧ ∃ b, m.text = '.' :: b := by
  cases toks with
  | nil =>
    unfold AsmMain.parse_tokens at h
    cases h
    cases hdir
  | cons t0 ts =>
    cases ts with
    | nil =>
      have h' : AsmMain.parse_rest t0.line [] [t0] = .ok pl := h
      exact ⟨t0, by simp, parse_rest_directive h' hdir⟩
    | cons b more =>
      have h' : (if t0.type = AsmMain.TokenType.identifier ∧ b.type = AsmMain.TokenType.colon
          then AsmMain.parse_rest t0.line t0.text more
          else AsmMain.parse_rest t0.line [] (t0 :: b :: more)) = .ok pl := h
      by_cases hlab : t0.type = AsmMain.TokenType.identifier ∧ b.type = AsmMain.TokenType.colon
      · rw [if_pos hlab] at h'
        cases more with
        | nil =>
          rw [parse_rest_nil_kind h'] at hdir
          cases hdir
        | cons m opnds =>
          have := parse_rest_directive h' hdir
          exact ⟨m, by simp, this⟩
      · rw [if_neg hlab] at h'
        have := parse_rest_directive h' hdir
        exact ⟨t0, by simp, this⟩

theorem parse_source_go_no_directive :
    ∀ (ls : List (List Char)) (n : Nat) (lines : List AsmMain.ParsedLine),
      AsmMain.parse_source_go n ls = .ok lines →
      ∀ pl ∈ lines, pl.kind ≠ AsmMain.LineKind.directive := by
  intro ls
  induction ls with
  | nil =>
    intro n lines h pl hpl
    cases h
    cases hpl
  | cons l rest ih =>
    intro n lines h pl hpl
    unfold AsmMain.parse_source_go at h
    by_cases htr : trim l = []
    · rw [if_pos htr] at h
      exact ih _ _ h pl hpl
    · rw [if_neg htr] at h
      simp only [except_bind_ok, pure, Except.pure, Except.ok.injEq] at h
      obtain ⟨toks, htoks, pl2, hpl2, more, hmore, h⟩ := h
      subst h
      rcases List.mem_cons.1 hpl with hpe | hpr
      · subst hpe
        intro hdir
        obtain ⟨m, hmem, hmty, b, htext⟩ := parse_tokens_directive hpl2 hdir
        unfold AsmMain.tokenize_line at htoks
        obtain ⟨c, b2, htext2, hgood⟩ :=
          tokenizeFrom_identifier_head n _ 0 _ toks (Nat.le_refl _) htoks m hmem hmty
        rw [htext] at htext2
        injection htext2 with hc _
        rw [← hc] at hgood
        exact absurd hgood (by decide)
      · exact ih _ _ hmore pl hpr

theorem assemble_eq_of_parse {src : List Char} {lines : List AsmMain.ParsedLine}
    (hparse : AsmMain.parse_source src = .ok lines) :
    AsmMain.assemble src = (do
      let ctx ← AsmMain.pass1 lines {}
      let words ← AsmMain.pass2 lines ctx
      pure (wordsToBytes words)) := by
  unfold AsmMain.assemble
  rw [hparse]
  rfl

/-- C6: defining the same label twice aborts the main assembler during
Pass 1 with a `Duplicate label` error, and `assemble` produces no output
bytes for such a source. -/
theorem C6_duplicate_label_aborts
    (src : List Char) (lines : List AsmMain.ParsedLine) (i j : Nat)
    (pli plj : AsmMain.ParsedLine)
    (hparse : AsmMain.parse_source src = .ok lines)
    (hij : i < j) (hi : lines[i]? = some pli) (hj : lines[j]? = some plj)
    (hlab : pli.label = plj.label) (hne : pli.label ≠ []) :
    AsmMain.assemble src = .error AsmMain.eDuplicateLabel := by
  have hnd : ∀ pl ∈ lines, pl.kind ≠ AsmMain.LineKind.directive := by
    unfold AsmMain.parse_source at hparse
    exact parse_source_go_no_directive _ _ _ hparse
  have hdup := pass1_go_dup lines {} i j pli plj hij hi hj hlab hne hnd
  rw [assemble_eq_of_parse hparse]
  unfold AsmMain.pass1
  rw [hdup]
  rfl

theorem C6_duplicate_label_aborts_witness :
    AsmMain.assemble "x: NOP\nx: HALT".data = .error AsmMain.eDuplicateLabel :=
  C6_duplicate_label_aborts "x: NOP\nx: HALT".data
    [⟨1, "x".data, AsmMain.LineKind.instruction, "NOP".data, []⟩,
     ⟨2, "x".data, AsmMain.LineKind.instruction, "HALT".data, []⟩]
    0 1
    ⟨1, "x".data, AsmMain.LineKind.instruction, "NOP".data, []⟩
    ⟨2, "x".data, AsmMain.LineKind.instruction, "HALT".data, []⟩
    (by decide) (by decide) (by decide) (by decide) (by decide) (by decide)

theorem find?_eq_of_nodup_mem {l : List (List Char × Nat)} {k : List Char} {v : Nat}
    (hnd : (l.map Prod.fst).Nodup) (hmem : (k, v) ∈ l) :
    l.find? (fun p => p.1 == k) = some (k, v) := by
  induction l with
  | nil => cases hmem
  | cons q rest ih =>
    simp only [List.map_cons, List.nodup_cons] at hnd
    rcases List.mem_cons.1 hmem with hq | hr
    · subst hq
      simp [List.find?]
    · by_cases hk : q.1 = k
      · exfalso
        exact hnd.1 (hk ▸ List.mem_map_of_mem Prod.fst hr)
      · rw [List.find?]
        have : (q.1 == k) = false := by
          simp [hk]
        rw [this]
        exact ih hnd.2 hr

theorem pass1_line_symbols_cases {ctx ctx2 : AsmMain.AsmContext} {pl : AsmMain.ParsedLine}
    (h : AsmMain.pass1_line ctx pl = .ok ctx2) :
    ctx2.symbols = ctx.symbols ∨
      (pl.label ≠ [] ∧ AsmMain.symbol_exists ctx pl.label = false ∧
        ctx2.symbols = ctx.symbols ++ [(pl.label, ctx.current_addr_words)]) := by
  unfold AsmMain.pass1_line at h
  simp only [except_bind_ok, pure, Except.pure] at h
  obtain ⟨u, hu, h⟩ := h
  have hadv := pass1_advance_symbols h
  unfold AsmMain.pass1_label at hu
  repeat' split at hu
  all_goals cases hu
  · rename_i hne hex
    refine Or.inr ⟨hne, by simpa using hex, ?_⟩
    rw [hadv]
  · rename_i hne
    exact Or.inl hadv

theorem pass1_line_nodup {ctx ctx2 : AsmMain.AsmContext} {pl : AsmMain.ParsedLine}
    (hnd : (ctx.symbols.map Prod.fst).Nodup)
    (h : AsmMain.pass1_line ctx pl = .ok ctx2) :
    (ctx2.symbols.map Prod.fst).Nodup := by
  rcases pass1_line_symbols_cases h with hs | ⟨hne, hex, hs⟩
  · rw [hs]; exact hnd
  · rw [hs]
    simp only [List.map_append, List.map_cons, List.map_nil]
    rw [List.nodup_append]
    refine ⟨hnd, by simp, ?_⟩
    intro a ha hb
    simp at hb
    subst hb
    unfold AsmMain.symbol_exists at hex
    rw [List.any_eq_false] at hex
    obtain ⟨p, hp, hp2⟩ := List.mem_map.1 ha
    exact absurd (by simp [hp2]) (hex p hp)

theorem pass1_go_nodup {lines : List AsmMain.ParsedLine} {ctx ctx2 : AsmMain.AsmContext}
    (hnd : (ctx.symbols.map Prod.fst).Nodup)
    (h : AsmMain.pass1_go lines ctx = .ok ctx2) :
    (ctx2.symbols.map Prod.fst).Nodup := by
  induction lines generalizing ctx with
  | nil =>
    cases h
    exact hnd
  | cons pl rest ih =>
    unfold AsmMain.pass1_go at h
    simp only [except_bind_ok, pure, Except.pure] at h
    obtain ⟨u, hu, h⟩ := h
    exact ih (pass1_line_nodup hnd hu) h

theorem pass1_go_symbols_append {lines : List AsmMain.ParsedLine}
    {ctx ctx2 : AsmMain.AsmContext}
    (h : AsmMain.pass1_go lines ctx = .ok ctx2) :
    ∃ s, ctx2.symbols = ctx.symbols ++ s := by
  induction lines generalizing ctx with
  | nil =>
    cases h
    exact ⟨[], by simp⟩
  | cons pl rest ih =>
    unfold AsmMain.pass1_go at h
    simp only [except_bind_ok, pure, Except.pure] at h
    obtain ⟨u, hu, h⟩ := h
    obtain ⟨s2, hs2⟩ := ih h
    rcases pass1_line_symbols_cases hu with hs | ⟨_, _, hs⟩
    · exact ⟨s2, by rw [hs2, hs]⟩
    · exact ⟨[(pl.label, ctx.current_addr_words)] ++ s2, by rw [hs2, hs]; simp⟩

theorem pass1_go_line_addr_append {lines : List AsmMain.ParsedLine}
    {ctx ctx2 : AsmMain.AsmContext}
    (h : AsmMain.pass1_go lines ctx = .ok ctx2) :
    ∃ t, ctx2.line_addr = ctx.line_addr ++ t := by
  induction lines generalizing ctx with
  | nil =>
    cases h
    exact ⟨[], by simp⟩
  | cons pl rest ih =>
    unfold AsmMain.pass1_go at h
    simp only [except_bind_ok, pure, Except.pure] at h
    obtain ⟨u, hu, h⟩ := h
    obtain ⟨t2, ht2⟩ := ih h
    rw [pass1_line_line_addr hu] at ht2
    exact ⟨[ctx.current_addr_words] ++ t2, by rw [ht2]; simp⟩

theorem pass1_line_label_mem {ctx ctx2 : AsmMain.AsmContext} {pl : AsmMain.ParsedLine}
    (hne : pl.label ≠ [])
    (h : AsmMain.pass1_line ctx pl = .ok ctx2) :
    (pl.label, ctx.current_addr_words) ∈ ctx2.symbols := by
  rcases pass1_line_symbols_cases h with hs | ⟨_, _, hs⟩
  · exfalso
    unfold AsmMain.pass1_line at h
    simp only [except_bind_ok, pure, Except.pure] at h
    obtain ⟨u, hu, h⟩ := h
    have hadv := pass1_advance_symbols h
    unfold AsmMain.pass1_label at hu
    rw [if_pos hne] at hu
    by_cases hex : AsmMain.symbol_exists
        { ctx with line_addr := ctx.line_addr ++ [ctx.current_addr_words] } pl.label = true
    · rw [if_pos hex] at hu
      cases hu
    · rw [if_neg hex] at hu
      cases hu
      rw [hadv] at hs
      simp only [] at hs
      have := congrArg List.length hs
      simp at this
  · rw [hs]
    simp

theorem pass1_go_label_entry :
    ∀ (lines : List AsmMain.ParsedLine) (ctx ctx2 : AsmMain.AsmContext) (j : Nat)
      (plj : AsmMain.ParsedLine),
      AsmMain.pass1_go lines ctx = .ok ctx2 →
      lines[j]? = some plj → plj.label ≠ [] →
      ∃ a, ctx2.line_addr[ctx.line_addr.length + j]? = some a ∧ (plj.label, a) ∈ ctx2.symbols := by
  intro lines
  induction lines with
  | nil =>
    intro ctx ctx2 j plj _ hj
    simp at hj
  | cons pl rest ih =>
    intro ctx ctx2 j plj h hj hne
    unfold AsmMain.pass1_go at h
    simp only [except_bind_ok, pure, Except.pure] at h
    obtain ⟨u, hu, h⟩ := h
    have hula := pass1_line_line_addr hu
    cases j with
    | zero =>
      simp at hj
      subst hj
      refine ⟨ctx.current_addr_words, ?_, ?_⟩
      · obtain ⟨t, ht⟩ := pass1_go_line_addr_append h
        rw [ht, hula]
        rw [List.append_assoc]
        rw [List.getElem?_append_right (by omega)]
        simp
      · have hmem := pass1_line_label_mem hne hu
        obtain ⟨s, hs⟩ := pass1_go_symbols_append h
        rw [hs]
        exact List.mem_append_left _ hmem
    | succ jj =>
      simp at hj
      obtain ⟨a, ha, hmem⟩ := ih u ctx2 jj plj h hj hne
      refine ⟨a, ?_, hmem⟩
      rw [hula] at ha
      have : ctx.line_addr.length + (jj + 1) = (ctx.line_addr ++ [ctx.current_addr_words]).length + jj := by
        simp
        omega
      rw [this]
      exact ha

theorem pass1_go_keys_sub :
    ∀ (lines : List AsmMain.ParsedLine) (ctx ctx2 : AsmMain.AsmContext),
      AsmMain.pass1_go lines ctx = .ok ctx2 →
      ∀ p ∈ ctx2.symbols, p ∈ ctx.symbols ∨ ∃ pl ∈ lines, pl.label = p.1 := by
  intro lines
  induction lines with
  | nil =>
    intro ctx ctx2 h p hp
    cases h
    exact Or.inl hp
  | cons pl rest ih =>
    intro ctx ctx2 h p hp
    unfold AsmMain.pass1_go at h
    simp only [except_bind_ok, pure, Except.pure] at h
    obtain ⟨u, hu, h⟩ := h
    rcases ih u ctx2 h p hp with hpu | ⟨pl2, hpl2, hlab⟩
    · rcases pass1_line_symbols_cases hu with hs | ⟨_, _, hs⟩
      · rw [hs] at hpu
        exact Or.inl hpu
      · rw [hs] at hpu
        rcases List.mem_append.1 hpu with hl | hr
        · exact Or.inl hl
        · simp at hr
          exact Or.inr ⟨pl, by simp, by rw [hr]⟩
    · exact Or.inr ⟨pl2, List.mem_cons_of_mem _ hpl2, hlab⟩

theorem find_instr_JMP {u : List Char} (h : iequals u "JMP".data = true) :
    AsmMain.find_instr u = some ("JMP".data, 13) := by
  have eN : iequals u "NOP".data = false := by
    cases hc : iequals u "NOP".data
    · rfl
    · exact absurd (iequals_disjoint h hc) (by decide)
  have eH : iequals u "HALT".data = false := by
    cases hc : iequals u "HALT".data
    · rfl
    · exact absurd (iequals_disjoint h hc) (by decide)
  have eA : iequals u "ADD".data = false := by
    cases hc : iequals u "ADD".data
    · rfl
    · exact absurd (iequals_disjoint h hc) (by decide)
  simp [AsmMain.find_instr, AsmMain.INSTR_TABLE, List.find?, eN, eH, eA, h]

theorem find_instr_JZ {u : List Char} (h : iequals u "JZ".data = true) :
    AsmMain.find_instr u = some ("JZ".data, 14) := by
  have eN : iequals u "NOP".data = false := by
    cases hc : iequals u "NOP".data
    · rfl
    · exact absurd (iequals_disjoint h hc) (by decide)
  have eH : iequals u "HALT".data = false := by
    cases hc : iequals u "HALT".data
    · rfl
    · exact absurd (iequals_disjoint h hc) (by decide)
  have eA : iequals u "ADD".data = false := by
    cases hc : iequals u "ADD".data
    · rfl
    · exact absurd (iequals_disjoint h hc) (by decide)
  have eJ : iequals u "JMP".data = false := by
    cases hc : iequals u "JMP".data
    · rfl
    · exact absurd (iequals_disjoint h hc) (by decide)
  simp [AsmMain.find_instr, AsmMain.INSTR_TABLE, List.find?, eN, eH, eA, eJ, h]

theorem pass2_line_jump_eq {ctx : AsmMain.AsmContext} {addr : Nat} {pl : AsmMain.ParsedLine}
    {o : AsmMain.Operand}
    (hkind : pl.kind = AsmMain.LineKind.instruction)
    (hop : (iequals (upper pl.op) "JMP".data || iequals (upper pl.op) "JZ".data) = true)
    (hops : pl.operands = [o]) (hk : o.kind = AsmMain.OperandKind.labelRef) :
    ∃ w, AsmMain.pass2_line ctx addr pl =
      AsmMain.lookup_symbol ctx o.text >>= fun target =>
        pure [w, (((target : Int) - ((addr : Int) + 2)) % 65536).toNat] := by
  cases hres : AsmMain.pass2_line ctx addr pl with
  | ok ws =>
    unfold AsmMain.pass2_line at hres
    rw [hkind, hops] at hres
    simp only [reduceCtorEq, reduceIte, ne_eq, not_true_eq_false, not_false_eq_true,
      if_true, if_false, ite_true, ite_false] at hres
    repeat' split at hres
    all_goals simp only [except_bind_ok, pure, Except.pure, Except.ok.injEq, reduceCtorEq] at hres
    all_goals (try exact hres.elim)
    all_goals (try (rename_i hx; simp only [Bool.or_eq_true] at hx hop; rcases hx with hx | hx <;> rcases hop with hy | hy <;> exact absurd (iequals_disjoint hx hy) (by decide)))
    all_goals (try (rename_i hko; exact absurd (hko.symm.trans hk).symm (by decide)))
    all_goals obtain ⟨u, hu, hres⟩ := hres
    all_goals (try exact hu.elim)
    all_goals subst hres
    all_goals rw [hu]
    all_goals exact ⟨_, rfl⟩
  | error e =>
    unfold AsmMain.pass2_line at hres
    rw [hkind, hops] at hres
    simp only [reduceCtorEq, reduceIte, ne_eq, not_true_eq_false, not_false_eq_true,
      if_true, if_false, ite_true, ite_false] at hres
    repeat' split at hres
    all_goals simp only [except_bind_err, pure, Except.pure, Except.error.injEq, reduceCtorEq] at hres
    all_goals (try exact hres.elim)
    all_goals (try (rename_i hx; simp only [Bool.or_eq_true] at hx hop; rcases hx with hx | hx <;> rcases hop with hy | hy <;> exact absurd (iequals_disjoint hx hy) (by decide)))
    all_goals (try (rename_i hx; simp only [Bool.or_eq_true] at hop; rcases hop with hy | hy <;> exact absurd (iequals_disjoint hx hy) (by decide)))
    all_goals (try (rename_i hfi; simp only [Bool.or_eq_true] at hop; rcases hop with hj | hj <;> first | (rw [find_instr_JMP hj] at hfi; cases hfi) | (rw [find_instr_JZ hj] at hfi; cases hfi)))
    all_goals rcases hres with hres | ⟨u, hu2, hfalse⟩
    · exact ⟨0, by rw [hres]; rfl⟩
    · exact hfalse.elim

/-- C7: label resolution.  In the main assembler a label defined on line
`i` is bound to the Pass-1 address of line `i`, and a jump on any line `j`
that references it encodes exactly that address as its target, so forward
references work (Pass 2 runs after the symbol table is complete). -/
theorem C7_label_resolution
    (lines : List AsmMain.ParsedLine) (ctx : AsmMain.AsmContext)
    (hpass1 : AsmMain.pass1 lines {} = .ok ctx) :
    (∀ (j : Nat) (plj : AsmMain.ParsedLine), lines[j]? = some plj → plj.label ≠ [] →
       ∃ a, ctx.line_addr[j]? = some a ∧ AsmMain.lookup_symbol ctx plj.label = .ok a) ∧
    (∀ name, (∀ (j : Nat) (plj : AsmMain.ParsedLine), lines[j]? = some plj → plj.label ≠ name) →
       AsmMain.lookup_symbol ctx name =
         .error (AsmMain.eUnknownLabelMsg ++ String.mk name)) ∧
    (∀ (i : Nat) (pl : AsmMain.ParsedLine) (o : AsmMain.Operand) (addr : Nat), lines[i]? = some pl → ctx.line_addr[i]? = some addr →
       pl.kind = AsmMain.LineKind.instruction →
       (iequals (upper pl.op) "JMP".data || iequals (upper pl.op) "JZ".data) = true →
       pl.operands = [o] → o.kind = AsmMain.OperandKind.labelRef →
       (∀ (j : Nat) (plj : AsmMain.ParsedLine), lines[j]? = some plj → plj.label ≠ o.text) →
       AsmMain.pass2_line ctx addr pl =
         .error (AsmMain.eUnknownLabelMsg ++ String.mk o.text)) := by
  unfold AsmMain.pass1 at hpass1
  have hnodup : (ctx.symbols.map Prod.fst).Nodup :=
    pass1_go_nodup (by simp) hpass1
  have hundef : ∀ name, (∀ (j : Nat) (plj : AsmMain.ParsedLine), lines[j]? = some plj → plj.label ≠ name) →
      AsmMain.lookup_symbol ctx name =
        .error (AsmMain.eUnknownLabelMsg ++ String.mk name) := by
    intro name hno
    have hnone : ctx.symbols.find? (fun p => p.1 == name) = none := by
      rw [List.find?_eq_none]
      intro p hp hbeq
      rcases pass1_go_keys_sub lines {} ctx hpass1 p hp with hbase | ⟨pl2, hpl2, hlab⟩
      · cases hbase
      · obtain ⟨j, hjlen, hjget⟩ := List.getElem_of_mem hpl2
        have hj2 : lines[j]? = some pl2 := by
          rw [List.getElem?_eq_getElem hjlen, hjget]
        have hne := hno j pl2 hj2
        rw [hlab] at hne
        simp only [beq_iff_eq] at hbeq
        exact hne hbeq
    unfold AsmMain.lookup_symbol
    rw [hnone]
  refine ⟨?_, hundef, ?_⟩
  · intro j plj hj hne
    obtain ⟨a, ha, hmem⟩ := pass1_go_label_entry lines {} ctx j plj hpass1 hj hne
    refine ⟨a, by simpa using ha, ?_⟩
    unfold AsmMain.lookup_symbol
    rw [find?_eq_of_nodup_mem hnodup hmem]
  · intro i pl o addr hpl haddr hkind hop hops hk hno
    obtain ⟨w, hw⟩ := @pass2_line_jump_eq ctx addr pl o hkind hop hops hk
    rw [hw, hundef o.text hno]
    rfl

theorem C7_label_resolution_witness :
    ∃ a, ([32768, 32769] : List Nat)[0]? = some a ∧
      AsmMain.lookup_symbol
        ⟨32771, [("start".data, 32768)], [32768, 32769]⟩ "start".data = .ok a :=
  (C7_label_resolution
    [⟨1, "start".data, AsmMain.LineKind.instruction, "NOP".data, []⟩,
     ⟨2, [], AsmMain.LineKind.instruction, "JMP".data,
       [⟨AsmMain.OperandKind.labelRef, "start".data⟩]⟩]
    ⟨32771, [("start".data, 32768)], [32768, 32769]⟩
    (by decide)).1 0
    ⟨1, "start".data, AsmMain.LineKind.instruction, "NOP".data, []⟩
    (by decide) (by decide)

theorem char_ofNat_toNat (n : Nat) (h : Nat.isValidChar n) : (Char.ofNat n).toNat = n := by
  simp [Char.ofNat, h]
  rfl

theorem toUpper_eq_of_not_lower (c : Char) (h : ¬(97 ≤ c.toNat ∧ c.toNat ≤ 122)) :
    c.toUpper = c := by
  rw [Char.toUpper]
  simp only [ge_iff_le]
  rw [if_neg]
  omega

theorem toUpper_idem (c : Char) : c.toUpper.toUpper = c.toUpper := by
  by_cases h : 97 ≤ c.toNat ∧ c.toNat ≤ 122
  · have h1 : c.toUpper = Char.ofNat (c.toNat - 32) := by
      rw [Char.toUpper]
      simp only [ge_iff_le]
      rw [if_pos]
      omega
    have hv : Nat.isValidChar (c.toNat - 32) := by
      constructor
      omega
    have h2 : (c.toUpper).toNat = c.toNat - 32 := by
      rw [h1, char_ofNat_toNat _ hv]
    apply toUpper_eq_of_not_lower
    omega
  · rw [toUpper_eq_of_not_lower c h, toUpper_eq_of_not_lower c h]

theorem upper_upper (a : List Char) : upper (upper a) = upper a := by
  unfold upper
  rw [List.map_map]
  have he : Char.toUpper ∘ Char.toUpper = Char.toUpper := funext toUpper_idem
  rw [he]

theorem iequals_upper_left (a b : List Char) : iequals (upper a) b = iequals a b := by
  unfold iequals
  have h : (upper a).map Char.toUpper = a.map Char.toUpper := upper_upper a
  rw [h]

theorem find_pred_congr {α : Type} {p q : α → Bool} :
    ∀ (l : List α), (∀ a ∈ l, p a = q a) → l.find? p = l.find? q := by
  intro l
  induction l with
  | nil => intro _; rfl
  | cons a l ih =>
    intro h
    have ha := h a (List.mem_cons_self a l)
    rw [List.find?_cons, List.find?_cons, ← ha]
    cases hpa : p a
    · exact ih (fun x hx => h x (List.mem_cons_of_mem a hx))
    · rfl

theorem any_eq_find_isSome {α : Type} (l : List α) (p : α → Bool) :
    l.any p = (l.find? p).isSome := by
  induction l with
  | nil => rfl
  | cons a l ih =>
    rw [List.any_cons, List.find?_cons]
    cases hpa : p a
    · simpa using ih
    · rfl

theorem find_instr_upper (op : List Char) :
    AsmMain.find_instr (upper op) = AsmMain.find_instr op := by
  unfold AsmMain.find_instr
  exact find_pred_congr _ (fun a _ => iequals_upper_left op a.1)

theorem except_toOption_bind {e a b : Type} (x : Except e a) (f : a → Except e b) :
    (x >>= f).toOption = (x.toOption).bind (fun u => (f u).toOption) := by
  cases x <;> rfl

theorem except_toOption_ok_iff {e a : Type} {x : Except e a} {v : a} :
    x.toOption = some v ↔ x = .ok v := by
  cases x <;> simp [Except.toOption]

theorem except_toOption_none_iff {e a : Type} {x : Except e a} :
    x.toOption = none ↔ ∃ er, x = .error er := by
  cases x <;> simp [Except.toOption]

theorem takeWhile_all {α : Type} {p : α → Bool} :
    ∀ {l : List α}, (∀ x ∈ l, p x = true) → l.takeWhile p = l := by
  intro l
  induction l with
  | nil => intro _; rfl
  | cons a l ih =>
    intro h
    rw [List.takeWhile_cons, h a (List.mem_cons_self a l)]
    simp only [if_true]
    rw [ih (fun x hx => h x (List.mem_cons_of_mem a hx))]

theorem takeWhile_append_pos {α : Type} {p : α → Bool} :
    ∀ (xs ys : List α), (∀ x ∈ xs, p x = true) →
      (xs ++ ys).takeWhile p = xs ++ ys.takeWhile p := by
  intro xs ys
  induction xs with
  | nil => intro _; rfl
  | cons a xs ih =>
    intro h
    rw [List.cons_append, List.takeWhile_cons, h a (List.mem_cons_self a xs)]
    simp only [if_true]
    rw [ih (fun x hx => h x (List.mem_cons_of_mem a hx))]
    rfl

theorem takeWhile_append_stop {α : Type} {p : α → Bool} :
    ∀ (xs ys : List α) (x : α), x ∈ xs → p x = false →
      (xs ++ ys).takeWhile p = xs.takeWhile p := by
  intro xs ys
  induction xs with
  | nil => intro x hx _; cases hx
  | cons a xs ih =>
    intro x hx hpx
    rw [List.cons_append, List.takeWhile_cons, List.takeWhile_cons]
    cases hpa : p a
    · rfl
    · simp only [if_true]
      rcases List.mem_cons.1 hx with he | hm
      · subst he; rw [hpa] at hpx; cases hpx
      · rw [ih x hm hpx]

theorem takeWhile_append_neg {α : Type} {p : α → Bool} :
    ∀ (xs ys : List α), (∀ y ∈ ys, p y = false) →
      (xs ++ ys).takeWhile p = xs.takeWhile p := by
  intro xs ys
  induction xs with
  | nil =>
    intro h
    cases ys with
    | nil => rfl
    | cons b ys =>
      simp only [List.nil_append, List.takeWhile_cons, h b (List.mem_cons_self b ys)]
      rfl
  | cons a xs ih =>
    intro h
    rw [List.cons_append, List.takeWhile_cons, List.takeWhile_cons]
    cases hpa : p a
    · rfl
    · simp only [if_true]
      rw [ih h]

theorem dropWhile_append_neg {α : Type} {p : α → Bool} :
    ∀ (xs ys : List α), (∀ y ∈ ys, p y = false) →
      (xs ++ ys).dropWhile p = xs.dropWhile p ++ ys := by
  intro xs ys
  induction xs with
  | nil =>
    intro h
    cases ys with
    | nil => rfl
    | cons b ys =>
      simp only [List.nil_append, List.dropWhile_cons, h b (List.mem_cons_self b ys)]
      rfl
  | cons a xs ih =>
    intro h
    rw [List.cons_append, List.dropWhile_cons, List.dropWhile_cons]
    cases hpa : p a
    · rfl
    · simp only [if_true]
      rw [ih h]

theorem takeWhile_pred_congr {α : Type} {p q : α → Bool} :
    ∀ (l : List α), (∀ x ∈ l, p x = q x) → l.takeWhile p = l.takeWhile q := by
  intro l
  induction l with
  | nil => intro _; rfl
  | cons a l ih =>
    intro h
    rw [List.takeWhile_cons, List.takeWhile_cons, ← h a (List.mem_cons_self a l)]
    cases hpa : p a
    · rfl
    · simp only [if_true]
      rw [ih (fun x hx => h x (List.mem_cons_of_mem a hx))]

theorem dropWhile_pred_congr {α : Type} {p q : α → Bool} :
    ∀ (l : List α), (∀ x ∈ l, p x = q x) → l.dropWhile p = l.dropWhile q := by
  intro l
  induction l with
  | nil => intro _; rfl
  | cons a l ih =>
    intro h
    rw [List.dropWhile_cons, List.dropWhile_cons, ← h a (List.mem_cons_self a l)]
    cases hpa : p a
    · rfl
    · simp only [if_true]
      exact ih (fun x hx => h x (List.mem_cons_of_mem a hx))

theorem ws_cases {c : Char} (h : isWsChar c = true) :
    c = ' ' ∨ c = '\t' ∨ c = '\r' ∨ c = '\n' := by
  unfold isWsChar at h
  simp only [Bool.or_eq_true, beq_iff_eq] at h
  tauto

theorem ws_not_numCont {c : Char} (h : isWsChar c = true) : numCont c = false := by
  rcases ws_cases h with rfl | rfl | rfl | rfl <;> decide

theorem ws_not_identContB {c : Char} (h : isWsChar c = true) :
    AsmScratch.identCont c = false := by
  rcases ws_cases h with rfl | rfl | rfl | rfl <;> decide

theorem ws_not_semi {c : Char} (h : isWsChar c = true) : (c != ';') = true := by
  rcases ws_cases h with rfl | rfl | rfl | rfl <;> decide

theorem commonChar_cases {c : Char} (h : commonChar c = true) :
    c = ' ' ∨ c = '\t' ∨ c = '\r' ∨ c = ',' ∨ c = ':' ∨ c = '#' ∨ c = '_' ∨
      c.isDigit = true ∨ (decide ('A' ≤ c) && decide (c ≤ 'Z')) = true := by
  unfold commonChar at h
  simp only [Bool.or_eq_true, beq_iff_eq] at h
  tauto

theorem isDigit_toNat {c : Char} (h : c.isDigit = true) : 48 ≤ c.toNat ∧ c.toNat ≤ 57 := by
  simp [Char.isDigit, UInt32.le_def] at h
  have h1 := h.1
  have h2 := h.2
  exact ⟨h1, h2⟩

theorem upper_range_toNat {c : Char} (h : (decide ('A' ≤ c) && decide (c ≤ 'Z')) = true) :
    65 ≤ c.toNat ∧ c.toNat ≤ 90 := by
  simp [Char.le_def, UInt32.le_def] at h
  exact h

theorem digit_not_ws {c : Char} (h : c.isDigit = true) : isWsChar c = false := by
  cases hw : isWsChar c
  · rfl
  · rcases ws_cases hw with rfl | rfl | rfl | rfl <;> exact absurd h (by decide)

theorem digit_ne {c : Char} (h : c.isDigit = true) :
    c ≠ ',' ∧ c ≠ ':' ∧ c ≠ '#' ∧ c ≠ '[' ∧ c ≠ ']' ∧ c ≠ '+' := by
  refine ⟨?_, ?_, ?_, ?_, ?_, ?_⟩ <;> (intro e; subst e; exact absurd h (by decide))

theorem upperLetter_isAlpha {c : Char}
    (h : (decide ('A' ≤ c) && decide (c ≤ 'Z')) = true) : c.isAlpha = true := by
  have hb := upper_range_toNat h
  have hu : c.isUpper = true := by
    simp only [Char.isUpper, ge_iff_le, Bool.and_eq_true, decide_eq_true_eq,
      UInt32.le_def]
    exact ⟨hb.1, hb.2⟩
  simp [Char.isAlpha, hu]

theorem upperLetter_facts {c : Char}
    (h : (decide ('A' ≤ c) && decide (c ≤ 'Z')) = true) :
    isWsChar c = false ∧ c ≠ ',' ∧ c ≠ ':' ∧ c ≠ '#' ∧ c ≠ '[' ∧ c ≠ ']' ∧ c ≠ '+' ∧
      c.isDigit = false ∧ (c.isAlpha || c = '_') = true ∧ c ≠ '.' := by
  have hb := upper_range_toNat h
  refine ⟨?_, ?_, ?_, ?_, ?_, ?_, ?_, ?_, ?_, ?_⟩
  · cases hw : isWsChar c
    · rfl
    · rcases ws_cases hw with rfl | rfl | rfl | rfl <;> exact absurd hb (by decide)
  · intro e; subst e; exact absurd hb (by decide)
  · intro e; subst e; exact absurd hb (by decide)
  · intro e; subst e; exact absurd hb (by decide)
  · intro e; subst e; exact absurd hb (by decide)
  · intro e; subst e; exact absurd hb (by decide)
  · intro e; subst e; exact absurd hb (by decide)
  · cases hd : c.isDigit
    · rfl
    · have := isDigit_toNat hd
      omega
  · rw [upperLetter_isAlpha h]
    rfl
  · intro e; subst e; exact absurd hb (by decide)

theorem commonChar_toUpper {c : Char} (h : commonChar c = true) : c.toUpper = c := by
  rcases commonChar_cases h with rfl | rfl | rfl | rfl | rfl | rfl | rfl | hd | hu
  · decide
  · decide
  · decide
  · decide
  · decide
  · decide
  · decide
  · have := isDigit_toNat hd
    exact toUpper_eq_of_not_lower c (by omega)
  · have := upper_range_toNat hu
    exact toUpper_eq_of_not_lower c (by omega)

theorem upper_eq_self {l : List Char} (h : ∀ c ∈ l, commonChar c = true) :
    upper l = l := by
  unfold upper
  induction l with
  | nil => rfl
  | cons c l ih =>
    rw [List.map_cons, commonChar_toUpper (h c (List.mem_cons_self c l)),
      ih (fun x hx => h x (List.mem_cons_of_mem c hx))]

theorem identCont_eq_of_common {c : Char} (h : commonChar c = true) :
    AsmScratch.identCont c = AsmMain.identCont c := by
  unfold AsmScratch.identCont AsmMain.identCont
  have hne : (c == '.') = false := by
    simp only [beq_eq_false_iff_ne, ne_eq]
    intro e
    subst e
    rcases commonChar_cases h with h' | h' | h' | h' | h' | h' | h' | h' | h' <;>
      exact absurd h' (by decide)
  rw [hne, Bool.or_false]

theorem tokenizeFromB_cons_eq (fuel : Nat) (c : Char) (rest : List Char) :
    AsmScratch.tokenizeFrom (fuel + 1) (c :: rest) =
      (if isWsChar c then AsmScratch.tokenizeFrom fuel rest
      else if c = ',' then do
        let ts ← AsmScratch.tokenizeFrom fuel rest
        .ok (⟨.comma, [c]⟩ :: ts)
      else if c = ':' then do
        let ts ← AsmScratch.tokenizeFrom fuel rest
        .ok (⟨.colon, [c]⟩ :: ts)
      else if c = '#' then do
        let ts ← AsmScratch.tokenizeFrom fuel rest
        .ok (⟨.hash, [c]⟩ :: ts)
      else if c.isDigit then do
        let body := rest.takeWhile numCont
        let ts ← AsmScratch.tokenizeFrom fuel (rest.dropWhile numCont)
        .ok (⟨.number, c :: body⟩ :: ts)
      else if c.isAlpha || c = '_' || c = '.' then
        let body := rest.takeWhile AsmScratch.identCont
        let up := upper (c :: body)
        let tok : AsmScratch.Token :=
          if up == "R0".data || up == "R1".data || up == "R2".data || up == "R3".data
          then ⟨.register, up⟩
          else ⟨.identifier, up⟩
        do
          let ts ← AsmScratch.tokenizeFrom fuel (rest.dropWhile AsmScratch.identCont)
          .ok (tok :: ts)
      else .error AsmScratch.eUnexpectedChar) := rfl

theorem tokenizeFromB_fuel :
    ∀ (f1 f2 : Nat) (cs : List Char), cs.length ≤ f1 → cs.length ≤ f2 →
      AsmScratch.tokenizeFrom f1 cs = AsmScratch.tokenizeFrom f2 cs := by
  intro f1
  induction f1 with
  | zero =>
    intro f2 cs h1 _
    have h0 : cs = [] := List.eq_nil_of_length_eq_zero (Nat.le_zero.1 h1)
    subst h0
    cases f2 <;> rfl
  | succ n ih =>
    intro f2 cs h1 h2
    match cs with
    | [] => cases f2 <;> rfl
    | c :: rest =>
      cases f2 with
      | zero => simp at h2
      | succ g =>
        simp only [List.length_cons, Nat.succ_le_succ_iff] at h1 h2
        rw [tokenizeFromB_cons_eq, tokenizeFromB_cons_eq]
        by_cases hw : isWsChar c = true
        · rw [if_pos hw, if_pos hw]
          exact ih g rest h1 h2
        rw [if_neg hw, if_neg hw]
        by_cases hc1 : c = ','
        · rw [if_pos hc1, if_pos hc1, ih g rest h1 h2]
        rw [if_neg hc1, if_neg hc1]
        by_cases hc2 : c = ':'
        · rw [if_pos hc2, if_pos hc2, ih g rest h1 h2]
        rw [if_neg hc2, if_neg hc2]
        by_cases hc3 : c = '#'
        · rw [if_pos hc3, if_pos hc3, ih g rest h1 h2]
        rw [if_neg hc3, if_neg hc3]
        by_cases hd : c.isDigit = true
        · rw [if_pos hd, if_pos hd,
            ih g (rest.dropWhile numCont)
              (le_trans (List.dropWhile_sublist _).length_le h1)
              (le_trans (List.dropWhile_sublist _).length_le h2)]
        rw [if_neg hd, if_neg hd]
        by_cases ha : (c.isAlpha || c = '_' || c = '.') = true
        · rw [if_pos ha, if_pos ha,
            ih g (rest.dropWhile AsmScratch.identCont)
              (le_trans (List.dropWhile_sublist _).length_le h1)
              (le_trans (List.dropWhile_sublist _).length_le h2)]
        rw [if_neg ha, if_neg ha]

theorem tokenizeFromB_allws :
    ∀ (fuel : Nat) (ws : List Char), (∀ w ∈ ws, isWsChar w = true) → ws.length ≤ fuel →
      AsmScratch.tokenizeFrom fuel ws = .ok [] := by
  intro fuel
  induction fuel with
  | zero =>
    intro ws _ hl
    have h0 : ws = [] := List.eq_nil_of_length_eq_zero (Nat.le_zero.1 hl)
    subst h0
    rfl
  | succ n ih =>
    intro ws h hl
    match ws with
    | [] => rfl
    | w :: ws2 =>
      simp only [List.length_cons, Nat.succ_le_succ_iff] at hl
      rw [tokenizeFromB_cons_eq, if_pos (h w (List.mem_cons_self w ws2))]
      exact ih ws2 (fun x hx => h x (List.mem_cons_of_mem w hx)) hl

theorem tokenizeFromB_append_ws :
    ∀ (fuel : Nat) (cs ws : List Char), (cs ++ ws).length ≤ fuel →
      (∀ w ∈ ws, isWsChar w = true) →
      AsmScratch.tokenizeFrom fuel (cs ++ ws) = AsmScratch.tokenizeFrom fuel cs := by
  intro fuel
  induction fuel with
  | zero =>
    intro cs ws hl _
    have h0 : cs ++ ws = [] := List.eq_nil_of_length_eq_zero (Nat.le_zero.1 hl)
    rw [h0, (List.append_eq_nil.1 h0).1]
  | succ n ih =>
    intro cs ws hl hws
    match cs with
    | [] =>
      rw [List.nil_append, tokenizeFromB_allws (n + 1) ws hws (by simpa using hl)]
      rfl
    | c :: rest =>
      simp only [List.cons_append, List.length_cons, Nat.succ_le_succ_iff] at hl ⊢
      rw [tokenizeFromB_cons_eq, tokenizeFromB_cons_eq]
      by_cases hw : isWsChar c = true
      · rw [if_pos hw, if_pos hw]
        exact ih rest ws (by simpa using hl) hws
      rw [if_neg hw, if_neg hw]
      by_cases hc1 : c = ','
      · rw [if_pos hc1, if_pos hc1, ih rest ws (by simpa using hl) hws]
      rw [if_neg hc1, if_neg hc1]
      by_cases hc2 : c = ':'
      · rw [if_pos hc2, if_pos hc2, ih rest ws (by simpa using hl) hws]
      rw [if_neg hc2, if_neg hc2]
      by_cases hc3 : c = '#'
      · rw [if_pos hc3, if_pos hc3, ih rest ws (by simpa using hl) hws]
      rw [if_neg hc3, if_neg hc3]
      by_cases hd : c.isDigit = true
      · rw [if_pos hd, if_pos hd]
        rw [takeWhile_append_neg rest ws (fun w hw2 => ws_not_numCont (hws w hw2)),
          dropWhile_append_neg rest ws (fun w hw2 => ws_not_numCont (hws w hw2))]
        rw [ih (rest.dropWhile numCont) ws
          (by
            have h1 : (rest.dropWhile numCont).length ≤ rest.length :=
              (List.dropWhile_sublist _).length_le
            simp only [List.length_append] at hl ⊢
            omega)
          hws]
      rw [if_neg hd, if_neg hd]
      by_cases ha : (c.isAlpha || c = '_' || c = '.') = true
      · rw [if_pos ha, if_pos ha]
        rw [takeWhile_append_neg rest ws (fun w hw2 => ws_not_identContB (hws w hw2)),
          dropWhile_append_neg rest ws (fun w hw2 => ws_not_identContB (hws w hw2))]
        rw [ih (rest.dropWhile AsmScratch.identCont) ws
          (by
            have h1 : (rest.dropWhile AsmScratch.identCont).length ≤ rest.length :=
              (List.dropWhile_sublist _).length_le
            simp only [List.length_append] at hl ⊢
            omega)
          hws]
      rw [if_neg ha, if_neg ha]

theorem tokenizeFromB_ws_lead :
    ∀ (ws cs : List Char) (fuel : Nat), (∀ w ∈ ws, isWsChar w = true) →
      (ws ++ cs).length ≤ fuel →
      AsmScratch.tokenizeFrom fuel (ws ++ cs) = AsmScratch.tokenizeFrom cs.length cs := by
  intro ws
  induction ws with
  | nil =>
    intro cs fuel _ hl
    rw [List.nil_append] at hl ⊢
    exact tokenizeFromB_fuel fuel cs.length cs hl le_rfl
  | cons w ws ih =>
    intro cs fuel h hl
    cases fuel with
    | zero => simp at hl
    | succ n =>
      simp only [List.cons_append, List.length_cons, Nat.succ_le_succ_iff] at hl ⊢
      rw [tokenizeFromB_cons_eq, if_pos (h w (List.mem_cons_self w ws))]
      exact ih cs n (fun x hx => h x (List.mem_cons_of_mem w hx)) hl

theorem tokenizeFrom_conv (ln : Nat) :
    ∀ (fuel : Nat) (i : Nat) (cs : List Char),
      cs.length ≤ fuel → (∀ c ∈ cs, commonChar c = true) →
      ∃ ts, AsmMain.tokenizeFrom ln fuel i cs = .ok ts ∧
        AsmScratch.tokenizeFrom fuel cs = .ok (ts.map convTok) ∧
        ts.all plainTok = true := by
  intro fuel
  induction fuel with
  | zero =>
    intro i cs hl _
    have h0 : cs = [] := List.eq_nil_of_length_eq_zero (Nat.le_zero.1 hl)
    subst h0
    exact ⟨[], rfl, rfl, rfl⟩
  | succ n ih =>
    intro i cs hl hcs
    match cs with
    | [] => exact ⟨[], rfl, rfl, rfl⟩
    | c :: rest =>
      simp only [List.length_cons, Nat.succ_le_succ_iff] at hl
      have hc := hcs c (List.mem_cons_self c rest)
      have hrest : ∀ x ∈ rest, commonChar x = true :=
        fun x hx => hcs x (List.mem_cons_of_mem c hx)
      rw [tokenizeFrom_cons_eq, tokenizeFromB_cons_eq]
      rcases commonChar_cases hc with rfl | rfl | rfl | rfl | rfl | rfl | rfl | hd | hu
      · -- space: both skip
        rw [if_pos (by decide : isWsChar ' ' = true),
          if_pos (by decide : isWsChar ' ' = true)]
        exact ih (i + 1) rest hl hrest
      · -- tab
        rw [if_pos (by decide : isWsChar '\t' = true),
          if_pos (by decide : isWsChar '\t' = true)]
        exact ih (i + 1) rest hl hrest
      · -- carriage return
        rw [if_pos (by decide : isWsChar '\r' = true),
          if_pos (by decide : isWsChar '\r' = true)]
        exact ih (i + 1) rest hl hrest
      · -- comma
        simp only [reduceIte]
        obtain ⟨ts0, hA, hB, hp⟩ := ih (i + 1) rest hl hrest
        refine ⟨⟨AsmMain.TokenType.comma, [','], ln, i⟩ :: ts0, ?_, ?_, ?_⟩
        · rw [hA]; rfl
        · rw [hB]; rfl
        · simp only [List.all_cons, Bool.and_eq_true]
          exact ⟨rfl, hp⟩
      · -- colon
        simp only [reduceIte]
        obtain ⟨ts0, hA, hB, hp⟩ := ih (i + 1) rest hl hrest
        refine ⟨⟨AsmMain.TokenType.colon, [':'], ln, i⟩ :: ts0, ?_, ?_, ?_⟩
        · rw [hA]; rfl
        · rw [hB]; rfl
        · simp only [List.all_cons, Bool.and_eq_true]
          exact ⟨rfl, hp⟩
      · -- hash
        simp only [reduceIte]
        obtain ⟨ts0, hA, hB, hp⟩ := ih (i + 1) rest hl hrest
        refine ⟨⟨AsmMain.TokenType.hash, ['#'], ln, i⟩ :: ts0, ?_, ?_, ?_⟩
        · rw [hA]; rfl
        · rw [hB]; rfl
        · simp only [List.all_cons, Bool.and_eq_true]
          exact ⟨rfl, hp⟩
      · -- underscore: identifier branch of both lexers
        simp only [reduceIte]
        have hbody : rest.takeWhile AsmScratch.identCont = rest.takeWhile AsmMain.identCont :=
          takeWhile_pred_congr rest (fun x hx => identCont_eq_of_common (hrest x hx))
        have hdrop : rest.dropWhile AsmScratch.identCont = rest.dropWhile AsmMain.identCont :=
          dropWhile_pred_congr rest (fun x hx => identCont_eq_of_common (hrest x hx))
        rw [hbody, hdrop]
        have hup : upper ('_' :: rest.takeWhile AsmMain.identCont) =
            '_' :: rest.takeWhile AsmMain.identCont :=
          upper_eq_self (fun x hx => by
            rcases List.mem_cons.1 hx with rfl | hm
            · decide
            · exact hrest x (List.Sublist.mem hm (List.takeWhile_sublist _)))
        rw [hup]
        obtain ⟨ts0, hA, hB, hp⟩ := ih (i + 1 + (rest.takeWhile AsmMain.identCont).length)
          (rest.dropWhile AsmMain.identCont)
          (le_trans (List.dropWhile_sublist _).length_le hl)
          (fun x hx => hrest x (List.Sublist.mem hx (List.dropWhile_sublist _)))
        have hall : ('_' :: rest.takeWhile AsmMain.identCont).all commonChar = true := by
          rw [List.all_eq_true]
          intro x hx
          rcases List.mem_cons.1 hx with rfl | hm
          · decide
          · exact hrest x (List.Sublist.mem hm (List.takeWhile_sublist _))
        by_cases hreg : (('_' :: rest.takeWhile AsmMain.identCont) == "R0".data
            || ('_' :: rest.takeWhile AsmMain.identCont) == "R1".data
            || ('_' :: rest.takeWhile AsmMain.identCont) == "R2".data
            || ('_' :: rest.takeWhile AsmMain.identCont) == "R3".data) = true
        · rw [if_pos hreg, if_pos hreg]
          refine ⟨⟨AsmMain.TokenType.register, '_' :: rest.takeWhile AsmMain.identCont,
            ln, i⟩ :: ts0, ?_, ?_, ?_⟩
          · rw [hA]; rfl
          · rw [hB]; rfl
          · simp only [List.all_cons, Bool.and_eq_true]
            refine ⟨?_, hp⟩
            simp [plainTok, hall]
        · rw [if_neg hreg, if_neg hreg]
          refine ⟨⟨AsmMain.TokenType.identifier, '_' :: rest.takeWhile AsmMain.identCont,
            ln, i⟩ :: ts0, ?_, ?_, ?_⟩
          · rw [hA]; rfl
          · rw [hB]; rfl
          · simp only [List.all_cons, Bool.and_eq_true]
            refine ⟨?_, hp⟩
            simp [plainTok, hall]
      · -- digit: number branch of both lexers
        obtain ⟨hne1, hne2, hne3, hne4, hne5, hne6⟩ := digit_ne hd
        have hnw : ¬(isWsChar c = true) := by simp [digit_not_ws hd]
        rw [if_neg hnw, if_neg hnw, if_neg hne1, if_neg hne1, if_neg hne2, if_neg hne2,
          if_neg hne3, if_neg hne3, if_neg hne4, if_neg hne5, if_neg hne6,
          if_pos hd, if_pos hd]
        simp only []
        obtain ⟨ts0, hA, hB, hp⟩ := ih (i + 1 + (rest.takeWhile numCont).length)
          (rest.dropWhile numCont)
          (le_trans (List.dropWhile_sublist _).length_le hl)
          (fun x hx => hrest x (List.Sublist.mem hx (List.dropWhile_sublist _)))
        have hall : (c :: rest.takeWhile numCont).all commonChar = true := by
          rw [List.all_eq_true]
          intro x hx
          rcases List.mem_cons.1 hx with rfl | hm
          · exact hc
          · exact hrest x (List.Sublist.mem hm (List.takeWhile_sublist _))
        refine ⟨⟨AsmMain.TokenType.number, c :: rest.takeWhile numCont, ln, i⟩ :: ts0,
          ?_, ?_, ?_⟩
        · rw [hA]; rfl
        · rw [hB]; rfl
        · simp only [List.all_cons, Bool.and_eq_true]
          refine ⟨?_, hp⟩
          simp [plainTok, hall]
      · -- uppercase letter: identifier branch of both lexers
        obtain ⟨hf1, hf2, hf3, hf4, hf5, hf6, hf7, hf8, hf9, hf10⟩ := upperLetter_facts hu
        have hnw : ¬(isWsChar c = true) := by simp [hf1]
        have hnd : ¬(c.isDigit = true) := by simp [hf8]
        have hB9 : (c.isAlpha || c = '_' || c = '.') = true := by
          simp only [Bool.or_eq_true] at hf9 ⊢
          tauto
        rw [if_neg hnw, if_neg hnw, if_neg hf2, if_neg hf2, if_neg hf3, if_neg hf3,
          if_neg hf4, if_neg hf4, if_neg hf5, if_neg hf6, if_neg hf7,
          if_neg hnd, if_neg hnd, if_pos hf9, if_pos hB9]
        simp only []
        have hbody : rest.takeWhile AsmScratch.identCont = rest.takeWhile AsmMain.identCont :=
          takeWhile_pred_congr rest (fun x hx => identCont_eq_of_common (hrest x hx))
        have hdrop : rest.dropWhile AsmScratch.identCont = rest.dropWhile AsmMain.identCont :=
          dropWhile_pred_congr rest (fun x hx => identCont_eq_of_common (hrest x hx))
        rw [hbody, hdrop]
        have hup : upper (c :: rest.takeWhile AsmMain.identCont) =
            c :: rest.takeWhile AsmMain.identCont :=
          upper_eq_self (fun x hx => by
            rcases List.mem_cons.1 hx with rfl | hm
            · exact hc
            · exact hrest x (List.Sublist.mem hm (List.takeWhile_sublist _)))
        rw [hup]
        obtain ⟨ts0, hA, hB, hp⟩ := ih (i + 1 + (rest.takeWhile AsmMain.identCont).length)
          (rest.dropWhile AsmMain.identCont)
          (le_trans (List.dropWhile_sublist _).length_le hl)
          (fun x hx => hrest x (List.Sublist.mem hx (List.dropWhile_sublist _)))
        have hall : (c :: rest.takeWhile AsmMain.identCont).all commonChar = true := by
          rw [List.all_eq_true]
          intro x hx
          rcases List.mem_cons.1 hx with rfl | hm
          · exact hc
          · exact hrest x (List.Sublist.mem hm (List.takeWhile_sublist _))
        by_cases hreg : ((c :: rest.takeWhile AsmMain.identCont) == "R0".data
            || (c :: rest.takeWhile AsmMain.identCont) == "R1".data
            || (c :: rest.takeWhile AsmMain.identCont) == "R2".data
            || (c :: rest.takeWhile AsmMain.identCont) == "R3".data) = true
        · rw [if_pos hreg, if_pos hreg]
          refine ⟨⟨AsmMain.TokenType.register, c :: rest.takeWhile AsmMain.identCont,
            ln, i⟩ :: ts0, ?_, ?_, ?_⟩
          · rw [hA]; rfl
          · rw [hB]; rfl
          · simp only [List.all_cons, Bool.and_eq_true]
            refine ⟨?_, hp⟩
            simp [plainTok, hall]
        · rw [if_neg hreg, if_neg hreg]
          refine ⟨⟨AsmMain.TokenType.identifier, c :: rest.takeWhile AsmMain.identCont,
            ln, i⟩ :: ts0, ?_, ?_, ?_⟩
          · rw [hA]; rfl
          · rw [hB]; rfl
          · simp only [List.all_cons, Bool.and_eq_true]
            refine ⟨?_, hp⟩
            simp [plainTok, hall]

theorem toksB_ws_split (e tws lws : List Char)
    (htws : ∀ x ∈ tws, isWsChar x = true) (hlws : ∀ x ∈ lws, isWsChar x = true) :
    AsmScratch.tokenizeFrom ((lws ++ (e ++ tws)).takeWhile (fun c => c != ';')).length
        ((lws ++ (e ++ tws)).takeWhile (fun c => c != ';')) =
      AsmScratch.tokenizeFrom (e.takeWhile (fun c => c != ';')).length
        (e.takeWhile (fun c => c != ';')) := by
  have hlwsP : ∀ x ∈ lws, ((fun c : Char => c != ';') x) = true :=
    fun x hx => ws_not_semi (hlws x hx)
  rw [takeWhile_append_pos lws (e ++ tws) hlwsP]
  rw [tokenizeFromB_ws_lead lws ((e ++ tws).takeWhile (fun c => c != ';'))
    ((lws ++ (e ++ tws).takeWhile (fun c => c != ';')).length) hlws le_rfl]
  by_cases hall : ∀ x ∈ e, ((fun c : Char => c != ';') x) = true
  · rw [takeWhile_append_pos e tws hall]
    rw [tokenizeFromB_append_ws _ e (tws.takeWhile (fun c => c != ';')) le_rfl
      (fun w hw => htws w (List.Sublist.mem hw (List.takeWhile_sublist _)))]
    rw [takeWhile_all hall]
    exact tokenizeFromB_fuel _ _ e (by rw [List.length_append]; omega) le_rfl
  · push_neg at hall
    obtain ⟨x, hxe, hxf⟩ := hall
    have hxf2 : ((fun c : Char => c != ';') x) = false := by
      cases hb : (x != ';')
      · exact hb
      · exact absurd hb hxf
    rw [takeWhile_append_stop e tws x hxe hxf2]

theorem tokB_line_trim (l : List Char) :
    AsmScratch.tokenize_line (trim l) =
      AsmScratch.tokenizeFrom (l.takeWhile (fun c => c != ';')).length
        (l.takeWhile (fun c => c != ';')) := by
  have hsplit : l = l.takeWhile isWsChar ++
      (trim l ++ ((l.dropWhile isWsChar).reverse.takeWhile isWsChar).reverse) := by
    have h3 : (l.dropWhile isWsChar).reverse.takeWhile isWsChar ++
        (l.dropWhile isWsChar).reverse.dropWhile isWsChar =
        (l.dropWhile isWsChar).reverse := List.takeWhile_append_dropWhile _ _
    have h4 := congrArg List.reverse h3
    rw [List.reverse_append, List.reverse_reverse] at h4
    have h2 : l.dropWhile isWsChar = trim l ++
        ((l.dropWhile isWsChar).reverse.takeWhile isWsChar).reverse := h4.symm
    calc l = l.takeWhile isWsChar ++ l.dropWhile isWsChar :=
          (List.takeWhile_append_dropWhile _ _).symm
      _ = _ := by rw [← h2]
  have hkey := toksB_ws_split (trim l)
    ((l.dropWhile isWsChar).reverse.takeWhile isWsChar).reverse
    (l.takeWhile isWsChar)
    (fun x hx => List.mem_takeWhile_imp (List.mem_reverse.1 hx))
    (fun x hx => List.mem_takeWhile_imp hx)
  unfold AsmScratch.tokenize_line
  conv_rhs => rw [hsplit]
  exact hkey.symm

theorem tokenize_line_conv (l : List Char) (n : Nat) (h : commonLine l = true) :
    ∃ ts, AsmMain.tokenize_line l n = .ok ts ∧
      AsmScratch.tokenize_line (trim l) = .ok (ts.map convTok) ∧
      ts.all plainTok = true := by
  have hw : ∀ c ∈ l.takeWhile (fun c => c != ';'), commonChar c = true := by
    unfold commonLine at h
    rw [List.all_eq_true] at h
    exact h
  obtain ⟨ts, hA, hB, hp⟩ := tokenizeFrom_conv n (l.takeWhile (fun c => c != ';')).length 0
    (l.takeWhile (fun c => c != ';')) le_rfl hw
  refine ⟨ts, hA, ?_, hp⟩
  rw [tokB_line_trim l, hB]

theorem except_ok_bind {e a b : Type} (u : a) (f : a → Except e b) :
    ((Except.ok u : Except e a) >>= f) = f u := rfl

theorem plainTok_facts {t : AsmMain.Token} (h : plainTok t = true) :
    t.type ≠ AsmMain.TokenType.lbracket ∧ t.type ≠ AsmMain.TokenType.rbracket ∧
      t.type ≠ AsmMain.TokenType.plus ∧ t.text ≠ [] ∧
      ∀ c ∈ t.text, commonChar c = true := by
  unfold plainTok at h
  simp only [Bool.and_eq_true, Bool.not_eq_true', beq_eq_false_iff_ne, ne_eq,
    List.all_eq_true] at h
  refine ⟨h.1.1.1.1, h.1.1.1.2, h.1.1.2, ?_, h.2⟩
  have he := h.1.2
  cases htext : t.text
  · rw [htext] at he
    cases he
  · simp

theorem convTok_identifier_iff {t : AsmMain.Token} (h : plainTok t = true) :
    (convTok t).type = AsmScratch.TokenType.identifier ↔
      t.type = AsmMain.TokenType.identifier := by
  obtain ⟨h1, h2, h3, _, _⟩ := plainTok_facts h
  constructor
  · intro hid
    cases ht : t.type
    case identifier => rfl
    case lbracket => exact absurd ht h1
    case rbracket => exact absurd ht h2
    case plus => exact absurd ht h3
    all_goals (rw [show convTok t = ⟨convTy t.type, t.text⟩ from rfl, ht] at hid; simp [convTy] at hid)
  · intro hid
    simp [convTok, convTy, hid]

theorem convTok_colon_iff {t : AsmMain.Token} :
    (convTok t).type = AsmScratch.TokenType.colon ↔ t.type = AsmMain.TokenType.colon := by
  cases ht : t.type <;> simp [convTok, convTy, ht]

theorem convTok_number_iff {t : AsmMain.Token} :
    (convTok t).type = AsmScratch.TokenType.number ↔ t.type = AsmMain.TokenType.number := by
  cases ht : t.type <;> simp [convTok, convTy, ht]

theorem parse_operandsB_cons_comma {t : AsmScratch.Token} {rest : List AsmScratch.Token}
    (h : t.type = AsmScratch.TokenType.comma) :
    AsmScratch.parse_operands (t :: rest) = AsmScratch.parse_operands rest := by
  rw [AsmScratch.parse_operands.eq_def]
  simp [h]

theorem parse_operandsB_cons_reg {t : AsmScratch.Token} {rest : List AsmScratch.Token}
    (h : t.type = AsmScratch.TokenType.register) :
    AsmScratch.parse_operands (t :: rest) =
      AsmScratch.parse_operands rest >>= fun ops =>
        .ok (⟨AsmScratch.OperandKind.reg, t.text⟩ :: ops) := by
  rw [AsmScratch.parse_operands.eq_def]
  simp [h]

theorem parse_operandsB_cons_number {t : AsmScratch.Token} {rest : List AsmScratch.Token}
    (h : t.type = AsmScratch.TokenType.number) :
    AsmScratch.parse_operands (t :: rest) =
      AsmScratch.parse_operands rest >>= fun ops =>
        .ok (⟨AsmScratch.OperandKind.number, t.text⟩ :: ops) := by
  rw [AsmScratch.parse_operands.eq_def]
  simp [h]

theorem parse_operandsB_cons_identifier {t : AsmScratch.Token} {rest : List AsmScratch.Token}
    (h : t.type = AsmScratch.TokenType.identifier) :
    AsmScratch.parse_operands (t :: rest) =
      AsmScratch.parse_operands rest >>= fun ops =>
        .ok (⟨AsmScratch.OperandKind.label, t.text⟩ :: ops) := by
  rw [AsmScratch.parse_operands.eq_def]
  simp [h]

theorem parse_operandsB_cons_colon {t : AsmScratch.Token} {rest : List AsmScratch.Token}
    (h : t.type = AsmScratch.TokenType.colon) :
    AsmScratch.parse_operands (t :: rest) = .error AsmScratch.eBadOperand := by
  rw [AsmScratch.parse_operands.eq_def]
  simp [h]

theorem parse_operandsB_cons_hash_number {t t2 : AsmScratch.Token}
    {rest2 : List AsmScratch.Token}
    (h : t.type = AsmScratch.TokenType.hash) (h2 : t2.type = AsmScratch.TokenType.number) :
    AsmScratch.parse_operands (t :: t2 :: rest2) =
      AsmScratch.parse_operands rest2 >>= fun ops =>
        .ok (⟨AsmScratch.OperandKind.imm, t2.text⟩ :: ops) := by
  rw [AsmScratch.parse_operands.eq_def]
  simp [h, h2]

theorem parse_operandsB_cons_hash_bad {t t2 : AsmScratch.Token}
    {rest2 : List AsmScratch.Token}
    (h : t.type = AsmScratch.TokenType.hash) (h2 : t2.type ≠ AsmScratch.TokenType.number) :
    AsmScratch.parse_operands (t :: t2 :: rest2) = .error AsmScratch.eHashNum := by
  rw [AsmScratch.parse_operands.eq_def]
  simp [h, h2]

theorem parse_operandsB_cons_hash_nil {t : AsmScratch.Token}
    (h : t.type = AsmScratch.TokenType.hash) :
    AsmScratch.parse_operands [t] = .error AsmScratch.eHashNum := by
  rw [AsmScratch.parse_operands.eq_def]
  simp [h]

theorem parse_operands_conv_aux (k : Nat) :
    ∀ ts : List AsmMain.Token, ts.length ≤ k → ts.all plainTok = true →
      (AsmScratch.parse_operands (ts.map convTok)).toOption =
        ((AsmMain.parse_operands ts).toOption).map (List.map convOp) := by
  induction k with
  | zero =>
    intro ts hl _
    have h0 : ts = [] := List.eq_nil_of_length_eq_zero (Nat.le_zero.1 hl)
    subst h0
    rfl
  | succ n ih =>
    intro ts hl hplain
    match ts with
    | [] => rfl
    | t :: rest =>
      simp only [List.length_cons, Nat.succ_le_succ_iff] at hl
      simp only [List.all_cons, Bool.and_eq_true] at hplain
      obtain ⟨hpt, hprest⟩ := hplain
      obtain ⟨hnl, hnr, hnp, hne, hcm⟩ := plainTok_facts hpt
      rw [List.map_cons]
      cases htt : t.type
      case comma =>
        have httB : (convTok t).type = AsmScratch.TokenType.comma := by
          simp [convTok, convTy, htt]
        rw [parse_operands_cons_comma htt, parse_operandsB_cons_comma httB]
        exact ih rest hl hprest
      case register =>
        have httB : (convTok t).type = AsmScratch.TokenType.register := by
          simp [convTok, convTy, htt]
        rw [parse_operands_cons_reg htt, parse_operandsB_cons_reg httB]
        rw [except_toOption_bind, except_toOption_bind, ih rest hl hprest]
        cases ho : (AsmMain.parse_operands rest).toOption <;>
          simp [Except.toOption, convOp, convOpKind, convTok]
      case number =>
        have httB : (convTok t).type = AsmScratch.TokenType.number := by
          simp [convTok, convTy, htt]
        rw [parse_operands_cons_number htt, parse_operandsB_cons_number httB]
        rw [except_toOption_bind, except_toOption_bind, ih rest hl hprest]
        cases ho : (AsmMain.parse_operands rest).toOption <;>
          simp [Except.toOption, convOp, convOpKind, convTok]
      case identifier =>
        have httB : (convTok t).type = AsmScratch.TokenType.identifier := by
          simp [convTok, convTy, htt]
        rw [parse_operands_cons_identifier htt, parse_operandsB_cons_identifier httB]
        rw [except_toOption_bind, except_toOption_bind, ih rest hl hprest]
        cases ho : (AsmMain.parse_operands rest).toOption <;>
          simp [Except.toOption, convOp, convOpKind, convTok]
      case colon =>
        have httB : (convTok t).type = AsmScratch.TokenType.colon := by
          simp [convTok, convTy, htt]
        rw [parse_operands_cons_other (Or.inl htt), parse_operandsB_cons_colon httB]
        rfl
      case hash =>
        have httB : (convTok t).type = AsmScratch.TokenType.hash := by
          simp [convTok, convTy, htt]
        cases rest with
        | nil =>
          rw [parse_operands_cons_hash_nil htt]
          simp only [List.map_cons, List.map_nil]
          rw [parse_operandsB_cons_hash_nil httB]
          rfl
        | cons t2 rest2 =>
          simp only [List.all_cons, Bool.and_eq_true] at hprest
          obtain ⟨hpt2, hprest2⟩ := hprest
          rw [List.map_cons]
          by_cases ht2 : t2.type = AsmMain.TokenType.number
          · have ht2B : (convTok t2).type = AsmScratch.TokenType.number := by
              simp [convTok, convTy, ht2]
            rw [parse_operands_cons_hash_number htt ht2,
              parse_operandsB_cons_hash_number httB ht2B]
            have hl2 : rest2.length ≤ n := by
              simp only [List.length_cons] at hl
              omega
            rw [except_toOption_bind, except_toOption_bind, ih rest2 hl2 hprest2]
            cases ho : (AsmMain.parse_operands rest2).toOption <;>
              simp [Except.toOption, convOp, convOpKind, convTok]
          · have ht2B : (convTok t2).type ≠ AsmScratch.TokenType.number :=
              fun he => ht2 (convTok_number_iff.1 he)
            rw [parse_operands_cons_hash_bad htt ht2,
              parse_operandsB_cons_hash_bad httB ht2B]
            rfl
      case lbracket => exact absurd htt hnl
      case rbracket => exact absurd htt hnr
      case plus => exact absurd htt hnp

theorem parse_operands_conv (ts : List AsmMain.Token) (hp : ts.all plainTok = true) :
    (AsmScratch.parse_operands (ts.map convTok)).toOption =
      ((AsmMain.parse_operands ts).toOption).map (List.map convOp) :=
  parse_operands_conv_aux ts.length ts le_rfl hp

theorem parse_rest_conv (n : Nat) (label : List Char) :
    ∀ ts : List AsmMain.Token, ts.all plainTok = true →
      (AsmScratch.parse_rest label (ts.map convTok)).toOption =
        ((AsmMain.parse_rest n label ts).toOption).map convLine := by
  intro ts hp
  cases ts with
  | nil => rfl
  | cons m opnds =>
    simp only [List.all_cons, Bool.and_eq_true] at hp
    obtain ⟨hpm, hpops⟩ := hp
    obtain ⟨hnl, hnr, hnp, hne, hcm⟩ := plainTok_facts hpm
    rw [List.map_cons]
    by_cases hmt : m.type = AsmMain.TokenType.identifier
    · have hmtB : (convTok m).type = AsmScratch.TokenType.identifier :=
        (convTok_identifier_iff hpm).2 hmt
      simp only [AsmMain.parse_rest, AsmScratch.parse_rest]
      rw [if_pos hmt, if_pos hmtB]
      simp only [convTok]
      rw [except_toOption_bind, except_toOption_bind, parse_operands_conv opnds hpops]
      cases ho : (AsmMain.parse_operands opnds).toOption
      · rfl
      · simp only [Option.map_some, Option.some_bind, Except.toOption, Option.map]
        cases htext : m.text with
        | nil => simp [convLine]
        | cons c b =>
          cases hcd : (c == '.') <;> simp [convLine, hcd]
    · have hmtB : (convTok m).type ≠ AsmScratch.TokenType.identifier :=
        fun he => hmt ((convTok_identifier_iff hpm).1 he)
      simp only [AsmMain.parse_rest, AsmScratch.parse_rest]
      rw [if_neg hmt, if_neg hmtB]
      rfl

theorem parse_tokens_conv (ts : List AsmMain.Token) (hp : ts.all plainTok = true) :
    (AsmScratch.parse_line_tokens (ts.map convTok)).toOption =
      ((AsmMain.parse_tokens ts).toOption).map convLine := by
  cases ts with
  | nil => rfl
  | cons t0 rest =>
    cases rest with
    | nil =>
      simp only [List.all_cons, Bool.and_eq_true] at hp
      have h := parse_rest_conv t0.line [] [t0] (by simp [hp.1])
      rw [List.map_cons, List.map_nil] at h
      exact h
    | cons b more =>
      have hp0 : plainTok t0 = true := by
        simp only [List.all_cons, Bool.and_eq_true] at hp
        exact hp.1
      have hpb : plainTok b = true := by
        simp only [List.all_cons, Bool.and_eq_true] at hp
        exact hp.2.1
      have hpmore : more.all plainTok = true := by
        simp only [List.all_cons, Bool.and_eq_true] at hp
        exact hp.2.2
      simp only [List.map_cons]
      have hAeq : AsmMain.parse_tokens (t0 :: b :: more) =
          (if t0.type = AsmMain.TokenType.identifier ∧ b.type = AsmMain.TokenType.colon
           then AsmMain.parse_rest t0.line t0.text more
           else AsmMain.parse_rest t0.line [] (t0 :: b :: more)) := rfl
      have hBeq : AsmScratch.parse_line_tokens (convTok t0 :: convTok b :: more.map convTok) =
          (if (convTok t0).type = AsmScratch.TokenType.identifier ∧
              (convTok b).type = AsmScratch.TokenType.colon
           then AsmScratch.parse_rest (convTok t0).text (more.map convTok)
           else AsmScratch.parse_rest [] (convTok t0 :: convTok b :: more.map convTok)) := rfl
      rw [hAeq, hBeq]
      by_cases hcond : t0.type = AsmMain.TokenType.identifier ∧ b.type = AsmMain.TokenType.colon
      · have hcondB : (convTok t0).type = AsmScratch.TokenType.identifier ∧
            (convTok b).type = AsmScratch.TokenType.colon :=
          ⟨(convTok_identifier_iff hp0).2 hcond.1, convTok_colon_iff.2 hcond.2⟩
        rw [if_pos hcond, if_pos hcondB]
        have h := parse_rest_conv t0.line t0.text more hpmore
        exact h
      · have hcondB : ¬((convTok t0).type = AsmScratch.TokenType.identifier ∧
            (convTok b).type = AsmScratch.TokenType.colon) := by
          intro hc
          exact hcond ⟨(convTok_identifier_iff hp0).1 hc.1, convTok_colon_iff.1 hc.2⟩
        rw [if_neg hcond, if_neg hcondB]
        have h := parse_rest_conv t0.line [] (t0 :: b :: more)
          (by simp only [List.all_cons, Bool.and_eq_true]; exact ⟨hp0, hpb, hpmore⟩)
        rw [List.map_cons, List.map_cons] at h
        exact h

theorem parse_rest_plain (n : Nat) (label : List Char) :
    ∀ (ts : List AsmMain.Token) (pl : AsmMain.ParsedLine), ts.all plainTok = true →
      AsmMain.parse_rest n label ts = .ok pl → plainLine pl = true := by
  intro ts pl hp h
  cases ts with
  | nil =>
    simp only [AsmMain.parse_rest] at h
    cases h
    rfl
  | cons m opnds =>
    simp only [List.all_cons, Bool.and_eq_true] at hp
    obtain ⟨hpm, hpops⟩ := hp
    obtain ⟨_, _, _, hne, hcm⟩ := plainTok_facts hpm
    simp only [AsmMain.parse_rest] at h
    by_cases hmt : m.type = AsmMain.TokenType.identifier
    · rw [if_pos hmt] at h
      simp only [except_bind_ok, pure, Except.pure, Except.ok.injEq] at h
      obtain ⟨ops, _, h⟩ := h
      subst h
      cases htext : m.text with
      | nil => exact absurd htext hne
      | cons c b =>
        have hc : commonChar c = true := by
          apply hcm
          rw [htext]
          exact List.mem_cons_self c b
        have hcd : (c == '.') = false := by
          simp only [beq_eq_false_iff_ne, ne_eq]
          intro e
          subst e
          rcases commonChar_cases hc with h' | h' | h' | h' | h' | h' | h' | h' | h' <;>
            exact absurd h' (by decide)
        simp [plainLine, htext, hcd]
    · rw [if_neg hmt] at h
      cases h

theorem parse_tokens_plain (ts : List AsmMain.Token) (pl : AsmMain.ParsedLine)
    (hp : ts.all plainTok = true) (h : AsmMain.parse_tokens ts = .ok pl) :
    plainLine pl = true := by
  cases ts with
  | nil =>
    unfold AsmMain.parse_tokens at h
    cases h
    rfl
  | cons t0 rest =>
    cases rest with
    | nil =>
      have h' : AsmMain.parse_rest t0.line [] [t0] = .ok pl := h
      exact parse_rest_plain t0.line [] [t0] pl hp h'
    | cons b more =>
      have hpmore : more.all plainTok = true := by
        simp only [List.all_cons, Bool.and_eq_true] at hp
        exact hp.2.2
      have h' : (if t0.type = AsmMain.TokenType.identifier ∧ b.type = AsmMain.TokenType.colon
          then AsmMain.parse_rest t0.line t0.text more
          else AsmMain.parse_rest t0.line [] (t0 :: b :: more)) = .ok pl := h
      by_cases hcond : t0.type = AsmMain.TokenType.identifier ∧ b.type = AsmMain.TokenType.colon
      · rw [if_pos hcond] at h'
        exact parse_rest_plain t0.line t0.text more pl hpmore h'
      · rw [if_neg hcond] at h'
        exact parse_rest_plain t0.line [] (t0 :: b :: more) pl hp h'

theorem parse_source_go_conv :
    ∀ (ls : List (List Char)) (n : Nat), ls.all commonLine = true →
      (AsmScratch.parse_source_go ls).toOption =
        ((AsmMain.parse_source_go n ls).toOption).map (List.map convLine) := by
  intro ls
  induction ls with
  | nil => intro n _; rfl
  | cons l rest ih =>
    intro n hall
    simp only [List.all_cons, Bool.and_eq_true] at hall
    obtain ⟨hl, hrest⟩ := hall
    unfold AsmMain.parse_source_go AsmScratch.parse_source_go
    by_cases hb : trim l = []
    · rw [if_pos hb, if_pos hb]
      exact ih (n + 1) hrest
    · rw [if_neg hb, if_neg hb]
      obtain ⟨ts, hA, hB, hp⟩ := tokenize_line_conv l n hl
      rw [hA, hB, except_ok_bind, except_ok_bind]
      have hpc := parse_tokens_conv ts hp
      cases hA2 : AsmMain.parse_tokens ts with
      | error er =>
        rw [hA2] at hpc
        obtain ⟨er2, hB2⟩ := except_toOption_none_iff.1 (by simpa using hpc)
        rw [hB2]
        rfl
      | ok pl =>
        rw [hA2] at hpc
        have hB2 : AsmScratch.parse_line_tokens (ts.map convTok) = .ok (convLine pl) :=
          except_toOption_ok_iff.1 (by simpa using hpc)
        rw [hB2, except_ok_bind, except_ok_bind]
        have hih := ih (n + 1) hrest
        cases hA3 : AsmMain.parse_source_go (n + 1) rest with
        | error er =>
          rw [hA3] at hih
          obtain ⟨er2, hB3⟩ := except_toOption_none_iff.1 (by simpa using hih)
          rw [hB3]
          rfl
        | ok more =>
          rw [hA3] at hih
          have hB3 : AsmScratch.parse_source_go rest = .ok (more.map convLine) :=
            except_toOption_ok_iff.1 (by simpa using hih)
          rw [hB3, except_ok_bind, except_ok_bind]
          rfl

theorem parse_source_go_plain :
    ∀ (ls : List (List Char)) (n : Nat) (lines : List AsmMain.ParsedLine),
      ls.all commonLine = true → AsmMain.parse_source_go n ls = .ok lines →
      lines.all plainLine = true := by
  intro ls
  induction ls with
  | nil =>
    intro n lines _ h
    cases h
    rfl
  | cons l rest ih =>
    intro n lines hall h
    simp only [List.all_cons, Bool.and_eq_true] at hall
    obtain ⟨hl, hrest⟩ := hall
    unfold AsmMain.parse_source_go at h
    by_cases hb : trim l = []
    · rw [if_pos hb] at h
      exact ih (n + 1) lines hrest h
    · rw [if_neg hb] at h
      simp only [except_bind_ok, pure, Except.pure, Except.ok.injEq] at h
      obtain ⟨toks, htoks, pl, hpl, more, hmore, h⟩ := h
      subst h
      obtain ⟨ts, hA, _, hp⟩ := tokenize_line_conv l n hl
      rw [hA] at htoks
      injection htoks with hts
      subst hts
      simp only [List.all_cons, Bool.and_eq_true]
      exact ⟨parse_tokens_plain ts pl hp hpl, ih (n + 1) more hrest hmore⟩

theorem plainLine_facts {pl : AsmMain.ParsedLine} (h : plainLine pl = true) :
    pl.kind ≠ AsmMain.LineKind.directive ∧
      (pl.kind = AsmMain.LineKind.empty ↔ pl.op = []) := by
  unfold plainLine at h
  simp only [Bool.and_eq_true, Bool.not_eq_true', beq_eq_false_iff_ne] at h
  obtain ⟨h1, h2⟩ := h
  rw [beq_iff_eq] at h1
  refine ⟨h2, ?_, ?_⟩
  · intro he
    have : (pl.kind == AsmMain.LineKind.empty) = true := by simp [he]
    rw [h1] at this
    exact List.isEmpty_iff.1 this
  · intro he
    have : pl.op.isEmpty = true := by simp [he, List.isEmpty_iff]
    rw [← h1] at this
    exact eq_of_beq this

theorem has_instr_eq (op : List Char) :
    AsmMain.has_instr op =
      (iequals op "NOP".data || iequals op "HALT".data || iequals op "ADD".data ||
        iequals op "JMP".data || iequals op "JZ".data) := by
  unfold AsmMain.has_instr AsmMain.find_instr AsmMain.INSTR_TABLE
  cases h1 : iequals op "NOP".data <;> cases h2 : iequals op "HALT".data <;>
    cases h3 : iequals op "ADD".data <;> cases h4 : iequals op "JMP".data <;>
      cases h5 : iequals op "JZ".data <;>
        simp [List.find?, h1, h2, h3, h4, h5]

theorem pass1_label_conv (ctx : AsmMain.AsmContext) (pl : AsmMain.ParsedLine) :
    (AsmScratch.pass1_label (convCtx ctx) (convLine pl)).toOption =
      ((AsmMain.pass1_label ctx pl).toOption).map convCtx := by
  unfold AsmMain.pass1_label AsmScratch.pass1_label
  simp only [convLine, convCtx]
  by_cases hlab : pl.label ≠ []
  · rw [if_pos hlab, if_pos hlab]
    rw [← any_eq_find_isSome]
    have hsy : AsmMain.symbol_exists ctx pl.label =
        ctx.symbols.any (fun p => p.1 == pl.label) := rfl
    rw [← hsy]
    by_cases hex : AsmMain.symbol_exists ctx pl.label = true
    · rw [if_pos hex, if_pos hex]
      rfl
    · rw [if_neg hex, if_neg hex]
      rfl
  · rw [if_neg hlab, if_neg hlab]
    rfl

theorem iequals_false_of {u a b : List Char} (h : iequals u a = true)
    (hne : a.map Char.toUpper ≠ b.map Char.toUpper) : iequals u b = false := by
  cases hc : iequals u b
  · rfl
  · exact absurd (iequals_disjoint h hc) hne

theorem pass1_advance_conv (ctx : AsmMain.AsmContext) (pl : AsmMain.ParsedLine)
    (hplain : plainLine pl = true) :
    (AsmScratch.pass1_advance (convCtx ctx) (convLine pl)).toOption =
      ((AsmMain.pass1_advance ctx pl).toOption).map convCtx := by
  obtain ⟨hnd, hempty⟩ := plainLine_facts hplain
  unfold AsmMain.pass1_advance AsmScratch.pass1_advance
  simp only [convLine, convCtx]
  rw [if_neg hnd]
  cases hkind : pl.kind with
  | directive => exact absurd hkind hnd
  | empty =>
    rw [if_pos (hempty.1 hkind)]
    rw [if_neg (by decide : ¬(AsmMain.LineKind.empty = AsmMain.LineKind.instruction))]
    rfl
  | instruction =>
    have hop : pl.op ≠ [] := fun e => by
      have hc := hempty.2 e
      rw [hkind] at hc
      cases hc
    rw [if_neg hop]
    rw [if_neg (by decide :
      ¬((AsmMain.LineKind.instruction == AsmMain.LineKind.directive) = true))]
    rw [if_pos (rfl : AsmMain.LineKind.instruction = AsmMain.LineKind.instruction)]
    simp only [iequals_upper_left]
    rw [show AsmMain.has_instr (upper pl.op) = AsmMain.has_instr pl.op from by
      unfold AsmMain.has_instr; rw [find_instr_upper]]
    rw [has_instr_eq]
    by_cases h1 : iequals pl.op "NOP".data = true
    · have h2 := iequals_false_of h1 (show ("NOP".data.map Char.toUpper ≠ "HALT".data.map Char.toUpper) from by decide)
      have h3 := iequals_false_of h1 (show ("NOP".data.map Char.toUpper ≠ "ADD".data.map Char.toUpper) from by decide)
      have h4 := iequals_false_of h1 (show ("NOP".data.map Char.toUpper ≠ "JMP".data.map Char.toUpper) from by decide)
      have h5 := iequals_false_of h1 (show ("NOP".data.map Char.toUpper ≠ "JZ".data.map Char.toUpper) from by decide)
      simp [h1, h2, h3, h4, h5, pure, Except.pure, Except.toOption, convCtx]
    · have h1f : iequals pl.op "NOP".data = false := by
        cases hc : iequals pl.op "NOP".data
        · rfl
        · exact absurd hc h1
      by_cases h2 : iequals pl.op "HALT".data = true
      · have h3 := iequals_false_of h2 (show ("HALT".data.map Char.toUpper ≠ "ADD".data.map Char.toUpper) from by decide)
        have h4 := iequals_false_of h2 (show ("HALT".data.map Char.toUpper ≠ "JMP".data.map Char.toUpper) from by decide)
        have h5 := iequals_false_of h2 (show ("HALT".data.map Char.toUpper ≠ "JZ".data.map Char.toUpper) from by decide)
        simp [h1f, h2, h3, h4, h5, pure, Except.pure, Except.toOption, convCtx]
      · have h2f : iequals pl.op "HALT".data = false := by
          cases hc : iequals pl.op "HALT".data
          · rfl
          · exact absurd hc h2
        by_cases h3 : iequals pl.op "ADD".data = true
        · have h4 := iequals_false_of h3 (show ("ADD".data.map Char.toUpper ≠ "JMP".data.map Char.toUpper) from by decide)
          have h5 := iequals_false_of h3 (show ("ADD".data.map Char.toUpper ≠ "JZ".data.map Char.toUpper) from by decide)
          simp only [h1f, h2f, h3, h4, h5, Bool.false_or, Bool.or_false, Bool.true_or,
            Bool.or_true, if_true, ite_true, if_false, ite_false, Bool.false_eq_true,
            not_true_eq_false, not_false_eq_true, List.map_cons, List.map_nil]
          cases hops : pl.operands with
          | nil => simp [pure, Except.pure, Except.toOption, convCtx]
          | cons o1 t =>
            cases t with
            | nil => simp [pure, Except.pure, Except.toOption, convCtx]
            | cons o2 t2 =>
              cases t2 with
              | nil =>
                cases hk2 : o2.kind <;>
                  simp [convOp, convOpKind, hk2, pure, Except.pure, Except.toOption, convCtx]
              | cons o3 t3 => simp [pure, Except.pure, Except.toOption, convCtx]
        · have h3f : iequals pl.op "ADD".data = false := by
            cases hc : iequals pl.op "ADD".data
            · rfl
            · exact absurd hc h3
          by_cases h4 : iequals pl.op "JMP".data = true
          · have h5 := iequals_false_of h4 (show ("JMP".data.map Char.toUpper ≠ "JZ".data.map Char.toUpper) from by decide)
            have harith : ((ctx.current_addr_words + 1) % 65536 + 1) % 65536 =
                (ctx.current_addr_words + 2) % 65536 := by omega
            simp [h1f, h2f, h3f, h4, h5, pure, Except.pure, Except.toOption, convCtx, harith]
          · have h4f : iequals pl.op "JMP".data = false := by
              cases hc : iequals pl.op "JMP".data
              · rfl
              · exact absurd hc h4
            by_cases h5 : iequals pl.op "JZ".data = true
            · have harith : ((ctx.current_addr_words + 1) % 65536 + 1) % 65536 =
                  (ctx.current_addr_words + 2) % 65536 := by omega
              simp [h1f, h2f, h3f, h4f, h5, pure, Except.pure, Except.toOption, convCtx, harith]
            · have h5f : iequals pl.op "JZ".data = false := by
                cases hc : iequals pl.op "JZ".data
                · rfl
                · exact absurd hc h5
              simp [h1f, h2f, h3f, h4f, h5f, pure, Except.pure, Except.toOption, convCtx]

theorem pass1_line_conv (ctx : AsmMain.AsmContext) (pl : AsmMain.ParsedLine)
    (hplain : plainLine pl = true) :
    (AsmScratch.pass1_line (convCtx ctx) (convLine pl)).toOption =
      ((AsmMain.pass1_line ctx pl).toOption).map convCtx := by
  unfold AsmMain.pass1_line AsmScratch.pass1_line
  have hst : ({ convCtx ctx with
      line_addr := (convCtx ctx).line_addr ++ [(convCtx ctx).addr] }) =
    convCtx { ctx with line_addr := ctx.line_addr ++ [ctx.current_addr_words] } := rfl
  rw [hst]
  rw [except_toOption_bind, except_toOption_bind]
  rw [pass1_label_conv { ctx with line_addr := ctx.line_addr ++ [ctx.current_addr_words] } pl]
  cases ho : (AsmMain.pass1_label
      { ctx with line_addr := ctx.line_addr ++ [ctx.current_addr_words] } pl).toOption with
  | none => rfl
  | some ctx2 =>
    simp only [Option.map_some, Option.some_bind]
    exact pass1_advance_conv ctx2 pl hplain

theorem pass1_go_conv :
    ∀ (lines : List AsmMain.ParsedLine) (ctx : AsmMain.AsmContext),
      lines.all plainLine = true →
      (AsmScratch.pass1_go (lines.map convLine) (convCtx ctx)).toOption =
        ((AsmMain.pass1_go lines ctx).toOption).map convCtx := by
  intro lines
  induction lines with
  | nil => intro ctx _; rfl
  | cons pl rest ih =>
    intro ctx hall
    simp only [List.all_cons, Bool.and_eq_true] at hall
    obtain ⟨hpl, hrest⟩ := hall
    rw [List.map_cons]
    unfold AsmMain.pass1_go AsmScratch.pass1_go
    rw [except_toOption_bind, except_toOption_bind]
    rw [pass1_line_conv ctx pl hpl]
    cases ho : (AsmMain.pass1_line ctx pl).toOption with
    | none => rfl
    | some ctx2 =>
      simp only [Option.map_some, Option.some_bind]
      exact ih ctx2 hrest

theorem find_instr_NOP {u : List Char} (h : iequals u "NOP".data = true) :
    AsmMain.find_instr u = some ("NOP".data, 0) := by
  simp [AsmMain.find_instr, AsmMain.INSTR_TABLE, List.find?, h]

theorem find_instr_HALT {u : List Char} (h : iequals u "HALT".data = true) :
    AsmMain.find_instr u = some ("HALT".data, 1) := by
  have eN : iequals u "NOP".data = false :=
    iequals_false_of h (by decide)
  simp [AsmMain.find_instr, AsmMain.INSTR_TABLE, List.find?, eN, h]

theorem find_instr_none {u : List Char}
    (h1 : iequals u "NOP".data = false) (h2 : iequals u "HALT".data = false)
    (h3 : iequals u "ADD".data = false) (h4 : iequals u "JMP".data = false)
    (h5 : iequals u "JZ".data = false) :
    AsmMain.find_instr u = none := by
  simp [AsmMain.find_instr, AsmMain.INSTR_TABLE, List.find?, h1, h2, h3, h4, h5]

theorem reg_id_conv (name : List Char) :
    (AsmScratch.reg_id_from_name name).toOption = (AsmMain.reg_id_from_name name).toOption := by
  unfold AsmScratch.reg_id_from_name AsmMain.reg_id_from_name
  by_cases h0 : iequals name "R0".data = true
  · rw [if_pos h0, if_pos h0]
  · rw [if_neg h0, if_neg h0]
    by_cases h1 : iequals name "R1".data = true
    · rw [if_pos h1, if_pos h1]
    · rw [if_neg h1, if_neg h1]
      by_cases h2 : iequals name "R2".data = true
      · rw [if_pos h2, if_pos h2]
      · rw [if_neg h2, if_neg h2]
        by_cases h3 : iequals name "R3".data = true
        · rw [if_pos h3, if_pos h3]
        · rw [if_neg h3, if_neg h3]
          rfl

theorem parse_number16_conv (t : List Char) :
    (parse_number16B t).toOption = (parse_number16 t).toOption := by
  unfold parse_number16 parse_number16B
  cases hs : stoi t (numBase t) with
  | none => rfl
  | some v =>
    have hred : ∀ (eR : String), (match some v with
        | none => Except.error eStoiFail
        | some v => if v > 65535 then Except.error eR else Except.ok v) =
        (if v > 65535 then Except.error eR else Except.ok v) := fun eR => rfl
    rw [hred, hred]
    by_cases hv : v > 65535
    · rw [if_pos hv, if_pos hv]
      rfl
    · rw [if_neg hv, if_neg hv]

theorem except_error_bind {e a b : Type} (er : e) (f : a → Except e b) :
    ((Except.error er : Except e a) >>= f) = Except.error er := rfl

theorem pass2_line_conv (ctx : AsmMain.AsmContext) (addr : Nat) (pl : AsmMain.ParsedLine)
    (hplain : plainLine pl = true) :
    (AsmScratch.pass2_line ctx.symbols addr (convLine pl)).toOption =
      (AsmMain.pass2_line ctx addr pl).toOption := by
  obtain ⟨hnd, hempty⟩ := plainLine_facts hplain
  unfold AsmMain.pass2_line AsmScratch.pass2_line
  simp only [convLine]
  rw [if_neg hnd]
  cases hkind : pl.kind with
  | directive => exact absurd hkind hnd
  | empty =>
    rw [if_pos (hempty.1 hkind)]
    rw [if_pos (by decide : AsmMain.LineKind.empty ≠ AsmMain.LineKind.instruction)]
  | instruction =>
    have hop2 : pl.op ≠ [] := fun e => by
      have hc := hempty.2 e
      rw [hkind] at hc
      cases hc
    rw [if_neg hop2]
    rw [if_neg (by decide :
      ¬((AsmMain.LineKind.instruction == AsmMain.LineKind.directive) = true))]
    rw [if_neg (by decide : ¬(AsmMain.LineKind.instruction ≠ AsmMain.LineKind.instruction))]
    simp only [iequals_upper_left]
    rw [find_instr_upper]
    by_cases h1 : iequals pl.op "NOP".data = true
    · rw [find_instr_NOP h1]
      simp [h1, pure, Except.pure, except_ok_bind, except_error_bind, Except.toOption]
    · have h1f : iequals pl.op "NOP".data = false := by
        cases hc : iequals pl.op "NOP".data
        · rfl
        · exact absurd hc h1
      by_cases h2 : iequals pl.op "HALT".data = true
      · rw [find_instr_HALT h2]
        have h1x := iequals_false_of h2
          (show ("HALT".data.map Char.toUpper ≠ "NOP".data.map Char.toUpper) from by decide)
        simp [h1x, h2, pure, Except.pure, except_ok_bind, except_error_bind, Except.toOption]
      · have h2f : iequals pl.op "HALT".data = false := by
          cases hc : iequals pl.op "HALT".data
          · rfl
          · exact absurd hc h2
        by_cases h3 : iequals pl.op "ADD".data = true
        · rw [find_instr_ADD h3]
          have h4f := iequals_false_of h3
            (show ("ADD".data.map Char.toUpper ≠ "JMP".data.map Char.toUpper) from by decide)
          have h5f := iequals_false_of h3
            (show ("ADD".data.map Char.toUpper ≠ "JZ".data.map Char.toUpper) from by decide)
          simp only [h1f, h2f, h3, h4f, h5f, Bool.false_or, Bool.or_false, Bool.true_or,
            Bool.or_true, if_true, ite_true, if_false, ite_false, Bool.false_eq_true,
            not_true_eq_false, not_false_eq_true, List.map_cons, List.map_nil]
          cases hops : pl.operands with
          | nil => simp [pure, Except.pure, except_ok_bind, except_error_bind, Except.toOption]
          | cons o1 t =>
            cases t with
            | nil => simp [pure, Except.pure, except_ok_bind, except_error_bind, Except.toOption]
            | cons o2 t2 =>
              cases t2 with
              | cons o3 t3 => simp [pure, Except.pure, except_ok_bind, except_error_bind, Except.toOption]
              | nil =>
                cases ho1 : o1.kind with
                | imm =>
                  simp [ho1, convOp, convOpKind, pure, Except.pure, except_ok_bind, except_error_bind, Except.toOption]
                | labelRef =>
                  simp [ho1, convOp, convOpKind, pure, Except.pure, except_ok_bind, except_error_bind, Except.toOption]
                | rawNumber =>
                  simp [ho1, convOp, convOpKind, pure, Except.pure, except_ok_bind, except_error_bind, Except.toOption]
                | reg =>
                  simp only [ho1, convOp, convOpKind, List.map_cons, List.map_nil,
                    reduceCtorEq, reduceIte, ne_eq, not_true_eq_false,
                    not_false_eq_true, if_true, if_false, ite_true, ite_false, pure, Except.pure, except_ok_bind, except_error_bind]
                  cases hr : AsmMain.reg_id_from_name o1.text with
                  | error er =>
                    have hrc := reg_id_conv o1.text
                    rw [hr] at hrc
                    obtain ⟨er2, hrB⟩ := except_toOption_none_iff.1 (by simpa using hrc)
                    simp [hrB, except_error_bind, pure, Except.pure, Except.toOption]
                  | ok rd =>
                    have hrc := reg_id_conv o1.text
                    rw [hr] at hrc
                    have hrB : AsmScratch.reg_id_from_name o1.text = .ok rd :=
                      except_toOption_ok_iff.1 (by simpa using hrc)
                    simp only [hrB, except_ok_bind]
                    cases hk2 : o2.kind with
                    | reg =>
                      simp only [hk2, convOp, convOpKind, reduceCtorEq, reduceIte, ne_eq,
                        not_true_eq_false, not_false_eq_true, if_true, if_false,
                        ite_true, ite_false, pure, Except.pure, except_ok_bind, except_error_bind]
                      cases hr2 : AsmMain.reg_id_from_name o2.text with
                      | error er =>
                        have hrc2 := reg_id_conv o2.text
                        rw [hr2] at hrc2
                        obtain ⟨er2, hrB2⟩ := except_toOption_none_iff.1 (by simpa using hrc2)
                        simp [hrB2, except_error_bind, pure, Except.pure, Except.toOption]
                      | ok rs =>
                        have hrc2 := reg_id_conv o2.text
                        rw [hr2] at hrc2
                        have hrB2 : AsmScratch.reg_id_from_name o2.text = .ok rs :=
                          except_toOption_ok_iff.1 (by simpa using hrc2)
                        simp [hrB2, except_ok_bind, except_error_bind, pure, Except.pure, Except.toOption]
                    | imm =>
                      simp only [hk2, convOp, convOpKind, reduceCtorEq, reduceIte, ne_eq,
                        not_true_eq_false, not_false_eq_true, if_true, if_false,
                        ite_true, ite_false, pure, Except.pure, except_ok_bind, except_error_bind]
                      cases hp16 : parse_number16 o2.text with
                      | error er =>
                        have hpc := parse_number16_conv o2.text
                        rw [hp16] at hpc
                        obtain ⟨er2, hpB⟩ := except_toOption_none_iff.1 (by simpa using hpc)
                        simp [hpB, except_error_bind, pure, Except.pure, Except.toOption]
                      | ok imm =>
                        have hpc := parse_number16_conv o2.text
                        rw [hp16] at hpc
                        have hpB : parse_number16B o2.text = .ok imm :=
                          except_toOption_ok_iff.1 (by simpa using hpc)
                        simp [hpB, except_ok_bind, except_error_bind, pure, Except.pure, Except.toOption]
                    | labelRef =>
                      simp [hk2, convOp, convOpKind, pure, Except.pure, except_ok_bind, except_error_bind, Except.toOption]
                    | rawNumber =>
                      simp [hk2, convOp, convOpKind, pure, Except.pure, except_ok_bind, except_error_bind, Except.toOption]
        · have h3f : iequals pl.op "ADD".data = false := by
            cases hc : iequals pl.op "ADD".data
            · rfl
            · exact absurd hc h3
          by_cases h4 : iequals pl.op "JMP".data = true
          · rw [find_instr_JMP h4]
            have h5f := iequals_false_of h4
              (show ("JMP".data.map Char.toUpper ≠ "JZ".data.map Char.toUpper) from by decide)
            simp only [h1f, h2f, h3f, h4, h5f, Bool.false_or, Bool.or_false, Bool.true_or,
              Bool.or_true, if_true, ite_true, if_false, ite_false, Bool.false_eq_true,
              not_true_eq_false, not_false_eq_true, reduceIte, pure, Except.pure,
              except_ok_bind, List.map_cons, List.map_nil]
            cases hops : pl.operands with
            | nil => simp [pure, Except.pure, except_ok_bind, except_error_bind, Except.toOption]
            | cons o t =>
              cases t with
              | cons o2 t2 => simp [pure, Except.pure, except_ok_bind, except_error_bind, Except.toOption]
              | nil =>
                cases hko : o.kind with
                | reg => simp [hko, convOp, convOpKind, pure, Except.pure, except_ok_bind, except_error_bind, Except.toOption]
                | imm => simp [hko, convOp, convOpKind, pure, Except.pure, except_ok_bind, except_error_bind, Except.toOption]
                | labelRef =>
                  simp only [hko, convOp, convOpKind, List.map_cons, List.map_nil,
                    reduceCtorEq, reduceIte, ne_eq, not_true_eq_false,
                    not_false_eq_true, if_true, if_false, ite_true, ite_false, pure, Except.pure, except_ok_bind, except_error_bind]
                  unfold AsmMain.lookup_symbol
                  cases hf : ctx.symbols.find? (fun p => p.1 == o.text) with
                  | none => simp [pure, Except.pure, except_ok_bind, except_error_bind, Except.toOption]
                  | some p => simp [pure, Except.pure, except_ok_bind, except_error_bind, Except.toOption]
                | rawNumber =>
                  simp only [hko, convOp, convOpKind, List.map_cons, List.map_nil,
                    reduceCtorEq, reduceIte, ne_eq, not_true_eq_false,
                    not_false_eq_true, if_true, if_false, ite_true, ite_false, pure, Except.pure, except_ok_bind, except_error_bind]
                  cases hp16 : parse_number16 o.text with
                  | error er =>
                    have hpc := parse_number16_conv o.text
                    rw [hp16] at hpc
                    obtain ⟨er2, hpB⟩ := except_toOption_none_iff.1 (by simpa using hpc)
                    simp [hpB, except_error_bind, pure, Except.pure, Except.toOption]
                  | ok v =>
                    have hpc := parse_number16_conv o.text
                    rw [hp16] at hpc
                    have hpB : parse_number16B o.text = .ok v :=
                      except_toOption_ok_iff.1 (by simpa using hpc)
                    simp [hpB, except_ok_bind, except_error_bind, pure, Except.pure, Except.toOption]
          · have h4f : iequals pl.op "JMP".data = false := by
              cases hc : iequals pl.op "JMP".data
              · rfl
              · exact absurd hc h4
            by_cases h5 : iequals pl.op "JZ".data = true
            · rw [find_instr_JZ h5]
              simp only [h1f, h2f, h3f, h4f, h5, Bool.false_or, Bool.or_false, Bool.true_or,
                Bool.or_true, if_true, ite_true, if_false, ite_false, Bool.false_eq_true,
                not_true_eq_false, not_false_eq_true, reduceIte, pure, Except.pure,
                except_ok_bind, List.map_cons, List.map_nil]
              cases hops : pl.operands with
              | nil => simp [pure, Except.pure, except_ok_bind, except_error_bind, Except.toOption]
              | cons o t =>
                cases t with
                | cons o2 t2 => simp [pure, Except.pure, except_ok_bind, except_error_bind, Except.toOption]
                | nil =>
                  cases hko : o.kind with
                  | reg => simp [hko, convOp, convOpKind, pure, Except.pure, except_ok_bind, except_error_bind, Except.toOption]
                  | imm => simp [hko, convOp, convOpKind, pure, Except.pure, except_ok_bind, except_error_bind, Except.toOption]
                  | labelRef =>
                    simp only [hko, convOp, convOpKind, List.map_cons, List.map_nil,
                      reduceCtorEq, reduceIte, ne_eq, not_true_eq_false,
                      not_false_eq_true, if_true, if_false, ite_true, ite_false, pure, Except.pure, except_ok_bind, except_error_bind]
                    unfold AsmMain.lookup_symbol
                    cases hf : ctx.symbols.find? (fun p => p.1 == o.text) with
                    | none => simp [pure, Except.pure, except_ok_bind, except_error_bind, Except.toOption]
                    | some p => simp [pure, Except.pure, except_ok_bind, except_error_bind, Except.toOption]
                  | rawNumber =>
                    simp only [hko, convOp, convOpKind, List.map_cons, List.map_nil,
                      reduceCtorEq, reduceIte, ne_eq, not_true_eq_false,
                      not_false_eq_true, if_true, if_false, ite_true, ite_false, pure, Except.pure, except_ok_bind, except_error_bind]
                    cases hp16 : parse_number16 o.text with
                    | error er =>
                      have hpc := parse_number16_conv o.text
                      rw [hp16] at hpc
                      obtain ⟨er2, hpB⟩ := except_toOption_none_iff.1 (by simpa using hpc)
                      simp [hpB, except_error_bind, pure, Except.pure, Except.toOption]
                    | ok v =>
                      have hpc := parse_number16_conv o.text
                      rw [hp16] at hpc
                      have hpB : parse_number16B o.text = .ok v :=
                        except_toOption_ok_iff.1 (by simpa using hpc)
                      simp [hpB, except_ok_bind, except_error_bind, pure, Except.pure, Except.toOption]
            · have h5f : iequals pl.op "JZ".data = false := by
                cases hc : iequals pl.op "JZ".data
                · rfl
                · exact absurd hc h5
              rw [find_instr_none h1f h2f h3f h4f h5f]
              simp [h1f, h2f, h3f, h4f, h5f, pure, Except.pure, except_ok_bind,
                except_error_bind, Except.toOption]

theorem zip_map_convLine :
    ∀ (lines : List AsmMain.ParsedLine) (la : List Nat),
      (lines.map convLine).zip la = (lines.zip la).map (fun p => (convLine p.1, p.2)) := by
  intro lines
  induction lines with
  | nil => intro la; rfl
  | cons pl rest ih =>
    intro la
    cases la with
    | nil => rfl
    | cons a la2 =>
      simp only [List.map_cons, List.zip_cons_cons, ih]

theorem pass2_go_conv (ctx : AsmMain.AsmContext) :
    ∀ (ps : List (AsmMain.ParsedLine × Nat)),
      (∀ p ∈ ps, plainLine p.1 = true) →
      (AsmScratch.pass2_go ctx.symbols (ps.map (fun p => (convLine p.1, p.2)))).toOption =
        (AsmMain.pass2_go ctx ps).toOption := by
  intro ps
  induction ps with
  | nil => intro _; rfl
  | cons p rest ih =>
    intro hall
    obtain ⟨pl, addr⟩ := p
    rw [List.map_cons]
    unfold AsmMain.pass2_go AsmScratch.pass2_go
    rw [except_toOption_bind, except_toOption_bind]
    rw [pass2_line_conv ctx addr pl (hall (pl, addr) (List.mem_cons_self _ _))]
    cases ho : (AsmMain.pass2_line ctx addr pl).toOption with
    | none => rfl
    | some ws =>
      simp only [Option.some_bind]
      rw [except_toOption_bind, except_toOption_bind]
      rw [ih (fun q hq => hall q (List.mem_cons_of_mem _ hq))]

theorem pass2_conv (lines : List AsmMain.ParsedLine) (ctx : AsmMain.AsmContext)
    (hall : lines.all plainLine = true) :
    (AsmScratch.pass2 (lines.map convLine) (convCtx ctx)).toOption =
      (AsmMain.pass2 lines ctx).toOption := by
  unfold AsmMain.pass2 AsmScratch.pass2
  rw [show (convCtx ctx).symbols = ctx.symbols from rfl,
    show (convCtx ctx).line_addr = ctx.line_addr from rfl,
    zip_map_convLine lines ctx.line_addr]
  exact pass2_go_conv ctx (lines.zip ctx.line_addr)
    (fun p hp => by
      obtain ⟨a, b⟩ := p
      exact (List.all_eq_true.1 hall) a (List.of_mem_zip hp).1)

theorem assemble_conv (src : List Char) (h : commonSrc src = true) :
    (AsmScratch.assemble src).toOption = (AsmMain.assemble src).toOption := by
  have hcl : (getlines src).all commonLine = true := by
    unfold commonSrc at h
    exact h
  unfold AsmMain.assemble AsmScratch.assemble
  rw [except_toOption_bind, except_toOption_bind]
  have hA : AsmMain.parse_source src = AsmMain.parse_source_go 1 (getlines src) := rfl
  have hB : AsmScratch.parse_source src = AsmScratch.parse_source_go (getlines src) := rfl
  rw [hA, hB, parse_source_go_conv (getlines src) 1 hcl]
  cases hp : (AsmMain.parse_source_go 1 (getlines src)).toOption with
  | none => rfl
  | some lines =>
    simp only [Option.map_some', Option.some_bind]
    have hok : AsmMain.parse_source_go 1 (getlines src) = .ok lines :=
      except_toOption_ok_iff.1 hp
    have hplain : lines.all plainLine = true :=
      parse_source_go_plain (getlines src) 1 lines hcl hok
    rw [except_toOption_bind, except_toOption_bind]
    have hp1 : (AsmScratch.pass1 (lines.map convLine)).toOption =
        ((AsmMain.pass1 lines {}).toOption).map convCtx := by
      unfold AsmMain.pass1 AsmScratch.pass1
      rw [show ({} : AsmScratch.State1) = convCtx {} from rfl]
      exact pass1_go_conv lines {} hplain
    rw [hp1]
    cases hq : (AsmMain.pass1 lines {}).toOption with
    | none => rfl
    | some ctx =>
      simp only [Option.map_some', Option.some_bind]
      rw [except_toOption_bind, except_toOption_bind]
      rw [pass2_conv lines ctx hplain]

/-- C3 counterexample: the two `assemble` implementations are not
equivalent on all sources.  On `".word 5"` the main assembler's lexer
throws (its identifier rule has no `'.'` case), while the scratch
assembler accepts the directive and emits the word `5` (bytes `[5, 0]`). -/
theorem C3_equivalence_counterexample :
    AsmMain.assemble ".word 5".data = .error AsmMain.eUnexpectedChar ∧
    AsmScratch.assemble ".word 5".data = .ok [5, 0] :=
  ⟨by decide, by decide⟩

/-- C3 (amended): on sources whose pre-comment text uses only characters
common to both lexers (whitespace, `','` `':'` `'#'` `'_'`, digits, and
uppercase letters — excluding lowercase letters, `'.'`, `'['`, `']'`,
`'+'`), the two `assemble` implementations agree: they fail together, and
on success they produce the same byte vector (error messages differ). -/
theorem C3_restricted_equivalence (src : List Char) (h : commonSrc src = true) :
    (AsmScratch.assemble src).toOption = (AsmMain.assemble src).toOption :=
  assemble_conv src h

theorem C3_restricted_equivalence_witness :
    commonSrc "START: ADD R0, #2\nJMP START".data = true ∧
    (AsmScratch.assemble "START: ADD R0, #2\nJMP START".data).toOption =
      (AsmMain.assemble "START: ADD R0, #2\nJMP START".data).toOption :=
  ⟨by decide, C3_restricted_equivalence "START: ADD R0, #2\nJMP START".data (by decide)⟩
